import Mathlib

/-!
# Multi-view record stores with lazy deletion

A shallow embedding of `HospitalQueueSystem.cpp` and
`Warehouse_Inventory_Tracker.cpp`.

Modelling conventions

* `std::unordered_map<string, V>` is an association list `List (String × V)`;
  `find` is `mapFind`, `erase` is `mapErase`, `m[k] = v` is `mapSet` and the
  reading form of `m[k]` is `mapIndex`, which inserts a default value when the
  key is missing, as `operator[]` does.
* `std::queue` is a list whose head is the front; `std::stack` is a list whose
  head is the top.
* `std::priority_queue` is the list of its elements in the order in which `pop`
  would deliver them, so `top` is the head and `pop` is the tail; `push` places
  the new element behind every element that the comparator does not rank
  strictly below it.
* `int` and `long long` values are integers kept in range by `wrap32` and
  `wrap64`: every arithmetic result the program stores is wrapped to 32 or 64
  bits in two's complement. Signed overflow is undefined in C++; the wrap is what
  the compiled program does.
* The `double` quotient of the statistics and its printing with six significant
  digits are computed exactly, on naturals (`roundSig`); what is recorded of the
  printed number is its value, as a decimal mantissa and exponent.
* Every member function returns the new state together with the lines it
  prints, each line recorded as a structured event.
* Loops and the self-call of `treatNextNormal` are structural recursions on the
  container they consume. For the bounds on their length they are stated once
  more on the state itself with a fuel (`whileFuel`, `treatNextNormalFuel`) and
  shown to return what the structural definitions return.
-/

namespace DSA

/-! ## Containers -/

/-- The `find` of an unordered map: the value stored under `k`, if any. -/
def mapFind {β : Type} : List (String × β) → String → Option β
  | [], _ => none
  | e :: m, k => if e.1 = k then some e.2 else mapFind m k

/-- The test `m.find(k) != m.end()`. -/
def mapContains {β : Type} (m : List (String × β)) (k : String) : Bool :=
  (mapFind m k).isSome

/-- The `erase` of an unordered map. -/
def mapErase {β : Type} (m : List (String × β)) (k : String) : List (String × β) :=
  m.filter (fun e => decide (e.1 ≠ k))

/-- The assignment `m[k] = v`: the value under `k` is replaced where it is, a
new key is added. -/
def mapSet {β : Type} : List (String × β) → String → β → List (String × β)
  | [], k, v => [(k, v)]
  | e :: m, k, v => if e.1 = k then (k, v) :: m else e :: mapSet m k v

/-- The expression `m[k]` read as a value: a missing key is inserted with the
default value `d`, and the map after the access is returned as well. -/
def mapIndex {β : Type} (m : List (String × β)) (k : String) (d : β) :
    β × List (String × β) :=
  match mapFind m k with
  | some v => (v, m)
  | none => (d, (k, d) :: m)

/-- The comparison `a < b` of `std::string`: lexicographic on the characters. -/
def strLt (a b : String) : Bool := decide (a.toList < b.toList)

/-- The comparison `a <= b` of `std::string`. -/
def strLe (a b : String) : Bool := !strLt b a

/-! ## Machine arithmetic -/

/-- The value an `int` holds after a computation whose exact result is `x`: the
two's complement wrap of `x` to 32 bits. -/
def wrap32 (x : Int) : Int := (x + 2147483648) % 4294967296 - 2147483648

/-- The value a `long long` holds after a computation whose exact result is `x`:
the two's complement wrap of `x` to 64 bits. -/
def wrap64 (x : Int) : Int :=
  (x + 9223372036854775808) % 18446744073709551616 - 9223372036854775808

/-- The quotient `n / d` of two naturals, `d` positive, rounded to the nearest
natural, a tie going to the even neighbour. -/
def roundHalfEven (n d : Nat) : Nat :=
  if 2 * (n % d) < d then n / d
  else if d < 2 * (n % d) then n / d + 1
  else if (n / d) % 2 = 0 then n / d else n / d + 1

/-- Scale the positive quotient `n / d` by powers of the base `b` until it lies
between `b ^ (p - 1)` and `b ^ p`; the exponent `e` keeps track, so that
`n / d * b ^ e` does not change. `fuel` bounds the number of steps. -/
def normalise (b p : Nat) : Nat → Nat → Nat → Int → Nat × Nat × Int
  | 0, n, d, e => (n, d, e)
  | fuel + 1, n, d, e =>
    if n < d * b ^ (p - 1) then normalise b p fuel (n * b) d (e - 1)
    else if d * b ^ p ≤ n then normalise b p fuel n (d * b) (e + 1)
    else (n, d, e)

/-- The quotient `n / d` of two naturals rounded to `p` significant digits in
base `b`, ties to even: the pair `(m, e)` stands for `m * b ^ e`, and `m` has `p`
digits unless the quotient is zero. The 400 scaling steps are more than a
quotient of a `long long` by an `int` needs. -/
def roundSig (b p n d : Nat) : Nat × Int :=
  if n = 0 then (0, 0)
  else
    let r := normalise b p 400 n d 0
    let m := roundHalfEven r.1 r.2.1
    if m = b ^ p then (b ^ (p - 1), r.2.2 + 1) else (m, r.2.2)

/-- The fraction of naturals equal to `m * 2 ^ e / c`. -/
def dyadicOver (m : Nat) (e : Int) (c : Nat) : Nat × Nat :=
  if 0 ≤ e then (m * 2 ^ e.toNat, c) else (m, c * 2 ^ (-e).toNat)

/-- The number `cout` prints for `(double)total / count` with `count` positive:
`total` is converted to `double` (53 significant bits), the division is rounded
to `double`, and the result is printed with six significant decimal digits. The
pair `(m, e)` stands for the printed value `m * 10 ^ e`. -/
def printedQuotient (total count : Int) : Int × Int :=
  let x := roundSig 2 53 total.natAbs 1
  let q := dyadicOver x.1 x.2 count.natAbs
  let y := roundSig 2 53 q.1 q.2
  let z := dyadicOver y.1 y.2 1
  let r := roundSig 10 6 z.1 z.2
  (if total < 0 then -(r.1 : Int) else (r.1 : Int), r.2)

/-- The `Patient` record. -/
structure Patient where
  id : String
  name : String
  severity : Int
  arrivalOrder : Int
  arrivalTime : Int
  deriving DecidableEq, Repr

/-- The value-initialised `Patient` that `record[id]` would insert. -/
def Patient.blank : Patient :=
  { id := "", name := "", severity := 0, arrivalOrder := 0, arrivalTime := 0 }

/-- The comparator `PriorityCompare::operator()`: `true` when `a` ranks below `b`. -/
def PriorityCompare (a b : Patient) : Bool :=
  if a.severity ≠ b.severity then decide (a.severity < b.severity)
  else decide (a.arrivalOrder > b.arrivalOrder)

/-- The `push` of `priority_queue<Patient, vector<Patient>, PriorityCompare>`. -/
def pqPush (p : Patient) : List Patient → List Patient
  | [] => [p]
  | e :: rest => if PriorityCompare e p then p :: e :: rest else e :: pqPush p rest

/-- The lines printed by the hospital system. -/
inductive Out where
  | added (name id : String) (severity : Int)
  | normalEmpty
  | priorityEmpty
  | treatedFIFO (p : Patient)
  | treatedPriority (p : Patient)
  | normalHeader
  | priorityHeader
  | shown (p : Patient)
  | found (p : Patient)
  | notFound (id : String)
  | statsHeader
  | avgNormal (mantissa exponent : Int)
  | noNormal
  | avgPriority (mantissa exponent : Int)
  | noPriority
  deriving DecidableEq, Repr

/-- The data members of `HospitalQueueSystem`. -/
structure HospitalQueueSystem where
  normalQueue : List Patient
  priorityQueue : List Patient
  record : List (String × Patient)
  arrivalCounter : Int
  totalWaitNormal : Int
  totalWaitPriority : Int
  treatedNormalCount : Int
  treatedPriorityCount : Int
  deriving DecidableEq, Repr

/-- A freshly constructed `HospitalQueueSystem`. -/
def HospitalQueueSystem.init : HospitalQueueSystem :=
  { normalQueue := [], priorityQueue := [], record := [], arrivalCounter := 0,
    totalWaitNormal := 0, totalWaitPriority := 0,
    treatedNormalCount := 0, treatedPriorityCount := 0 }

/-- The member `addPatient`. -/
def addPatient (s : HospitalQueueSystem) (id name : String) (severity : Int) :
    HospitalQueueSystem × List Out :=
  let p : Patient :=
    { id := id, name := name, severity := severity,
      arrivalOrder := wrap32 (s.arrivalCounter + 1),
      arrivalTime := wrap32 (s.arrivalCounter + 1) }
  ({ s with
      arrivalCounter := wrap32 (s.arrivalCounter + 1),
      normalQueue := s.normalQueue ++ [p],
      priorityQueue := pqPush p s.priorityQueue,
      record := mapSet s.record id p },
   [Out.added name id severity])

/-- The loop of `cleanPriorityTop` (and of `cleanNormalFront`) on the queue. -/
def dropTreated (record : List (String × Patient)) : List Patient → List Patient
  | [] => []
  | p :: rest => if mapContains record p.id then p :: rest else dropTreated record rest

/-- The member `cleanPriorityTop`. -/
def cleanPriorityTop (s : HospitalQueueSystem) : HospitalQueueSystem :=
  { s with priorityQueue := dropTreated s.record s.priorityQueue }

/-- The member `cleanNormalFront`. -/
def cleanNormalFront (s : HospitalQueueSystem) : HospitalQueueSystem :=
  { s with normalQueue := dropTreated s.record s.normalQueue }

/-- The body of `treatNextNormal`, by recursion on the normal queue `q` of the
state it is called on; the self-call happens after the front has been popped. -/
def treatNextNormalFrom : List Patient → HospitalQueueSystem → HospitalQueueSystem × List Out
  | [], s => (s, [Out.normalEmpty])
  | p :: q, s =>
    let s1 := { s with normalQueue := q }
    let r : HospitalQueueSystem × List Out :=
      if mapContains s1.record p.id then
        let currentTime := wrap32 (s1.arrivalCounter + 1)
        ({ s1 with
            arrivalCounter := currentTime,
            totalWaitNormal :=
              wrap64 (s1.totalWaitNormal + wrap32 (currentTime - p.arrivalTime)),
            treatedNormalCount := wrap32 (s1.treatedNormalCount + 1),
            record := mapErase s1.record p.id },
         [Out.treatedFIFO p])
      else treatNextNormalFrom q s1
    (cleanPriorityTop r.1, r.2)

/-- The member `treatNextNormal`. -/
def treatNextNormal (s : HospitalQueueSystem) : HospitalQueueSystem × List Out :=
  treatNextNormalFrom s.normalQueue s

/-- The skip loop of `treatNextPriority`: `p` is the entry popped last, the list
is what is left in the queue. The result is the first entry found in `record`
with the queue at that moment, or `none` when the queue ran empty. -/
def skipTreated (record : List (String × Patient)) :
    Patient → List Patient → Option (Patient × List Patient)
  | p, [] => if mapContains record p.id then some (p, []) else none
  | p, e :: rest =>
    if mapContains record p.id then some (p, e :: rest) else skipTreated record e rest

/-- The member `treatNextPriority`. -/
def treatNextPriority (s : HospitalQueueSystem) : HospitalQueueSystem × List Out :=
  match s.priorityQueue with
  | [] => (s, [Out.priorityEmpty])
  | p0 :: rest0 =>
    match skipTreated s.record p0 rest0 with
    | none => ({ s with priorityQueue := [] }, [Out.priorityEmpty])
    | some (p, rest) =>
      let currentTime := wrap32 (s.arrivalCounter + 1)
      (cleanNormalFront
        { s with
          priorityQueue := rest,
          arrivalCounter := currentTime,
          totalWaitPriority :=
            wrap64 (s.totalWaitPriority + wrap32 (currentTime - p.arrivalTime)),
          treatedPriorityCount := wrap32 (s.treatedPriorityCount + 1),
          record := mapErase s.record p.id },
       [Out.treatedPriority p])

/-- The display loop of `showQueues` over a copy of a queue. -/
def showLoop (record : List (String × Patient)) : List Patient → List Out
  | [] => []
  | p :: rest =>
    if mapContains record p.id then Out.shown p :: showLoop record rest
    else showLoop record rest

/-- The member `showQueues`. -/
def showQueues (s : HospitalQueueSystem) : HospitalQueueSystem × List Out :=
  let tmp := s.normalQueue
  let tmpPQ := s.priorityQueue
  (s, [Out.normalHeader] ++ showLoop s.record tmp
        ++ [Out.priorityHeader] ++ showLoop s.record tmpPQ)

/-- The member `simulateCompareAverageWait`; of each average it prints, the
printed value is recorded. -/
def simulateCompareAverageWait (s : HospitalQueueSystem) : HospitalQueueSystem × List Out :=
  (s, [Out.statsHeader]
      ++ (if s.treatedNormalCount > 0
          then [Out.avgNormal (printedQuotient s.totalWaitNormal s.treatedNormalCount).1
            (printedQuotient s.totalWaitNormal s.treatedNormalCount).2]
          else [Out.noNormal])
      ++ (if s.treatedPriorityCount > 0
          then [Out.avgPriority (printedQuotient s.totalWaitPriority s.treatedPriorityCount).1
            (printedQuotient s.totalWaitPriority s.treatedPriorityCount).2]
          else [Out.noPriority]))

/-- The member `findPatient`. -/
def findPatient (s : HospitalQueueSystem) (id : String) : HospitalQueueSystem × List Out :=
  if mapContains s.record id then
    let r := mapIndex s.record id Patient.blank
    ({ s with record := r.2 }, [Out.found r.1])
  else (s, [Out.notFound id])

/-- One menu action of the hospital program. -/
inductive HOp where
  | add (id name : String) (severity : Int)
  | treatNormal
  | treatPriority
  | display
  | find (id : String)
  | stats
  deriving DecidableEq, Repr

/-- The effect of one menu action. -/
def HOp.apply : HOp → HospitalQueueSystem → HospitalQueueSystem × List Out
  | HOp.add id name severity, s => addPatient s id name severity
  | HOp.treatNormal, s => treatNextNormal s
  | HOp.treatPriority, s => treatNextPriority s
  | HOp.display, s => showQueues s
  | HOp.find id, s => findPatient s id
  | HOp.stats, s => simulateCompareAverageWait s

/-- A sequence of menu actions run from state `s`; the printed lines are
collected in order. -/
def runH : List HOp → HospitalQueueSystem → HospitalQueueSystem × List Out
  | [], s => (s, [])
  | op :: ops, s =>
    let r := op.apply s
    let r2 := runH ops r.1
    (r2.1, r.2 ++ r2.2)

/-- The ids passed to `addPatient` in a sequence of actions, in order. -/
def addedIds : List HOp → List String
  | [] => []
  | HOp.add id _ _ :: ops => id :: addedIds ops
  | _ :: ops => addedIds ops

/-- The ids of the patients reported as treated, in order. -/
def treatedIds : List Out → List String
  | [] => []
  | Out.treatedFIFO p :: out => p.id :: treatedIds out
  | Out.treatedPriority p :: out => p.id :: treatedIds out
  | _ :: out => treatedIds out

/-- The states the hospital program can be in. -/
def HReachable (s : HospitalQueueSystem) : Prop :=
  ∃ ops : List HOp, (runH ops HospitalQueueSystem.init).1 = s

/-! ## Warehouse inventory tracker -/

/-- The `Item` record. -/
structure Item where
  id : String
  name : String
  expiry : String
  rackId : String
  deriving DecidableEq, Repr

/-- The value-initialised `Item` that `itemMap[id]` would insert. -/
def Item.blank : Item := { id := "", name := "", expiry := "", rackId := "" }

/-- The comparison `a < b` of `std::pair<string, string>`. -/
def pairLt (a b : String × String) : Bool :=
  strLt a.1 b.1 || (!strLt b.1 a.1 && strLt a.2 b.2)

/-- The comparator `greater<pair<string, string>>` of the expiry heap. -/
def pairGreater (a b : String × String) : Bool := pairLt b a

/-- The `push` of the expiry heap, a `priority_queue` under `pairGreater`. -/
def heapPush (x : String × String) : List (String × String) → List (String × String)
  | [] => [x]
  | e :: rest => if pairGreater e x then x :: e :: rest else e :: heapPush x rest

/-- The lines printed by the warehouse tracker. -/
inductive WOut where
  | addedItem (name id rackId expiry : String)
  | rackEmptyOrMissing (rackId : String)
  | dispatched (it : Item) (rackId : String)
  | topNotFound
  | itemNotFound (id : String)
  | itemFound (it : Item)
  | rackMissing (rackId : String)
  | rackHeader (rackId : String)
  | rackLine (it : Item)
  | rackLineRemoved (id : String)
  | removedExpired (it : Item) (id expiry : String)
  | listHeader
  | listLine (it : Item)
  deriving DecidableEq, Repr

/-- The data members of `Warehouse`. -/
structure Warehouse where
  racks : List (String × List String)
  itemMap : List (String × Item)
  expiryHeap : List (String × String)
  deriving DecidableEq, Repr

/-- A freshly constructed `Warehouse`. -/
def Warehouse.init : Warehouse := { racks := [], itemMap := [], expiryHeap := [] }

/-- The member `ensureRack`. -/
def ensureRack (s : Warehouse) (rackId : String) : Warehouse :=
  if mapContains s.racks rackId then s
  else { s with racks := mapSet s.racks rackId [] }

/-- The member `addItem`. -/
def addItem (s : Warehouse) (rackId id name expiry : String) : Warehouse × List WOut :=
  let s1 := ensureRack s rackId
  let it : Item := { id := id, name := name, expiry := expiry, rackId := rackId }
  let r := mapIndex s1.racks rackId []
  ({ s1 with
      racks := mapSet r.2 rackId (id :: r.1),
      itemMap := mapSet s1.itemMap id it,
      expiryHeap := heapPush (expiry, id) s1.expiryHeap },
   [WOut.addedItem name id rackId expiry])

/-- The member `dispatchFromRack`. -/
def dispatchFromRack (s : Warehouse) (rackId : String) : Warehouse × List WOut :=
  if !mapContains s.racks rackId then (s, [WOut.rackEmptyOrMissing rackId])
  else
    let r := mapIndex s.racks rackId []
    match r.1 with
    | [] => ({ s with racks := r.2 }, [WOut.rackEmptyOrMissing rackId])
    | topId :: rest =>
      let s1 := { s with racks := mapSet r.2 rackId rest }
      if mapContains s1.itemMap topId then
        let i := mapIndex s1.itemMap topId Item.blank
        ({ s1 with itemMap := mapErase i.2 topId }, [WOut.dispatched i.1 rackId])
      else (s1, [WOut.topNotFound])

/-- The member `findItem`. -/
def findItem (s : Warehouse) (id : String) : Warehouse × List WOut :=
  if !mapContains s.itemMap id then (s, [WOut.itemNotFound id])
  else
    let i := mapIndex s.itemMap id Item.blank
    ({ s with itemMap := i.2 }, [WOut.itemFound i.1])

/-- The display loop of `showRack` over the copy `tmp` of the stack. -/
def showRackLoop : List String → List (String × Item) → List (String × Item) × List WOut
  | [], m => (m, [])
  | id :: tmp, m =>
    if mapContains m id then
      let i := mapIndex m id Item.blank
      let t := showRackLoop tmp i.2
      (t.1, WOut.rackLine i.1 :: t.2)
    else
      let t := showRackLoop tmp m
      (t.1, WOut.rackLineRemoved id :: t.2)

/-- The member `showRack`. -/
def showRack (s : Warehouse) (rackId : String) : Warehouse × List WOut :=
  if !mapContains s.racks rackId then (s, [WOut.rackMissing rackId])
  else
    let r := mapIndex s.racks rackId []
    let t := showRackLoop r.1 s.itemMap
    ({ s with racks := r.2, itemMap := t.1 }, WOut.rackHeader rackId :: t.2)

/-- The loop of `removeExpired` on the expiry heap and the item map. -/
def removeExpiredLoop (currentDate : String) :
    List (String × String) → List (String × Item) →
      List (String × String) × List (String × Item) × List WOut
  | [], m => ([], m, [])
  | pr :: rest, m =>
    if strLe pr.1 currentDate then
      let expiry := pr.1
      let id := pr.2
      if mapContains m id then
        let i := mapIndex m id Item.blank
        let t := removeExpiredLoop currentDate rest (mapErase i.2 id)
        (t.1, t.2.1, WOut.removedExpired i.1 id expiry :: t.2.2)
      else removeExpiredLoop currentDate rest m
    else (pr :: rest, m, [])

/-- The member `removeExpired`. -/
def removeExpired (s : Warehouse) (currentDate : String) : Warehouse × List WOut :=
  let t := removeExpiredLoop currentDate s.expiryHeap s.itemMap
  ({ s with expiryHeap := t.1, itemMap := t.2.1 }, t.2.2)

/-- The member `listAllItems`. The lines follow the order of the association
list; `unordered_map` iterates in an unspecified order, so of the listing only
the collection of its lines is meant. -/
def listAllItems (s : Warehouse) : Warehouse × List WOut :=
  (s, WOut.listHeader :: s.itemMap.map (fun kv => WOut.listLine kv.2))

/-- One menu action of the warehouse program. -/
inductive WOp where
  | add (rackId id name expiry : String)
  | dispatch (rackId : String)
  | find (id : String)
  | display (rackId : String)
  | sweep (currentDate : String)
  | listAll
  deriving DecidableEq, Repr

/-- The effect of one menu action. -/
def WOp.apply : WOp → Warehouse → Warehouse × List WOut
  | WOp.add rackId id name expiry, s => addItem s rackId id name expiry
  | WOp.dispatch rackId, s => dispatchFromRack s rackId
  | WOp.find id, s => findItem s id
  | WOp.display rackId, s => showRack s rackId
  | WOp.sweep currentDate, s => removeExpired s currentDate
  | WOp.listAll, s => listAllItems s

/-- A sequence of menu actions run from state `s`; the printed lines are
collected in order. -/
def runW : List WOp → Warehouse → Warehouse × List WOut
  | [], s => (s, [])
  | op :: ops, s =>
    let r := op.apply s
    let r2 := runW ops r.1
    (r2.1, r.2 ++ r2.2)

/-- The ids passed to `addItem` in a sequence of actions, in order. -/
def addedItemIds : List WOp → List String
  | [] => []
  | WOp.add _ id _ _ :: ops => id :: addedItemIds ops
  | _ :: ops => addedItemIds ops

/-- The states the warehouse program can be in. -/
def WReachable (s : Warehouse) : Prop :=
  ∃ ops : List WOp, (runW ops Warehouse.init).1 = s

/-- The actions that add the patients `ps` (id, name, severity) one after the other. -/
def addOps (ps : List (String × String × Int)) : List HOp :=
  ps.map (fun t => HOp.add t.1 t.2.1 t.2.2)

/-- The records `addPatient` creates for `ps` when the arrival counter stands at `c`. -/
def admitted (c : Int) : List (String × String × Int) → List Patient
  | [] => []
  | t :: ps =>
    { id := t.1, name := t.2.1, severity := t.2.2,
      arrivalOrder := wrap32 (c + 1), arrivalTime := wrap32 (c + 1) }
      :: admitted (wrap32 (c + 1)) ps

/-- A sample session: `a`, `b`, `c` arrive, `b` is treated by priority and `a` by
arrival, which leaves the stale entry of `b` at the front of the normal queue. -/
def sampleWard : HospitalQueueSystem :=
  (runH [HOp.add "a" "A" 1, HOp.add "b" "B" 5, HOp.add "c" "C" 1,
    HOp.treatPriority, HOp.treatNormal] HospitalQueueSystem.init).1

/-- A sample session that ends with a stale entry alone in the normal queue and
an empty priority queue: `a` and `b` arrive, `b` is treated by priority, `a` by
arrival. -/
def drainedWard : HospitalQueueSystem :=
  (runH [HOp.add "a" "A" 1, HOp.add "b" "B" 5, HOp.treatPriority, HOp.treatNormal]
    HospitalQueueSystem.init).1

/-- A sample session that ends with a stale entry alone in the priority queue and
an empty normal queue: `a` and `b` arrive, `a` is treated by arrival, `b` by
priority. -/
def staleTopWard : HospitalQueueSystem :=
  (runH [HOp.add "a" "A" 1, HOp.add "b" "B" 5, HOp.treatNormal, HOp.treatPriority]
    HospitalQueueSystem.init).1

/-- A hospital with the single live patient `a`. -/
def oneLiveWard : HospitalQueueSystem :=
  (runH [HOp.add "a" "A" 1] HospitalQueueSystem.init).1

/-- A warehouse with the single live item `a` on rack `r`. -/
def oneItemStore : Warehouse :=
  (runW [WOp.add "r" "a" "A" "2025-01-01"] Warehouse.init).1

/-- A warehouse whose rack `r` holds the live item `a` under the id of `b`, which
a sweep has removed. -/
def sweptStore : Warehouse :=
  (runW [WOp.add "r" "a" "A" "2025-01-01", WOp.add "r" "b" "B" "2020-01-01",
    WOp.sweep "2021-01-01"] Warehouse.init).1

/-- A priority queue whose pop order agrees with `PriorityCompare`: no entry
ranks below an entry behind it. -/
def pqSorted (l : List Patient) : Prop :=
  l.Pairwise (fun a b => PriorityCompare a b = false)

/-- The link between `record` and the priority queue that holds while every id
is added at most once; `used` lists the ids added so far. -/
def PriorityLinked (used : List String) (s : HospitalQueueSystem) : Prop :=
  (∀ e ∈ s.priorityQueue, e.id ∈ used) ∧
  (s.priorityQueue.map (fun e => e.id)).Nodup ∧
  (∀ k q, mapFind s.record k = some q → q.id = k ∧ q ∈ s.priorityQueue) ∧
  pqSorted s.priorityQueue

/-- The session of the priority example: severities 3, 5, 1, 5 arrive in this
order, then four priority takes. -/
def priorityExample : List HOp :=
  [HOp.add "p1" "P1" 3, HOp.add "p2" "P2" 5, HOp.add "p3" "P3" 1, HOp.add "p4" "P4" 5,
    HOp.treatPriority, HOp.treatPriority, HOp.treatPriority, HOp.treatPriority]

/-- An expiry heap whose pop order agrees with `pairGreater`: no pair is greater
than a pair behind it. -/
def heapSorted (l : List (String × String)) : Prop :=
  l.Pairwise (fun a b => pairGreater a b = false)

/-- The link between `itemMap` and the expiry heap that holds while every id is
added at most once; `used` lists the ids added so far. -/
def ExpiryLinked (used : List String) (w : Warehouse) : Prop :=
  (∀ e ∈ w.expiryHeap, e.2 ∈ used) ∧
  (w.expiryHeap.map (fun e => e.2)).Nodup ∧
  (∀ k it, mapFind w.itemMap k = some it → it.id = k ∧ (it.expiry, k) ∈ w.expiryHeap) ∧
  heapSorted w.expiryHeap

/-- The session of the sweep example: three items with expiries 2024-01-01,
2024-02-01 and 2024-03-01. -/
def sweepExample : List WOp :=
  [WOp.add "r1" "i1" "I1" "2024-01-01", WOp.add "r1" "i2" "I2" "2024-02-01",
    WOp.add "r2" "i3" "I3" "2024-03-01"]

/-- The states reached from the fresh system by at most `n` actions. -/
def HReachableIn (n : Nat) (s : HospitalQueueSystem) : Prop :=
  ∃ ops : List HOp, ops.length ≤ n ∧ (runH ops HospitalQueueSystem.init).1 = s

/-- What holds of a state as long as no `int` has overflowed: the counter is not
negative, every queue entry carries equal `arrivalTime` and `arrivalOrder`, a
stamp between one and the counter, no two entries of the priority queue share an
`arrivalOrder`, and the wait totals and treated counts are bounded by the
counter. -/
def Stamped (s : HospitalQueueSystem) : Prop :=
  0 ≤ s.arrivalCounter ∧
  (∀ e ∈ s.normalQueue, e.arrivalTime = e.arrivalOrder ∧ 1 ≤ e.arrivalOrder ∧
    e.arrivalOrder ≤ s.arrivalCounter) ∧
  (∀ e ∈ s.priorityQueue, e.arrivalTime = e.arrivalOrder ∧ 1 ≤ e.arrivalOrder ∧
    e.arrivalOrder ≤ s.arrivalCounter) ∧
  (s.priorityQueue.map (fun e => e.arrivalOrder)).Nodup ∧
  (0 ≤ s.totalWaitNormal ∧ s.totalWaitNormal ≤ s.arrivalCounter * 2147483647) ∧
  (0 ≤ s.treatedNormalCount ∧ s.treatedNormalCount ≤ s.arrivalCounter) ∧
  (0 ≤ s.totalWaitPriority ∧ s.totalWaitPriority ≤ s.arrivalCounter * 2147483647) ∧
  (0 ≤ s.treatedPriorityCount ∧ s.treatedPriorityCount ≤ s.arrivalCounter)

/-- A queue entry stamped fewer than `n` increments of the counter ago, the
counter being `c` now: its `arrivalTime` is its `arrivalOrder`, and the counter
is that stamp advanced `a` times, wrapped or not, for some `a` below `n`. -/
def AgedEntry (n c : Int) (e : Patient) : Prop :=
  e.arrivalTime = e.arrivalOrder ∧
  ∃ a : Int, 0 ≤ a ∧ a < n ∧ wrap32 (e.arrivalOrder + a) = c

/-- What holds of the stamps after at most `n` increments of the counter,
wrapped or not: the counter is an `int`, every queue entry was stamped fewer
than `n` increments ago, and no two entries of the priority queue share an
`arrivalOrder`. -/
def Aged (n : Int) (s : HospitalQueueSystem) : Prop :=
  wrap32 s.arrivalCounter = s.arrivalCounter ∧
  (∀ e ∈ s.normalQueue, AgedEntry n s.arrivalCounter e) ∧
  (∀ e ∈ s.priorityQueue, AgedEntry n s.arrivalCounter e) ∧
  (s.priorityQueue.map (fun e => e.arrivalOrder)).Nodup

/-- Every id in `record` has an entry in each of the two queues. -/
def Covered (s : HospitalQueueSystem) : Prop :=
  ∀ k, mapContains s.record k = true →
    (∃ e ∈ s.normalQueue, e.id = k) ∧ (∃ e ∈ s.priorityQueue, e.id = k)

/-- The waits of the patients a call reports as treated through the normal
queue: the clock value `clock` assigned at the treatment minus the
`arrivalOrder` of the patient. -/
def fifoWaits (clock : Int) (out : List Out) : List Int :=
  out.filterMap (fun o =>
    match o with
    | Out.treatedFIFO p => some (clock - p.arrivalOrder)
    | _ => none)

/-- The waits of the patients a call reports as treated through the priority
queue. -/
def priorityWaits (clock : Int) (out : List Out) : List Int :=
  out.filterMap (fun o =>
    match o with
    | Out.treatedPriority p => some (clock - p.arrivalOrder)
    | _ => none)

/-- The waits of all patients treated through the normal queue in a run from `s`,
in order; the clock of a treatment is the counter right after the call. -/
def normalDeltas : List HOp → HospitalQueueSystem → List Int
  | [], _ => []
  | op :: ops, s =>
    fifoWaits (op.apply s).1.arrivalCounter (op.apply s).2 ++ normalDeltas ops (op.apply s).1

/-- The waits of all patients treated through the priority queue in a run from
`s`, in order. -/
def priorityDeltas : List HOp → HospitalQueueSystem → List Int
  | [], _ => []
  | op :: ops, s =>
    priorityWaits (op.apply s).1.arrivalCounter (op.apply s).2
      ++ priorityDeltas ops (op.apply s).1

/-- The link between `record` and the normal queue that holds while every id is
added at most once; `used` lists the ids added so far. -/
def NormalLinked (used : List String) (s : HospitalQueueSystem) : Prop :=
  (∀ e ∈ s.normalQueue, e.id ∈ used) ∧
  (s.normalQueue.map (fun e => e.id)).Nodup ∧
  (∀ k q, mapFind s.record k = some q → q.id = k ∧ q ∈ s.normalQueue)

/-- A sample session in which an id comes back while its stale copy is still
queued: `a` and `b` arrive, `b` is treated by priority, `b` is added again with
new data, `a` is treated by arrival. The normal queue then starts with the stale
copy of `b`. -/
def readmittedWard : HospitalQueueSystem :=
  (runH [HOp.add "a" "A" 1, HOp.add "b" "B" 5, HOp.treatPriority, HOp.add "b" "B2" 1,
    HOp.treatNormal] HospitalQueueSystem.init).1

/-- The link between `itemMap`, the expiry heap and the rack stacks: every
stored item is filed under its own id, has its pair in the heap and its id on
the stack of its rack, and the heap pops in ascending order. -/
def Stocked (w : Warehouse) : Prop :=
  (∀ k it, mapFind w.itemMap k = some it →
    it.id = k ∧ (it.expiry, k) ∈ w.expiryHeap ∧
    ∃ st, mapFind w.racks it.rackId = some st ∧ k ∈ st) ∧
  heapSorted w.expiryHeap

/-- A warehouse in which the id `x` was added twice, first with expiry
2020-01-01, then with expiry 2030-01-01. -/
def restockedStore : Warehouse :=
  (runW [WOp.add "r" "x" "X" "2020-01-01", WOp.add "r" "x" "X" "2030-01-01"]
    Warehouse.init).1

/-- No action of the sequence is a sweep. -/
def noSweep : List WOp → Bool
  | [] => true
  | WOp.sweep _ :: _ => false
  | _ :: ops => noSweep ops

/-- No action of the sequence dispatches from rack `r`. -/
def noDispatchOf (r : String) : List WOp → Bool
  | [] => true
  | WOp.dispatch r0 :: ops => decide (r0 ≠ r) && noDispatchOf r ops
  | _ :: ops => noDispatchOf r ops

/-- No action of the sequence adds to rack `r`. -/
def noAddTo (r : String) : List WOp → Bool
  | [] => true
  | WOp.add r0 _ _ _ :: ops => decide (r0 ≠ r) && noAddTo r ops
  | _ :: ops => noAddTo r ops

/-- The ids added to rack `r` in a sequence of actions, in order. -/
def addedTo (r : String) : List WOp → List String
  | [] => []
  | WOp.add r0 id _ _ :: ops => if r0 = r then id :: addedTo r ops else addedTo r ops
  | _ :: ops => addedTo r ops

/-- The number of dispatches from rack `r` in a sequence of actions. -/
def dispatchCount (r : String) : List WOp → Nat
  | [] => 0
  | WOp.dispatch r0 :: ops => if r0 = r then dispatchCount r ops + 1 else dispatchCount r ops
  | _ :: ops => dispatchCount r ops

/-- The ids of the items reported as dispatched from rack `r`, in order. -/
def dispatchedFrom (r : String) (out : List WOut) : List String :=
  out.filterMap (fun o =>
    match o with
    | WOut.dispatched it r0 => if r0 = r then some it.id else none
    | _ => none)

/-- The bucketed stack view in the words of the specification, for the one
bucket `r`: an add to `r` pushes the id, a dispatch from `r` pops and yields the
id pushed last, every other action leaves the bucket alone. The result lists the
ids yielded, in order; `st` is the stack at the start. -/
def lifoModel (r : String) : List WOp → List String → List String
  | [], _ => []
  | WOp.add r0 id _ _ :: ops, st =>
    if r0 = r then lifoModel r ops (id :: st) else lifoModel r ops st
  | WOp.dispatch r0 :: ops, st =>
    if r0 = r then
      match st with
      | [] => lifoModel r ops []
      | id :: rest => id :: lifoModel r ops rest
    else lifoModel r ops st
  | _ :: ops, st => lifoModel r ops st

/-- The link between the rack stacks and `itemMap` that holds while every id is
added at most once and nothing is swept: a stack holds no id twice, and every id
on the stack of rack `r` is live, filed under itself and assigned to `r`. -/
def StackLinked (used : List String) (w : Warehouse) : Prop :=
  ∀ r st, mapFind w.racks r = some st →
    st.Nodup ∧ ∀ id ∈ st, id ∈ used ∧
      ∃ it, mapFind w.itemMap id = some it ∧ it.id = id ∧ it.rackId = r

/-- The session of the rack example: `a` and `b` go on rack `r`, `c` on rack `q`. -/
def rackExampleAdds : List WOp :=
  [WOp.add "r" "a" "A" "2025-01-01", WOp.add "q" "c" "C" "2025-03-01",
    WOp.add "r" "b" "B" "2025-02-01"]

/-- The dispatches of the rack example, from `r`, `q` and `r` again, with a
look at rack `r` in between. -/
def rackExampleDispatches : List WOp :=
  [WOp.dispatch "r", WOp.dispatch "q", WOp.display "r", WOp.dispatch "r"]

/-- The loop `while (cond) body` run for at most `fuel` iterations: the state at
exit together with the number of iterations made, or `none` when the fuel is
used up while the condition still holds. -/
def whileFuel {σ : Type} (cond : σ → Bool) (body : σ → σ) : Nat → σ → Option (σ × Nat)
  | 0, s => if cond s then none else some (s, 0)
  | fuel + 1, s =>
    if cond s then
      match whileFuel cond body fuel (body s) with
      | some r => some (r.1, r.2 + 1)
      | none => none
    else some (s, 0)

/-- The loop of `cleanPriorityTop` goes on while the queue is not empty and its
top is not in `record`. -/
def cleanTopCond (s : HospitalQueueSystem) : Bool :=
  match s.priorityQueue with
  | [] => false
  | p :: _ => !mapContains s.record p.id

/-- One iteration of the loop of `cleanPriorityTop`: `priorityQueue.pop()`. -/
def cleanTopBody (s : HospitalQueueSystem) : HospitalQueueSystem :=
  { s with priorityQueue := s.priorityQueue.tail }

/-- The loop of `cleanNormalFront` goes on while the queue is not empty and its
front is not in `record`. -/
def cleanFrontCond (s : HospitalQueueSystem) : Bool :=
  match s.normalQueue with
  | [] => false
  | p :: _ => !mapContains s.record p.id

/-- One iteration of the loop of `cleanNormalFront`: `normalQueue.pop()`. -/
def cleanFrontBody (s : HospitalQueueSystem) : HospitalQueueSystem :=
  { s with normalQueue := s.normalQueue.tail }

/-- The loop of `removeExpired` goes on while the heap is not empty and the
expiry on top is `<= currentDate`. The state carries the lines printed so far. -/
def sweepCond (currentDate : String) (s : Warehouse × List WOut) : Bool :=
  match s.1.expiryHeap with
  | [] => false
  | pr :: _ => strLe pr.1 currentDate

/-- One iteration of the loop of `removeExpired`. -/
def sweepBody (s : Warehouse × List WOut) : Warehouse × List WOut :=
  match s.1.expiryHeap with
  | [] => s
  | pr :: rest =>
    if mapContains s.1.itemMap pr.2 then
      let i := mapIndex s.1.itemMap pr.2 Item.blank
      ({ s.1 with expiryHeap := rest, itemMap := mapErase i.2 pr.2 },
        s.2 ++ [WOut.removedExpired i.1 pr.2 pr.1])
    else ({ s.1 with expiryHeap := rest }, s.2)

/-- The skip loop of `treatNextPriority` on the entry popped last, the queue and
the flag that the function has returned from inside the loop: it goes on while
the function has not returned and the entry is not in `record`. -/
def skipCond (record : List (String × Patient)) (s : Patient × List Patient × Bool) : Bool :=
  !s.2.2 && !mapContains record s.1.id

/-- One iteration of the skip loop of `treatNextPriority`: return when the queue
is empty, else pop the top into `p`. -/
def skipBody (s : Patient × List Patient × Bool) : Patient × List Patient × Bool :=
  match s.2.1 with
  | [] => (s.1, [], true)
  | e :: rest => (e, rest, false)

/-- The member `treatNextNormal` with its self-call made on the state itself and
the depth of calls counted: at most `fuel` nested calls are allowed, and the
result carries the number of self-calls made. -/
def treatNextNormalFuel :
    Nat → HospitalQueueSystem → Option (HospitalQueueSystem × List Out × Nat)
  | 0, _ => none
  | fuel + 1, s =>
    match s.normalQueue with
    | [] => some (s, [Out.normalEmpty], 0)
    | p :: q =>
      let s1 := { s with normalQueue := q }
      if mapContains s1.record p.id then
        let currentTime := wrap32 (s1.arrivalCounter + 1)
        some (cleanPriorityTop
          { s1 with
            arrivalCounter := currentTime,
            totalWaitNormal :=
              wrap64 (s1.totalWaitNormal + wrap32 (currentTime - p.arrivalTime)),
            treatedNormalCount := wrap32 (s1.treatedNormalCount + 1),
            record := mapErase s1.record p.id },
          [Out.treatedFIFO p], 0)
      else
        match treatNextNormalFuel fuel s1 with
        | some r => some (cleanPriorityTop r.1, r.2.1, r.2.2 + 1)
        | none => none

/-- The action pair "a patient arrives and is treated by arrival", `m` times. -/
def cycleOps : Nat → List HOp
  | 0 => []
  | m + 1 => HOp.add "a" "A" 1 :: HOp.treatNormal :: cycleOps m

/-- The state after `k` such pairs while no `int` has overflowed: everything is
empty again, the counter stands at `2 * k`, and `k` patients have waited one
tick each. -/
def flatWard (k : Int) : HospitalQueueSystem :=
  { normalQueue := [], priorityQueue := [], record := [], arrivalCounter := 2 * k,
    totalWaitNormal := k, totalWaitPriority := 0,
    treatedNormalCount := k, treatedPriorityCount := 0 }

/-- The run of 2147483647 actions that brings the counter to the largest `int`:
1073741823 pairs of an arrival and a take, then one more arrival. -/
def overflowRun : List HOp := cycleOps 1073741823 ++ [HOp.add "a" "A" 1]

/-- The state `overflowRun` ends in: the counter is 2147483647 and the one
patient waiting carries that stamp. -/
def overflowWard : HospitalQueueSystem :=
  { normalQueue := [⟨"a", "A", 1, 2147483647, 2147483647⟩],
    priorityQueue := [⟨"a", "A", 1, 2147483647, 2147483647⟩],
    record := [("a", ⟨"a", "A", 1, 2147483647, 2147483647⟩)],
    arrivalCounter := 2147483647,
    totalWaitNormal := 1073741823, totalWaitPriority := 0,
    treatedNormalCount := 1073741823, treatedPriorityCount := 0 }

/-- The actions that bury a stale entry in the priority queue: `a` and `l`
arrive, `a` is treated by arrival while `l` is the top, then `l` is treated by
priority, which leaves the entry of `a`, stamped 1, behind. -/
def buryOps : List HOp :=
  [HOp.add "a" "A" 1, HOp.add "l" "L" 5, HOp.treatNormal, HOp.treatPriority]

/-- The action pair "an urgent patient arrives and is treated by priority", `m`
times. -/
def churnOps : Nat → List HOp
  | 0 => []
  | m + 1 => HOp.add "b" "B" 5 :: HOp.treatPriority :: churnOps m

/-- The states in which the stale entry of `a` is alone in the priority queue,
the normal queue and `record` are empty and the counter stands at `c`. -/
def Buried (c : Int) (s : HospitalQueueSystem) : Prop :=
  s.normalQueue = [] ∧ s.priorityQueue = [⟨"a", "A", 1, 1, 1⟩] ∧ s.record = [] ∧
  s.arrivalCounter = c

/-- A run of 4294967297 actions, at the end of which the counter has gone once
round the `int` range and the patient `c` is admitted under the stamp 1 again. -/
def wrapRun : List HOp := buryOps ++ (churnOps 2147483646 ++ [HOp.add "c" "C" 1])

/-- Three patients waiting: `a`, `b` and `c` have arrived and none is treated. -/
def threeWaiting : HospitalQueueSystem :=
  (runH [HOp.add "a" "A" 1, HOp.add "b" "B" 5, HOp.add "c" "C" 1]
    HospitalQueueSystem.init).1

/-- The states in which `a`, stamped 1, waits at the front of the normal queue
and is the only live patient, the counter stands at `c` and nobody has been
treated by arrival. -/
def Held (c : Int) (s : HospitalQueueSystem) : Prop :=
  (∃ rest, s.normalQueue = ⟨"a", "A", 1, 1, 1⟩ :: rest) ∧
  s.priorityQueue = [⟨"a", "A", 1, 1, 1⟩] ∧ s.record = [("a", ⟨"a", "A", 1, 1, 1⟩)] ∧
  s.arrivalCounter = c ∧ s.totalWaitNormal = 0

/-- A run of 2147483648 actions after which `a`, admitted first, is still
waiting: `a` arrives, 1073741823 urgent patients arrive and are treated by
priority, then `z` arrives. -/
def lateOps : List HOp :=
  (HOp.add "a" "A" 1 :: churnOps 1073741823) ++ [HOp.add "z" "Z" 5]

/-! ## Facts about the containers -/

theorem mapFind_mapErase {β : Type} (m : List (String × β)) (k k' : String) :
    mapFind (mapErase m k) k' = if k' = k then none else mapFind m k' := by
  induction m with
  | nil => simp [mapErase, mapFind]
  | cons e m ih =>
    unfold mapErase at ih ⊢
    by_cases h : e.1 = k
    · simp only [List.filter, h, ne_eq, not_true_eq_false, decide_False]
      rw [ih]
      by_cases h' : k' = k
      · simp [h']
      · have : ¬ k = k' := fun a => h' a.symm
        simp [mapFind, h, h', this]
    · simp only [List.filter, h, ne_eq, not_false_eq_true, decide_True, mapFind]
      rw [ih]
      by_cases h' : k' = k
      · subst h'
        simp [h]
      · simp [h']

theorem mapFind_mapSet {β : Type} (m : List (String × β)) (k k' : String) (v : β) :
    mapFind (mapSet m k v) k' = if k' = k then some v else mapFind m k' := by
  induction m with
  | nil =>
    by_cases h : k' = k
    · simp [mapSet, mapFind, h]
    · have : ¬ k = k' := fun a => h a.symm
      simp [mapSet, mapFind, h, this]
  | cons e m ih =>
    by_cases he : e.1 = k
    · by_cases h : k' = k
      · simp [mapSet, mapFind, he, h]
      · have : ¬ k = k' := fun a => h a.symm
        simp [mapSet, mapFind, he, h, this]
    · by_cases h : k' = k
      · subst h
        simp [mapSet, mapFind, he, ih]
      · simp only [mapSet, he, if_false, mapFind, ih, h]

theorem mapContains_mapErase {β : Type} (m : List (String × β)) (k k' : String) :
    mapContains (mapErase m k) k' = (decide (k' ≠ k) && mapContains m k') := by
  unfold mapContains
  rw [mapFind_mapErase]
  by_cases h : k' = k <;> simp [h]

theorem mapContains_mapSet {β : Type} (m : List (String × β)) (k k' : String) (v : β) :
    mapContains (mapSet m k v) k' = (decide (k' = k) || mapContains m k') := by
  unfold mapContains
  rw [mapFind_mapSet]
  by_cases h : k' = k <;> simp [h]

theorem mapIndex_of_contains {β : Type} (m : List (String × β)) (k : String) (d : β)
    (h : mapContains m k = true) : (mapIndex m k d).2 = m := by
  unfold mapContains at h
  unfold mapIndex
  cases hf : mapFind m k with
  | none => simp [hf] at h
  | some v => rfl

theorem mapIndex_fst_of_find {β : Type} (m : List (String × β)) (k : String) (d v : β)
    (h : mapFind m k = some v) : (mapIndex m k d).1 = v := by
  unfold mapIndex
  rw [h]

theorem mapFind_mem {β : Type} (m : List (String × β)) (k : String) (v : β)
    (h : mapFind m k = some v) : (k, v) ∈ m := by
  induction m with
  | nil => simp [mapFind] at h
  | cons e m ih =>
    unfold mapFind at h
    by_cases he : e.1 = k
    · simp only [he, if_true, Option.some.injEq] at h
      have : e = (k, v) := by
        cases e
        simp_all
      simp [this]
    · simp only [he, if_false] at h
      exact List.mem_cons_of_mem _ (ih h)

/-! ## Facts about the hospital operations -/

theorem exists_first_live (record : List (String × Patient)) (q : List Patient)
    (h : ∃ e ∈ q, mapContains record e.id = true) :
    ∃ pre p post, q = pre ++ p :: post ∧ (∀ e ∈ pre, mapContains record e.id = false) ∧
      mapContains record p.id = true := by
  induction q with
  | nil => simp at h
  | cons a q ih =>
    by_cases ha : mapContains record a.id = true
    · exact ⟨[], a, q, rfl, by simp, ha⟩
    · have hq : ∃ e ∈ q, mapContains record e.id = true := by
        obtain ⟨e, he, hl⟩ := h
        rcases List.mem_cons.mp he with rfl | he'
        · exact absurd hl ha
        · exact ⟨e, he', hl⟩
      obtain ⟨pre, p, post, hq', hpre, hp⟩ := ih hq
      refine ⟨a :: pre, p, post, by simp [hq'], ?_, hp⟩
      intro e he
      rcases List.mem_cons.mp he with rfl | he'
      · simpa using ha
      · exact hpre e he'

/-- What `treatNextNormal` does when the queue is `pre ++ p :: post` with `pre`
stale and `p` live: every field of the resulting state but the priority queue. -/
theorem treatNextNormalFrom_live (pre : List Patient) (p : Patient) (post : List Patient) :
    ∀ s : HospitalQueueSystem, (∀ e ∈ pre, mapContains s.record e.id = false) →
      mapContains s.record p.id = true →
      (treatNextNormalFrom (pre ++ p :: post) s).2 = [Out.treatedFIFO p] ∧
      (treatNextNormalFrom (pre ++ p :: post) s).1.record = mapErase s.record p.id ∧
      (treatNextNormalFrom (pre ++ p :: post) s).1.normalQueue = post ∧
      (treatNextNormalFrom (pre ++ p :: post) s).1.arrivalCounter = wrap32 (s.arrivalCounter + 1) ∧
      (treatNextNormalFrom (pre ++ p :: post) s).1.totalWaitNormal
        = wrap64 (s.totalWaitNormal + wrap32 (wrap32 (s.arrivalCounter + 1) - p.arrivalTime)) ∧
      (treatNextNormalFrom (pre ++ p :: post) s).1.treatedNormalCount
        = wrap32 (s.treatedNormalCount + 1) ∧
      (treatNextNormalFrom (pre ++ p :: post) s).1.totalWaitPriority = s.totalWaitPriority ∧
      (treatNextNormalFrom (pre ++ p :: post) s).1.treatedPriorityCount
        = s.treatedPriorityCount := by
  induction pre with
  | nil =>
    intro s _ hp
    simp [treatNextNormalFrom, hp, cleanPriorityTop]
  | cons a pre ih =>
    intro s hpre hp
    have ha : mapContains s.record a.id = false := hpre a (List.mem_cons_self _ _)
    have h := ih { s with normalQueue := pre ++ p :: post }
      (fun e he => hpre e (List.mem_cons_of_mem _ he)) hp
    simp only [List.cons_append, treatNextNormalFrom, ha, cleanPriorityTop]
    simpa using h

/-- What `treatNextNormal` does when no entry of the queue is live. -/
theorem treatNextNormalFrom_stale (q : List Patient) :
    ∀ s : HospitalQueueSystem, (∀ e ∈ q, mapContains s.record e.id = false) →
      s.normalQueue = q →
      (treatNextNormalFrom q s).2 = [Out.normalEmpty] ∧
      (treatNextNormalFrom q s).1.record = s.record ∧
      (treatNextNormalFrom q s).1.normalQueue = [] ∧
      (treatNextNormalFrom q s).1.arrivalCounter = s.arrivalCounter ∧
      (treatNextNormalFrom q s).1.totalWaitNormal = s.totalWaitNormal ∧
      (treatNextNormalFrom q s).1.treatedNormalCount = s.treatedNormalCount ∧
      (treatNextNormalFrom q s).1.totalWaitPriority = s.totalWaitPriority ∧
      (treatNextNormalFrom q s).1.treatedPriorityCount = s.treatedPriorityCount := by
  induction q with
  | nil =>
    intro s _ hq
    simp [treatNextNormalFrom, hq]
  | cons a q ih =>
    intro s hst _
    have ha : mapContains s.record a.id = false := hst a (List.mem_cons_self _ _)
    have h := ih { s with normalQueue := q }
      (fun e he => hst e (List.mem_cons_of_mem _ he)) rfl
    simp only [treatNextNormalFrom, ha, cleanPriorityTop]
    simpa using h

theorem all_stale_or_first_live (record : List (String × Patient)) (q : List Patient) :
    (∀ e ∈ q, mapContains record e.id = false) ∨
    ∃ pre p post, q = pre ++ p :: post ∧ (∀ e ∈ pre, mapContains record e.id = false) ∧
      mapContains record p.id = true := by
  by_cases h : ∃ e ∈ q, mapContains record e.id = true
  · exact Or.inr (exists_first_live record q h)
  · left
    intro e he
    by_contra hc
    exact h ⟨e, he, by simpa using hc⟩
/-! ## C1: FIFO take with lazy skip -/

/-- C1: in every state (reachable or not) whose normal queue holds an entry
whose id is in `record`, `treatNextNormal` treats the first such entry in queue
order: the queue splits as `pre ++ p :: post` with every entry of `pre` stale
and `p` live, the call reports `p` as treated, erases `p.id` from `record`, and
leaves exactly `post`, in its order, in the normal queue. -/
theorem treatNextNormal_treats_first_live (s : HospitalQueueSystem)
    (h : ∃ e ∈ s.normalQueue, mapContains s.record e.id = true) :
    ∃ pre p post, s.normalQueue = pre ++ p :: post ∧
      (∀ e ∈ pre, mapContains s.record e.id = false) ∧
      mapContains s.record p.id = true ∧
      (treatNextNormal s).2 = [Out.treatedFIFO p] ∧
      (treatNextNormal s).1.record = mapErase s.record p.id ∧
      (treatNextNormal s).1.normalQueue = post := by
  obtain ⟨pre, p, post, hq, hpre, hp⟩ := exists_first_live s.record s.normalQueue h
  have hl := treatNextNormalFrom_live pre p post s hpre hp
  refine ⟨pre, p, post, hq, hpre, hp, ?_, ?_, ?_⟩
  · unfold treatNextNormal
    rw [hq]
    exact hl.1
  · unfold treatNextNormal
    rw [hq]
    exact hl.2.1
  · unfold treatNextNormal
    rw [hq]
    exact hl.2.2.1

/-- C1 at `sampleWard`, whose normal queue is `[b, c]` with `b` stale. -/
theorem treatNextNormal_treats_first_live_witness :
    (∃ e ∈ sampleWard.normalQueue, mapContains sampleWard.record e.id = true) ∧
    ∃ pre p post, sampleWard.normalQueue = pre ++ p :: post ∧
      (∀ e ∈ pre, mapContains sampleWard.record e.id = false) ∧
      mapContains sampleWard.record p.id = true ∧
      (treatNextNormal sampleWard).2 = [Out.treatedFIFO p] ∧
      (treatNextNormal sampleWard).1.record = mapErase sampleWard.record p.id ∧
      (treatNextNormal sampleWard).1.normalQueue = post :=
  ⟨by decide, treatNextNormal_treats_first_live sampleWard (by decide)⟩
/-! ## C2: FIFO order of a batch -/

theorem admitted_ids (ps : List (String × String × Int)) :
    ∀ c : Int, (admitted c ps).map (fun p => p.id) = ps.map (fun t => t.1) := by
  induction ps with
  | nil => intro c; rfl
  | cons t ps ih => intro c; simp [admitted, ih]

theorem runH_addOps (ps : List (String × String × Int)) :
    ∀ s : HospitalQueueSystem,
      (runH (addOps ps) s).1.normalQueue = s.normalQueue ++ admitted s.arrivalCounter ps ∧
      ∀ k, mapContains (runH (addOps ps) s).1.record k
        = (mapContains s.record k || decide (k ∈ ps.map (fun t => t.1))) := by
  induction ps with
  | nil => intro s; simp [addOps, runH, admitted]
  | cons t ps ih =>
    intro s
    have h := ih (addPatient s t.1 t.2.1 t.2.2).1
    unfold addOps at h ⊢
    simp only [List.map_cons, runH, HOp.apply]
    refine ⟨?_, ?_⟩
    · rw [h.1]
      simp [addPatient, admitted]
    · intro k
      rw [h.2 k]
      simp only [addPatient, mapContains_mapSet, List.mem_cons, List.mem_map]
      by_cases hk : k = t.1 <;> simp [hk]

theorem runH_treatNormal_all (q : List Patient) :
    ∀ s : HospitalQueueSystem, s.normalQueue = q → (q.map (fun p => p.id)).Nodup →
      (∀ p ∈ q, mapContains s.record p.id = true) →
      (runH (List.replicate q.length HOp.treatNormal) s).2 = q.map Out.treatedFIFO := by
  induction q with
  | nil => intro s _ _ _; rfl
  | cons p q ih =>
    intro s hq hnd hlive
    have hp : mapContains s.record p.id = true := hlive p (List.mem_cons_self _ _)
    have hl := treatNextNormalFrom_live [] p q s (by simp) hp
    simp only [List.nil_append] at hl
    have hstep : treatNextNormal s = treatNextNormalFrom (p :: q) s := by
      unfold treatNextNormal
      rw [hq]
    simp only [List.map_cons, List.nodup_cons, List.mem_map, not_exists, not_and] at hnd
    have hrest := ih (treatNextNormal s).1 (by rw [hstep]; exact hl.2.2.1) hnd.2 (by
      intro e he
      rw [hstep, hl.2.1, mapContains_mapErase, hlive e (List.mem_cons_of_mem _ he)]
      have : e.id ≠ p.id := fun hc => hnd.1 e he hc
      simp [this])
    simp only [List.length_cons, List.replicate_succ, runH, HOp.apply, List.map_cons]
    rw [hrest, hstep, hl.1]
    rfl

/-- C2: when `n` patients with pairwise distinct ids are added to a fresh system
and nothing else happens, `n` calls of `treatNextNormal` report exactly the
records created by the additions, in the order of the additions. -/
theorem fifo_order_of_batch (ps : List (String × String × Int))
    (h : (ps.map (fun t => t.1)).Nodup) :
    (runH (List.replicate ps.length HOp.treatNormal)
        (runH (addOps ps) HospitalQueueSystem.init).1).2
      = (admitted 0 ps).map Out.treatedFIFO := by
  have ha := runH_addOps ps HospitalQueueSystem.init
  have hq : (runH (addOps ps) HospitalQueueSystem.init).1.normalQueue = admitted 0 ps := by
    rw [ha.1]
    simp [HospitalQueueSystem.init]
  have hlen : (admitted 0 ps).length = ps.length := by
    have := congrArg List.length (admitted_ids ps 0)
    simpa using this
  rw [← hlen]
  apply runH_treatNormal_all (admitted 0 ps) _ hq
  · rw [admitted_ids]
    exact h
  · intro p hp
    rw [ha.2 p.id]
    have : p.id ∈ (admitted 0 ps).map (fun p => p.id) := List.mem_map_of_mem _ hp
    rw [admitted_ids] at this
    simp only [List.mem_map] at this
    simp [this]

/-- C2 on three patients. -/
theorem fifo_order_of_batch_witness :
    (([("a", "A", 3), ("b", "B", 5), ("c", "C", 1)] :
        List (String × String × Int)).map (fun t => t.1)).Nodup ∧
    (runH (List.replicate
          ([("a", "A", 3), ("b", "B", 5), ("c", "C", 1)] : List (String × String × Int)).length
          HOp.treatNormal)
        (runH (addOps [("a", "A", 3), ("b", "B", 5), ("c", "C", 1)])
          HospitalQueueSystem.init).1).2
      = (admitted 0 [("a", "A", 3), ("b", "B", 5), ("c", "C", 1)]).map Out.treatedFIFO :=
  ⟨by decide, fifo_order_of_batch _ (by decide)⟩

/-! ## The priority take -/

theorem skipTreated_live (record : List (String × Patient)) (pre : List Patient)
    (p : Patient) (post : List Patient) :
    ∀ (p0 : Patient) (rest0 : List Patient), p0 :: rest0 = pre ++ p :: post →
      (∀ e ∈ pre, mapContains record e.id = false) → mapContains record p.id = true →
      skipTreated record p0 rest0 = some (p, post) := by
  induction pre with
  | nil =>
    intro p0 rest0 h _ hp
    simp only [List.nil_append, List.cons.injEq] at h
    obtain ⟨rfl, rfl⟩ := h
    cases rest0 <;> simp [skipTreated, hp]
  | cons a pre ih =>
    intro p0 rest0 h hpre hp
    simp only [List.cons_append, List.cons.injEq] at h
    obtain ⟨rfl, rfl⟩ := h
    have ha : mapContains record p0.id = false := hpre p0 (List.mem_cons_self _ _)
    have hpre' : ∀ e ∈ pre, mapContains record e.id = false :=
      fun e he => hpre e (List.mem_cons_of_mem _ he)
    cases pre with
    | nil =>
      simp only [List.nil_append, skipTreated, ha]
      exact ih p post rfl hpre' hp
    | cons b pre' =>
      simp only [List.cons_append, skipTreated, ha]
      exact ih b (pre' ++ p :: post) rfl hpre' hp

theorem skipTreated_stale (record : List (String × Patient)) (rest0 : List Patient) :
    ∀ p0 : Patient, (∀ e ∈ p0 :: rest0, mapContains record e.id = false) →
      skipTreated record p0 rest0 = none := by
  induction rest0 with
  | nil =>
    intro p0 h
    simp [skipTreated, h p0 (List.mem_cons_self _ _)]
  | cons a rest ih =>
    intro p0 h
    simp only [skipTreated, h p0 (List.mem_cons_self _ _)]
    exact ih a (fun e he => h e (List.mem_cons_of_mem _ he))

/-- What `treatNextPriority` does when the queue is `pre ++ p :: post` with `pre`
stale and `p` live. -/
theorem treatNextPriority_live (s : HospitalQueueSystem) (pre : List Patient) (p : Patient)
    (post : List Patient) (hq : s.priorityQueue = pre ++ p :: post)
    (hpre : ∀ e ∈ pre, mapContains s.record e.id = false)
    (hp : mapContains s.record p.id = true) :
    (treatNextPriority s).2 = [Out.treatedPriority p] ∧
    (treatNextPriority s).1.record = mapErase s.record p.id ∧
    (treatNextPriority s).1.priorityQueue = post ∧
    (treatNextPriority s).1.normalQueue
      = dropTreated (mapErase s.record p.id) s.normalQueue ∧
    (treatNextPriority s).1.arrivalCounter = wrap32 (s.arrivalCounter + 1) ∧
    (treatNextPriority s).1.totalWaitPriority
      = wrap64 (s.totalWaitPriority + wrap32 (wrap32 (s.arrivalCounter + 1) - p.arrivalTime)) ∧
    (treatNextPriority s).1.treatedPriorityCount = wrap32 (s.treatedPriorityCount + 1) ∧
    (treatNextPriority s).1.totalWaitNormal = s.totalWaitNormal ∧
    (treatNextPriority s).1.treatedNormalCount = s.treatedNormalCount := by
  cases hpq : s.priorityQueue with
  | nil =>
    rw [hpq] at hq
    simp at hq
  | cons p0 rest0 =>
    rw [hpq] at hq
    have hs := skipTreated_live s.record pre p post p0 rest0 hq hpre hp
    unfold treatNextPriority
    simp [hpq, hs, cleanNormalFront]

/-- What `treatNextPriority` does when no entry of the queue is live. -/
theorem treatNextPriority_stale (s : HospitalQueueSystem)
    (h : ∀ e ∈ s.priorityQueue, mapContains s.record e.id = false) :
    (treatNextPriority s).2 = [Out.priorityEmpty] ∧
    (treatNextPriority s).1 = { s with priorityQueue := [] } := by
  cases hpq : s.priorityQueue with
  | nil =>
    unfold treatNextPriority
    simp only [hpq, true_and]
    cases s
    simp_all
  | cons p0 rest0 =>
    rw [hpq] at h
    have hs := skipTreated_stale s.record rest0 p0 h
    unfold treatNextPriority
    simp [hpq, hs]

/-- The two outcomes of `treatNextNormal` as far as `record` and the report go. -/
theorem treatNextNormal_cases (s : HospitalQueueSystem) :
    ((treatNextNormal s).2 = [Out.normalEmpty] ∧ (treatNextNormal s).1.record = s.record) ∨
    ∃ p, mapContains s.record p.id = true ∧ (treatNextNormal s).2 = [Out.treatedFIFO p] ∧
      (treatNextNormal s).1.record = mapErase s.record p.id := by
  rcases all_stale_or_first_live s.record s.normalQueue with h | ⟨pre, p, post, hq, hpre, hp⟩
  · left
    have := treatNextNormalFrom_stale s.normalQueue s h rfl
    exact ⟨this.1, this.2.1⟩
  · right
    have := treatNextNormalFrom_live pre p post s hpre hp
    refine ⟨p, hp, ?_, ?_⟩
    · unfold treatNextNormal
      rw [hq]
      exact this.1
    · unfold treatNextNormal
      rw [hq]
      exact this.2.1

/-- The two outcomes of `treatNextPriority` as far as `record` and the report go. -/
theorem treatNextPriority_cases (s : HospitalQueueSystem) :
    ((treatNextPriority s).2 = [Out.priorityEmpty] ∧
      (treatNextPriority s).1.record = s.record) ∨
    ∃ p, mapContains s.record p.id = true ∧
      (treatNextPriority s).2 = [Out.treatedPriority p] ∧
      (treatNextPriority s).1.record = mapErase s.record p.id := by
  rcases all_stale_or_first_live s.record s.priorityQueue with h | ⟨pre, p, post, hq, hpre, hp⟩
  · left
    have := treatNextPriority_stale s h
    refine ⟨this.1, ?_⟩
    rw [this.2]
  · right
    have := treatNextPriority_live s pre p post hq hpre hp
    exact ⟨p, hp, this.1, this.2.1⟩

/-! ## Read-only operations -/

theorem findPatient_state (s : HospitalQueueSystem) (id : String) :
    (findPatient s id).1 = s := by
  unfold findPatient
  by_cases h : mapContains s.record id = true
  · simp only [h, if_true]
    rw [mapIndex_of_contains s.record id Patient.blank h]
  · simp [h]

theorem showRackLoop_map (tmp : List String) :
    ∀ m : List (String × Item), (showRackLoop tmp m).1 = m := by
  induction tmp with
  | nil => intro m; rfl
  | cons id tmp ih =>
    intro m
    by_cases h : mapContains m id = true
    · simp only [showRackLoop, h, if_true]
      rw [mapIndex_of_contains m id Item.blank h]
      exact ih m
    · simp only [showRackLoop, h]
      exact ih m

theorem showRack_state (w : Warehouse) (rackId : String) : (showRack w rackId).1 = w := by
  unfold showRack
  by_cases h : mapContains w.racks rackId = true
  · simp only [h, Bool.not_true, Bool.false_eq_true, if_false]
    rw [mapIndex_of_contains w.racks rackId [] h, showRackLoop_map]
  · simp [h]

theorem findItem_state (w : Warehouse) (id : String) : (findItem w id).1 = w := by
  unfold findItem
  by_cases h : mapContains w.itemMap id = true
  · simp only [h, Bool.not_true, Bool.false_eq_true, if_false]
    rw [mapIndex_of_contains w.itemMap id Item.blank h]
  · simp [h]

/-! ## One action at a time -/

theorem treatedIds_append (a b : List Out) :
    treatedIds (a ++ b) = treatedIds a ++ treatedIds b := by
  induction a with
  | nil => rfl
  | cons x a ih => cases x <;> simp [treatedIds, ih]

/-- What one action does to `record` and which id it reports as treated. -/
theorem apply_record (op : HOp) (s : HospitalQueueSystem) :
    (treatedIds (op.apply s).2 = [] ∧
      ((op.apply s).1.record = s.record ∨
        ∃ id p, op = HOp.add id p.name p.severity ∧ p.id = id ∧
          (op.apply s).1.record = mapSet s.record id p)) ∨
    ∃ k, (op = HOp.treatNormal ∨ op = HOp.treatPriority) ∧ mapContains s.record k = true ∧
      treatedIds (op.apply s).2 = [k] ∧ (op.apply s).1.record = mapErase s.record k := by
  cases op with
  | add id name severity =>
    left
    refine ⟨rfl, Or.inr ⟨id, ⟨id, name, severity, wrap32 (s.arrivalCounter + 1),
        wrap32 (s.arrivalCounter + 1)⟩,
      rfl, rfl, rfl⟩⟩
  | treatNormal =>
    rcases treatNextNormal_cases s with ⟨ho, hr⟩ | ⟨p, hp, ho, hr⟩
    · left
      simp only [HOp.apply]
      rw [ho]
      exact ⟨rfl, Or.inl hr⟩
    · right
      refine ⟨p.id, Or.inl rfl, hp, ?_, hr⟩
      simp only [HOp.apply]
      rw [ho]
      rfl
  | treatPriority =>
    rcases treatNextPriority_cases s with ⟨ho, hr⟩ | ⟨p, hp, ho, hr⟩
    · left
      simp only [HOp.apply]
      rw [ho]
      exact ⟨rfl, Or.inl hr⟩
    · right
      refine ⟨p.id, Or.inr rfl, hp, ?_, hr⟩
      simp only [HOp.apply]
      rw [ho]
      rfl
  | display =>
    left
    refine ⟨?_, Or.inl rfl⟩
    simp only [HOp.apply, showQueues, treatedIds_append]
    have hshow : ∀ (r : List (String × Patient)) (q : List Patient),
        treatedIds (showLoop r q) = [] := by
      intro r q
      induction q with
      | nil => rfl
      | cons a q ih =>
        by_cases h : mapContains r a.id = true <;> simp [showLoop, h, treatedIds, ih]
    simp [hshow, treatedIds]
  | find id =>
    left
    refine ⟨?_, Or.inl (by simp only [HOp.apply]; rw [findPatient_state])⟩
    simp only [HOp.apply, findPatient]
    by_cases h : mapContains s.record id = true <;> simp [h, treatedIds]
  | stats =>
    left
    refine ⟨?_, Or.inl rfl⟩
    simp only [HOp.apply, simulateCompareAverageWait, treatedIds_append]
    by_cases h1 : s.treatedNormalCount > 0 <;> by_cases h2 : s.treatedPriorityCount > 0 <;>
      simp [h1, h2, treatedIds]

/-- An id absent from `record` stays absent as long as it is not added again. -/
theorem absent_stays_absent (ops : List HOp) :
    ∀ (s : HospitalQueueSystem) (k : String), k ∉ addedIds ops → mapFind s.record k = none →
      mapFind (runH ops s).1.record k = none := by
  induction ops with
  | nil => intro s k _ h; exact h
  | cons op ops ih =>
    intro s k hk h
    simp only [runH]
    apply ih
    · intro hc
      apply hk
      cases op <;> simp [addedIds, hc]
    · rcases apply_record op s with ⟨_, hr | ⟨id, p, hop, _, hr⟩⟩ | ⟨k', _, _, _, hr⟩
      · rw [hr]; exact h
      · rw [hr, mapFind_mapSet]
        have : k ≠ id := by
          intro hc
          apply hk
          rw [hop, hc]
          simp [addedIds]
        simp [this, h]
      · rw [hr, mapFind_mapErase]
        by_cases hkk : k = k' <;> simp [hkk, h]

/-! ## C4: cross-view consistency -/

theorem treatedIds_run (ops : List HOp) :
    ∀ s : HospitalQueueSystem, (addedIds ops).Nodup →
      (∀ k ∈ addedIds ops, mapContains s.record k = false) →
      (treatedIds (runH ops s).2).Nodup ∧
      ∀ k ∈ treatedIds (runH ops s).2, mapContains s.record k = true ∨ k ∈ addedIds ops := by
  induction ops with
  | nil => intro s _ _; simp [runH, treatedIds]
  | cons op ops ih =>
    intro s hnd hfresh
    simp only [runH, treatedIds_append]
    rcases apply_record op s with ⟨ht, hr | ⟨id, p, hop, _, hr⟩⟩ | ⟨k', hop, hk', ht, hr⟩
    · have hadd : addedIds (op :: ops) = addedIds ops ∨
          ∃ id n v, op = HOp.add id n v := by
        cases op <;> simp [addedIds]
      rcases hadd with hadd | ⟨id, n, v, hop⟩
      · rw [hadd] at hnd hfresh
        have := ih (op.apply s).1 hnd (by rw [hr]; exact hfresh)
        rw [hr] at this
        rw [ht, hadd]
        simpa using this
      · subst hop
        simp only [addedIds, List.nodup_cons, List.mem_cons, forall_eq_or_imp] at hnd hfresh ⊢
        have hr' : (HOp.apply (HOp.add id n v) s).1.record = mapSet s.record id
            ⟨id, n, v, wrap32 (s.arrivalCounter + 1), wrap32 (s.arrivalCounter + 1)⟩ := rfl
        have := ih (HOp.apply (HOp.add id n v) s).1 hnd.2 (by
          intro k hk
          rw [hr', mapContains_mapSet, hfresh.2 k hk]
          have : k ≠ id := fun hc => hnd.1 (hc ▸ hk)
          simp [this])
        rw [ht]
        refine ⟨by simpa using this.1, ?_⟩
        intro k hk
        simp only [List.nil_append] at hk
        rcases this.2 k hk with h | h
        · rw [hr', mapContains_mapSet] at h
          by_cases hkid : k = id
          · exact Or.inr (Or.inl hkid)
          · left
            simpa [hkid] using h
        · exact Or.inr (Or.inr h)
    · subst hop
      simp only [addedIds, List.nodup_cons, List.mem_cons, forall_eq_or_imp] at hnd hfresh ⊢
      have := ih (HOp.apply (HOp.add id p.name p.severity) s).1 hnd.2 (by
        intro k hk
        rw [hr, mapContains_mapSet, hfresh.2 k hk]
        have : k ≠ id := fun hc => hnd.1 (hc ▸ hk)
        simp [this])
      have ht : treatedIds (HOp.apply (HOp.add id p.name p.severity) s).2 = [] := rfl
      rw [ht]
      refine ⟨by simpa using this.1, ?_⟩
      intro k hk
      simp only [List.nil_append] at hk
      rcases this.2 k hk with h | h
      · rw [hr, mapContains_mapSet] at h
        by_cases hkid : k = id
        · exact Or.inr (Or.inl hkid)
        · left
          simpa [hkid] using h
      · exact Or.inr (Or.inr h)
    · have hadd : addedIds (op :: ops) = addedIds ops := by
        rcases hop with rfl | rfl <;> rfl
      rw [hadd] at hnd hfresh ⊢
      have := ih (op.apply s).1 hnd (by
        intro k hk
        rw [hr, mapContains_mapErase, hfresh k hk]
        simp)
      rw [ht]
      simp only [List.singleton_append, List.nodup_cons, List.mem_cons, forall_eq_or_imp]
      refine ⟨⟨?_, this.1⟩, Or.inl hk', ?_⟩
      · intro hc
        rcases this.2 k' hc with h | h
        · rw [hr, mapContains_mapErase] at h
          simp at h
        · have := hfresh k' h
          rw [hk'] at this
          exact absurd this (by simp)
      · intro k hk
        rcases this.2 k hk with h | h
        · rw [hr, mapContains_mapErase] at h
          left
          simp only [Bool.and_eq_true] at h
          exact h.2
        · exact Or.inr h

/-- C4: in every run of `addPatient`, `treatNextNormal`, `treatNextPriority` (and
the read-only actions) from the fresh system in which the added ids are pairwise
distinct, the ids reported as treated, through either queue, are pairwise
distinct: nobody is treated twice, in particular not once through each queue. -/
theorem no_patient_treated_twice (ops : List HOp) (h : (addedIds ops).Nodup) :
    (treatedIds (runH ops HospitalQueueSystem.init).2).Nodup :=
  (treatedIds_run ops HospitalQueueSystem.init h (by
    intro k _
    rfl)).1

/-- C4 on a run that treats through both queues in turn. -/
theorem no_patient_treated_twice_witness :
    (addedIds [HOp.add "a" "A" 1, HOp.add "b" "B" 5, HOp.add "c" "C" 1, HOp.treatPriority,
      HOp.treatNormal, HOp.treatPriority, HOp.treatNormal, HOp.treatPriority]).Nodup ∧
    (treatedIds (runH [HOp.add "a" "A" 1, HOp.add "b" "B" 5, HOp.add "c" "C" 1,
      HOp.treatPriority, HOp.treatNormal, HOp.treatPriority, HOp.treatNormal,
      HOp.treatPriority] HospitalQueueSystem.init).2).Nodup :=
  ⟨by decide, no_patient_treated_twice _ (by decide)⟩

/-! ## C5: no resurrection -/

/-- C5: in every state, when an action reports the patient with id `k` as treated
(only `treatNextNormal` and `treatNextPriority` do), then after that action and
any further actions that do not add `k` again, `k` is absent from `record` and
`findPatient k` reports it as not found; the empty continuation is the moment
right after the treatment. -/
theorem treated_never_found_again (s : HospitalQueueSystem) (op : HOp) (k : String)
    (hk : k ∈ treatedIds (op.apply s).2) (ops : List HOp) (hops : k ∉ addedIds ops) :
    mapFind (runH ops (op.apply s).1).1.record k = none ∧
    (findPatient (runH ops (op.apply s).1).1 k).2 = [Out.notFound k] := by
  have habs : mapFind (op.apply s).1.record k = none := by
    rcases apply_record op s with ⟨ht, _⟩ | ⟨k', _, _, ht, hr⟩
    · rw [ht] at hk
      simp at hk
    · rw [ht] at hk
      simp only [List.mem_singleton] at hk
      subst hk
      rw [hr, mapFind_mapErase]
      simp
  have h := absent_stays_absent ops (op.apply s).1 k hops habs
  refine ⟨h, ?_⟩
  unfold findPatient mapContains
  rw [h]
  rfl

/-- C5 at `sampleWard`: `c` is treated, then `d` arrives and more takes follow. -/
theorem treated_never_found_again_witness :
    "c" ∈ treatedIds (HOp.treatNormal.apply sampleWard).2 ∧
    "c" ∉ addedIds [HOp.add "d" "D" 2, HOp.treatPriority, HOp.display, HOp.treatNormal] ∧
    mapFind (runH [HOp.add "d" "D" 2, HOp.treatPriority, HOp.display, HOp.treatNormal]
      (HOp.treatNormal.apply sampleWard).1).1.record "c" = none ∧
    (findPatient (runH [HOp.add "d" "D" 2, HOp.treatPriority, HOp.display, HOp.treatNormal]
      (HOp.treatNormal.apply sampleWard).1).1 "c").2 = [Out.notFound "c"] :=
  ⟨by decide, by decide,
    treated_never_found_again sampleWard HOp.treatNormal "c" (by decide) _ (by decide)⟩

/-! ## C9: take on a view without a live entry -/

theorem treatNextNormal_empty (s : HospitalQueueSystem) (h : s.normalQueue = []) :
    treatNextNormal s = (s, [Out.normalEmpty]) := by
  unfold treatNextNormal
  rw [h]
  rfl

theorem treatNextPriority_empty (s : HospitalQueueSystem) (h : s.priorityQueue = []) :
    treatNextPriority s = (s, [Out.priorityEmpty]) := by
  unfold treatNextPriority
  rw [h]

theorem runH_treatNormal_empty (s : HospitalQueueSystem) (h : s.normalQueue = []) (n : Nat) :
    runH (List.replicate n HOp.treatNormal) s = (s, List.replicate n Out.normalEmpty) := by
  induction n with
  | zero => rfl
  | succ n ih =>
    simp only [List.replicate_succ, runH, HOp.apply, treatNextNormal_empty s h, ih]
    rfl

theorem runH_treatPriority_empty (s : HospitalQueueSystem) (h : s.priorityQueue = [])
    (n : Nat) :
    runH (List.replicate n HOp.treatPriority) s
      = (s, List.replicate n Out.priorityEmpty) := by
  induction n with
  | zero => rfl
  | succ n ih =>
    simp only [List.replicate_succ, runH, HOp.apply, treatNextPriority_empty s h, ih]
    rfl

/-- C9: in every state, when no entry of the normal queue (resp. the priority
queue) is live, in particular when it is empty, `treatNextNormal` (resp.
`treatNextPriority`) reports the queue as empty, leaves `record`, both wait
totals, both treated counts and `arrivalCounter` as they were and leaves that
queue empty; when the queue was empty to begin with, any number of calls returns
the very same state, each reporting the queue as empty. -/
theorem take_without_live_entry (s : HospitalQueueSystem) :
    ((∀ e ∈ s.normalQueue, mapContains s.record e.id = false) →
      (treatNextNormal s).2 = [Out.normalEmpty] ∧
      (treatNextNormal s).1.record = s.record ∧
      (treatNextNormal s).1.totalWaitNormal = s.totalWaitNormal ∧
      (treatNextNormal s).1.totalWaitPriority = s.totalWaitPriority ∧
      (treatNextNormal s).1.treatedNormalCount = s.treatedNormalCount ∧
      (treatNextNormal s).1.treatedPriorityCount = s.treatedPriorityCount ∧
      (treatNextNormal s).1.arrivalCounter = s.arrivalCounter ∧
      (treatNextNormal s).1.normalQueue = [] ∧
      (s.normalQueue = [] → ∀ n : Nat,
        runH (List.replicate n HOp.treatNormal) s = (s, List.replicate n Out.normalEmpty))) ∧
    ((∀ e ∈ s.priorityQueue, mapContains s.record e.id = false) →
      (treatNextPriority s).2 = [Out.priorityEmpty] ∧
      (treatNextPriority s).1.record = s.record ∧
      (treatNextPriority s).1.totalWaitNormal = s.totalWaitNormal ∧
      (treatNextPriority s).1.totalWaitPriority = s.totalWaitPriority ∧
      (treatNextPriority s).1.treatedNormalCount = s.treatedNormalCount ∧
      (treatNextPriority s).1.treatedPriorityCount = s.treatedPriorityCount ∧
      (treatNextPriority s).1.arrivalCounter = s.arrivalCounter ∧
      (treatNextPriority s).1.priorityQueue = [] ∧
      (s.priorityQueue = [] → ∀ n : Nat,
        runH (List.replicate n HOp.treatPriority) s
          = (s, List.replicate n Out.priorityEmpty))) := by
  constructor
  · intro h
    have hs := treatNextNormalFrom_stale s.normalQueue s h rfl
    unfold treatNextNormal
    exact ⟨hs.1, hs.2.1, hs.2.2.2.2.1, hs.2.2.2.2.2.2.1, hs.2.2.2.2.2.1, hs.2.2.2.2.2.2.2,
      hs.2.2.2.1, hs.2.2.1, runH_treatNormal_empty s⟩
  · intro h
    have hs := treatNextPriority_stale s h
    rw [hs.2]
    exact ⟨hs.1, rfl, rfl, rfl, rfl, rfl, rfl, rfl, runH_treatPriority_empty s⟩

/-- C9 at `drainedWard` (normal queue `[b]`, stale) and at `staleTopWard`
(priority queue `[a]`, stale). -/
theorem take_without_live_entry_witness :
    (∀ e ∈ drainedWard.normalQueue, mapContains drainedWard.record e.id = false) ∧
    drainedWard.normalQueue ≠ [] ∧
    (∀ e ∈ staleTopWard.priorityQueue, mapContains staleTopWard.record e.id = false) ∧
    staleTopWard.priorityQueue ≠ [] ∧
    (treatNextNormal drainedWard).2 = [Out.normalEmpty] ∧
    (treatNextNormal drainedWard).1.normalQueue = [] ∧
    (treatNextPriority staleTopWard).2 = [Out.priorityEmpty] ∧
    (treatNextPriority staleTopWard).1.priorityQueue = [] :=
  ⟨by decide, by decide, by decide, by decide,
    ((take_without_live_entry drainedWard).1 (by decide)).1,
    ((take_without_live_entry drainedWard).1 (by decide)).2.2.2.2.2.2.2.1,
    ((take_without_live_entry staleTopWard).2 (by decide)).1,
    ((take_without_live_entry staleTopWard).2 (by decide)).2.2.2.2.2.2.2.1⟩

/-! ## C10: snapshots are non-destructive -/

/-- C10: in every state, `showQueues` and `findPatient` return the hospital
state they were given and `showRack`, `findItem` and `listAllItems` return the
warehouse state they were given (store, queues, stacks, heap, rack ids and
counters alike), so a second call in a row prints what the first printed. -/
theorem snapshots_leave_state (s : HospitalQueueSystem) (w : Warehouse) (id rackId : String) :
    (showQueues s).1 = s ∧ (findPatient s id).1 = s ∧
    (showRack w rackId).1 = w ∧ (findItem w id).1 = w ∧ (listAllItems w).1 = w ∧
    (showQueues (showQueues s).1).2 = (showQueues s).2 ∧
    (findPatient (findPatient s id).1 id).2 = (findPatient s id).2 ∧
    (showRack (showRack w rackId).1 rackId).2 = (showRack w rackId).2 ∧
    (findItem (findItem w id).1 id).2 = (findItem w id).2 ∧
    (listAllItems (listAllItems w).1).2 = (listAllItems w).2 := by
  refine ⟨rfl, findPatient_state s id, showRack_state w rackId, findItem_state w id, rfl, rfl,
    ?_, ?_, ?_, rfl⟩
  · rw [findPatient_state]
  · rw [showRack_state]
  · rw [findItem_state]

/-! ## C6: adding a key that is live -/

theorem pqPush_perm (p : Patient) (l : List Patient) : (pqPush p l).Perm (p :: l) := by
  induction l with
  | nil => exact List.Perm.refl _
  | cons e l ih =>
    unfold pqPush
    by_cases h : PriorityCompare e p = true
    · simp [h]
    · simp only [h]
      exact (List.Perm.cons e ih).trans (List.Perm.swap p e l)

theorem heapPush_perm (x : String × String) (l : List (String × String)) :
    (heapPush x l).Perm (x :: l) := by
  induction l with
  | nil => exact List.Perm.refl _
  | cons e l ih =>
    unfold heapPush
    by_cases h : pairGreater e x = true
    · simp [h]
    · simp only [h]
      exact (List.Perm.cons e ih).trans (List.Perm.swap x e l)

theorem mapIndex_fst {β : Type} (m : List (String × β)) (k : String) (d : β) :
    (mapIndex m k d).1 = (mapFind m k).getD d := by
  unfold mapIndex
  cases mapFind m k <;> rfl

theorem mapFind_mapIndex {β : Type} (m : List (String × β)) (k k' : String) (d : β) :
    mapFind (mapIndex m k d).2 k' = if k' = k then some ((mapFind m k).getD d)
      else mapFind m k' := by
  unfold mapIndex
  cases h : mapFind m k with
  | some v =>
    by_cases hk : k' = k
    · subst hk
      simp [h]
    · simp [hk]
  | none =>
    by_cases hk : k' = k
    · subst hk
      simp [mapFind]
    · have : ¬ k = k' := fun a => hk a.symm
      simp [mapFind, hk, this]

/-- The stack of a rack right after `addItem`. -/
theorem addItem_rack (w : Warehouse) (rackId id name expiry : String) :
    mapFind (addItem w rackId id name expiry).1.racks rackId
      = some (id :: (mapFind w.racks rackId).getD []) := by
  unfold addItem
  simp only [mapFind_mapSet, if_true, mapIndex_fst]
  unfold ensureRack
  by_cases h : mapContains w.racks rackId = true
  · simp [h]
  · simp only [h, Bool.false_eq_true, if_false, mapFind_mapSet, if_true]
    unfold mapContains at h
    cases hf : mapFind w.racks rackId with
    | none => simp
    | some v => simp [hf] at h

/-- C6 fails on the code: in the hospital with the live patient `a` (and in the
warehouse with the live item `a`), adding `a` again is carried out: the stored
record is replaced, both queues (the rack stack and the expiry heap) grow and
the arrival counter moves. -/
theorem duplicate_add_changes_state :
    mapContains oneLiveWard.record "a" = true ∧
    mapFind (addPatient oneLiveWard "a" "A2" 3).1.record "a" ≠ mapFind oneLiveWard.record "a" ∧
    (addPatient oneLiveWard "a" "A2" 3).1.normalQueue ≠ oneLiveWard.normalQueue ∧
    (addPatient oneLiveWard "a" "A2" 3).1.priorityQueue ≠ oneLiveWard.priorityQueue ∧
    (addPatient oneLiveWard "a" "A2" 3).1.arrivalCounter ≠ oneLiveWard.arrivalCounter ∧
    mapContains oneItemStore.itemMap "a" = true ∧
    mapFind (addItem oneItemStore "r" "a" "A2" "2026-01-01").1.itemMap "a"
      ≠ mapFind oneItemStore.itemMap "a" ∧
    (addItem oneItemStore "r" "a" "A2" "2026-01-01").1.racks ≠ oneItemStore.racks ∧
    (addItem oneItemStore "r" "a" "A2" "2026-01-01").1.expiryHeap
      ≠ oneItemStore.expiryHeap := by
  decide

/-- C6 as the code has it: adding an id that is live is not rejected. In every
state with `id` in `record`, `addPatient` stores the new patient under `id` in
place of the old one, appends it to the normal queue, puts it into the priority
queue, advances `arrivalCounter` as `++arrivalCounter` does, by one within the
range of `int`, and leaves every other id, the wait totals and the treated
counts alone. In every state with `id` in `itemMap`,
`addItem` stores the new item under `id`, pushes `id` on the stack of the rack
and `(expiry, id)` on the expiry heap and leaves every other id alone. -/
theorem duplicate_add_overwrites (s : HospitalQueueSystem) (w : Warehouse)
    (id name : String) (severity : Int) (rackId expiry : String) :
    (mapContains s.record id = true →
      mapFind (addPatient s id name severity).1.record id
        = some ⟨id, name, severity, wrap32 (s.arrivalCounter + 1), wrap32 (s.arrivalCounter + 1)⟩ ∧
      (∀ k, k ≠ id → mapFind (addPatient s id name severity).1.record k = mapFind s.record k) ∧
      (addPatient s id name severity).1.normalQueue
        = s.normalQueue ++ [⟨id, name, severity, wrap32 (s.arrivalCounter + 1),
            wrap32 (s.arrivalCounter + 1)⟩] ∧
      (addPatient s id name severity).1.priorityQueue.Perm
        (⟨id, name, severity, wrap32 (s.arrivalCounter + 1),
            wrap32 (s.arrivalCounter + 1)⟩ :: s.priorityQueue) ∧
      (addPatient s id name severity).1.arrivalCounter = wrap32 (s.arrivalCounter + 1) ∧
      (addPatient s id name severity).1.totalWaitNormal = s.totalWaitNormal ∧
      (addPatient s id name severity).1.totalWaitPriority = s.totalWaitPriority ∧
      (addPatient s id name severity).1.treatedNormalCount = s.treatedNormalCount ∧
      (addPatient s id name severity).1.treatedPriorityCount = s.treatedPriorityCount ∧
      (addPatient s id name severity).2 = [Out.added name id severity]) ∧
    (mapContains w.itemMap id = true →
      mapFind (addItem w rackId id name expiry).1.itemMap id
        = some ⟨id, name, expiry, rackId⟩ ∧
      (∀ k, k ≠ id →
        mapFind (addItem w rackId id name expiry).1.itemMap k = mapFind w.itemMap k) ∧
      mapFind (addItem w rackId id name expiry).1.racks rackId
        = some (id :: (mapFind w.racks rackId).getD []) ∧
      (addItem w rackId id name expiry).1.expiryHeap.Perm ((expiry, id) :: w.expiryHeap) ∧
      (addItem w rackId id name expiry).2 = [WOut.addedItem name id rackId expiry]) := by
  constructor
  · intro _
    refine ⟨?_, ?_, rfl, ?_, rfl, rfl, rfl, rfl, rfl, rfl⟩
    · simp [addPatient, mapFind_mapSet]
    · intro k hk
      simp [addPatient, mapFind_mapSet, hk]
    · exact pqPush_perm _ _
  · intro _
    refine ⟨?_, ?_, addItem_rack w rackId id name expiry, ?_, rfl⟩
    · unfold addItem ensureRack
      by_cases h : mapContains w.racks rackId = true <;> simp [h, mapFind_mapSet]
    · intro k hk
      unfold addItem ensureRack
      by_cases h : mapContains w.racks rackId = true <;> simp [h, mapFind_mapSet, hk]
    · unfold addItem ensureRack
      by_cases h : mapContains w.racks rackId = true <;> simp [h, heapPush_perm]

/-- The amended C6 at `oneLiveWard` and `oneItemStore`, adding `a` once more. -/
theorem duplicate_add_overwrites_witness :
    mapContains oneLiveWard.record "a" = true ∧
    mapContains oneItemStore.itemMap "a" = true ∧
    mapFind (addPatient oneLiveWard "a" "A2" 3).1.record "a"
      = some ⟨"a", "A2", 3, wrap32 (oneLiveWard.arrivalCounter + 1),
          wrap32 (oneLiveWard.arrivalCounter + 1)⟩ ∧
    mapFind (addItem oneItemStore "r" "a" "A2" "2026-01-01").1.itemMap "a"
      = some ⟨"a", "A2", "2026-01-01", "r"⟩ :=
  ⟨by decide, by decide,
    ((duplicate_add_overwrites oneLiveWard oneItemStore "a" "A2" 3 "r" "2026-01-01").1
      (by decide)).1,
    ((duplicate_add_overwrites oneLiveWard oneItemStore "a" "A2" 3 "r" "2026-01-01").2
      (by decide)).1⟩

/-! ## C7: dispatch from a rack -/

/-- C7 fails on the code: in `sweptStore` the stack of rack `r` is `[b, a]` with
`b` swept and `a` live; `dispatchFromRack r` pops `b`, reports that the top item
is not in the records and dispatches nothing, so `a` stays live. -/
theorem dispatch_stops_at_stale_top :
    mapFind sweptStore.racks "r" = some ["b", "a"] ∧
    mapContains sweptStore.itemMap "b" = false ∧
    mapContains sweptStore.itemMap "a" = true ∧
    (dispatchFromRack sweptStore "r").2 = [WOut.topNotFound] ∧
    (dispatchFromRack sweptStore "r").1.itemMap = sweptStore.itemMap ∧
    mapContains (dispatchFromRack sweptStore "r").1.itemMap "a" = true ∧
    mapFind (dispatchFromRack sweptStore "r").1.racks "r" = some ["a"] := by
  decide

/-- C7 as the code has it: in every state in which the stack of rack `rackId` is
`topId :: rest`, `dispatchFromRack` pops `topId` and nothing else from that
stack and leaves the expiry heap alone; when `topId` is live it reports the item
stored under it as dispatched and erases it from `itemMap`; when `topId` is
stale it reports that the top item is not in the records and leaves `itemMap`
as it was. -/
theorem dispatch_pops_one (w : Warehouse) (rackId topId : String) (rest : List String)
    (h : mapFind w.racks rackId = some (topId :: rest)) :
    mapFind (dispatchFromRack w rackId).1.racks rackId = some rest ∧
    (dispatchFromRack w rackId).1.expiryHeap = w.expiryHeap ∧
    (∀ it, mapFind w.itemMap topId = some it →
      (dispatchFromRack w rackId).2 = [WOut.dispatched it rackId] ∧
      (dispatchFromRack w rackId).1.itemMap = mapErase w.itemMap topId) ∧
    (mapFind w.itemMap topId = none →
      (dispatchFromRack w rackId).2 = [WOut.topNotFound] ∧
      (dispatchFromRack w rackId).1.itemMap = w.itemMap) := by
  have hc : mapContains w.racks rackId = true := by
    unfold mapContains
    rw [h]
    rfl
  have hi : mapIndex w.racks rackId [] = (topId :: rest, w.racks) := by
    unfold mapIndex
    rw [h]
  unfold dispatchFromRack
  simp only [hc, Bool.not_true, Bool.false_eq_true, if_false, hi]
  refine ⟨?_, ?_, ?_, ?_⟩
  · by_cases ht : mapContains w.itemMap topId = true <;> simp [ht, mapFind_mapSet]
  · by_cases ht : mapContains w.itemMap topId = true <;> simp [ht]
  · intro it hit
    have ht : mapContains w.itemMap topId = true := by
      unfold mapContains
      rw [hit]
      rfl
    have hidx : mapIndex w.itemMap topId Item.blank = (it, w.itemMap) := by
      unfold mapIndex
      rw [hit]
    simp [ht, hidx]
  · intro hnone
    have ht : mapContains w.itemMap topId = false := by
      unfold mapContains
      rw [hnone]
      rfl
    simp [ht]

/-- The amended C7 at `sweptStore`, whose rack `r` has the stale `b` on top. -/
theorem dispatch_pops_one_witness :
    mapFind sweptStore.racks "r" = some ("b" :: ["a"]) ∧
    mapFind (dispatchFromRack sweptStore "r").1.racks "r" = some ["a"] ∧
    (dispatchFromRack sweptStore "r").1.expiryHeap = sweptStore.expiryHeap :=
  ⟨by decide, (dispatch_pops_one sweptStore "r" "b" ["a"] (by decide)).1,
    (dispatch_pops_one sweptStore "r" "b" ["a"] (by decide)).2.1⟩

/-! ## C3: the priority take picks the maximum -/

theorem priorityCompare_asymm (a b : Patient) (h : PriorityCompare a b = true) :
    PriorityCompare b a = false := by
  unfold PriorityCompare at h ⊢
  by_cases hs : a.severity = b.severity
  · have hs' : b.severity = a.severity := hs.symm
    simp only [hs, ne_eq, not_true_eq_false, if_false, decide_eq_true_eq] at h
    simp only [hs', ne_eq, not_true_eq_false, if_false, decide_eq_false_iff_not]
    omega
  · have hs' : ¬ b.severity = a.severity := fun hc => hs hc.symm
    simp only [hs, ne_eq, not_false_eq_true, if_true, decide_eq_true_eq] at h
    simp only [hs', ne_eq, not_false_eq_true, if_true, decide_eq_false_iff_not]
    omega

theorem priorityCompare_false_iff (a b : Patient) :
    PriorityCompare a b = false ↔
      b.severity < a.severity ∨ (b.severity = a.severity ∧ a.arrivalOrder ≤ b.arrivalOrder) := by
  unfold PriorityCompare
  by_cases hs : a.severity = b.severity
  · simp only [hs, ne_eq, not_true_eq_false, if_false, decide_eq_false_iff_not]
    constructor
    · intro h
      right
      exact ⟨trivial, by omega⟩
    · rintro (h | ⟨_, h⟩) <;> omega
  · simp only [hs, ne_eq, not_false_eq_true, if_true, decide_eq_false_iff_not]
    constructor
    · intro h
      left
      omega
    · rintro (h | ⟨h, _⟩)
      · omega
      · exact absurd h.symm hs

theorem priorityCompare_true_iff (a b : Patient) :
    PriorityCompare a b = true ↔
      a.severity < b.severity ∨ (a.severity = b.severity ∧ b.arrivalOrder < a.arrivalOrder) := by
  unfold PriorityCompare
  by_cases hs : a.severity = b.severity
  · simp only [hs, ne_eq, not_true_eq_false, if_false, decide_eq_true_eq]
    constructor
    · intro h
      right
      exact ⟨trivial, by omega⟩
    · rintro (h | ⟨_, h⟩) <;> omega
  · simp only [hs, ne_eq, not_false_eq_true, if_true, decide_eq_true_eq]
    constructor
    · intro h
      exact Or.inl h
    · rintro (h | ⟨h, _⟩)
      · exact h
      · exact h.elim

theorem pqPush_sorted (p : Patient) (l : List Patient) (h : pqSorted l) :
    pqSorted (pqPush p l) := by
  unfold pqSorted at h ⊢
  induction l with
  | nil => simp [pqPush]
  | cons e l ih =>
    rw [List.pairwise_cons] at h
    unfold pqPush
    by_cases hc : PriorityCompare e p = true
    · simp only [hc, if_true, List.pairwise_cons]
      refine ⟨?_, h.1, h.2⟩
      intro x hx
      rcases List.mem_cons.mp hx with rfl | hx'
      · exact priorityCompare_asymm _ _ hc
      · have hex := h.1 x hx'
        rw [priorityCompare_false_iff] at hex ⊢
        rw [priorityCompare_true_iff] at hc
        omega
    · simp only [hc, Bool.false_eq_true, if_false, List.pairwise_cons]
      refine ⟨?_, ih h.2⟩
      intro x hx
      have hx' : x ∈ p :: l := (pqPush_perm p l).mem_iff.mp hx
      rcases List.mem_cons.mp hx' with rfl | hx''
      · simpa using hc
      · exact h.1 x hx''

theorem dropTreated_sublist (record : List (String × Patient)) (l : List Patient) :
    (dropTreated record l).Sublist l := by
  induction l with
  | nil => exact List.Sublist.refl _
  | cons a l ih =>
    unfold dropTreated
    by_cases h : mapContains record a.id = true
    · simp [h]
    · simp only [h]
      exact List.Sublist.cons a ih

theorem mem_dropTreated (record : List (String × Patient)) (l : List Patient) (e : Patient)
    (he : e ∈ l) (hl : mapContains record e.id = true) : e ∈ dropTreated record l := by
  induction l with
  | nil => simp at he
  | cons a l ih =>
    unfold dropTreated
    by_cases h : mapContains record a.id = true
    · simpa [h] using he
    · simp only [h]
      rcases List.mem_cons.mp he with rfl | he'
      · exact absurd hl h
      · exact ih he'

theorem dropTreated_idem (record : List (String × Patient)) (l : List Patient) :
    dropTreated record (dropTreated record l) = dropTreated record l := by
  induction l with
  | nil => rfl
  | cons a l ih =>
    by_cases h : mapContains record a.id = true
    · simp [dropTreated, h]
    · simp only [dropTreated, h]
      exact ih

/-- The priority queue after `treatNextNormal`: untouched, or cleaned at the top. -/
theorem treatNextNormalFrom_priorityQueue (q : List Patient) :
    ∀ s : HospitalQueueSystem,
      (treatNextNormalFrom q s).1.priorityQueue = s.priorityQueue ∨
      (treatNextNormalFrom q s).1.priorityQueue
        = dropTreated (treatNextNormalFrom q s).1.record s.priorityQueue := by
  induction q with
  | nil => intro s; exact Or.inl rfl
  | cons a q ih =>
    intro s
    right
    by_cases ha : mapContains s.record a.id = true
    · simp [treatNextNormalFrom, ha, cleanPriorityTop]
    · simp only [treatNextNormalFrom, ha, Bool.false_eq_true, if_false, cleanPriorityTop]
      rcases ih { s with normalQueue := q } with h | h
      · rw [h]
      · rw [h, dropTreated_idem]

theorem mapFind_of_mapErase {β : Type} (m : List (String × β)) (k k' : String) (v : β)
    (h : mapFind (mapErase m k) k' = some v) : k' ≠ k ∧ mapFind m k' = some v := by
  rw [mapFind_mapErase] at h
  by_cases hk : k' = k
  · simp [hk] at h
  · simp only [hk, if_false] at h
    exact ⟨hk, h⟩

theorem mapContains_of_find {β : Type} (m : List (String × β)) (k : String) (v : β)
    (h : mapFind m k = some v) : mapContains m k = true := by
  unfold mapContains
  rw [h]
  rfl

/-- A take through the normal queue only removes: from `record` and from the
priority queue, where every entry that is still live stays. -/
theorem treatNextNormal_shrinks (s : HospitalQueueSystem) :
    (∀ k q, mapFind (treatNextNormal s).1.record k = some q → mapFind s.record k = some q) ∧
    (treatNextNormal s).1.priorityQueue.Sublist s.priorityQueue ∧
    ∀ e ∈ s.priorityQueue, mapContains (treatNextNormal s).1.record e.id = true →
      e ∈ (treatNextNormal s).1.priorityQueue := by
  refine ⟨?_, ?_, ?_⟩
  · intro k q h
    rcases treatNextNormal_cases s with ⟨_, hr⟩ | ⟨p, _, _, hr⟩
    · rw [hr] at h
      exact h
    · rw [hr] at h
      exact (mapFind_of_mapErase _ _ _ _ h).2
  · rcases treatNextNormalFrom_priorityQueue s.normalQueue s with h | h
    · unfold treatNextNormal
      rw [h]
    · unfold treatNextNormal
      rw [h]
      exact dropTreated_sublist _ _
  · intro e he hl
    rcases treatNextNormalFrom_priorityQueue s.normalQueue s with h | h
    · unfold treatNextNormal
      rw [h]
      exact he
    · unfold treatNextNormal at hl ⊢
      rw [h]
      exact mem_dropTreated _ _ e he hl

/-- A take through the priority queue only removes: from `record` and from the
priority queue, where every entry that is still live stays. -/
theorem treatNextPriority_shrinks (s : HospitalQueueSystem) :
    (∀ k q, mapFind (treatNextPriority s).1.record k = some q → mapFind s.record k = some q) ∧
    (treatNextPriority s).1.priorityQueue.Sublist s.priorityQueue ∧
    ∀ e ∈ s.priorityQueue, mapContains (treatNextPriority s).1.record e.id = true →
      e ∈ (treatNextPriority s).1.priorityQueue := by
  rcases all_stale_or_first_live s.record s.priorityQueue with h | ⟨pre, p, post, hq, hpre, hp⟩
  · have hs := treatNextPriority_stale s h
    rw [hs.2]
    refine ⟨fun k q hkq => hkq, List.nil_sublist _, ?_⟩
    intro e he hl
    have := h e he
    simp only at hl
    rw [this] at hl
    exact absurd hl (by simp)
  · have hs := treatNextPriority_live s pre p post hq hpre hp
    refine ⟨?_, ?_, ?_⟩
    · intro k q h
      rw [hs.2.1] at h
      exact (mapFind_of_mapErase _ _ _ _ h).2
    · rw [hs.2.2.1, hq]
      exact (List.sublist_cons_self p post).trans (List.sublist_append_right pre _)
    · intro e he hl
      rw [hs.2.1, mapContains_mapErase] at hl
      simp only [ne_eq, Bool.and_eq_true, decide_eq_true_eq] at hl
      rw [hs.2.2.1]
      rw [hq] at he
      rcases List.mem_append.mp he with he' | he'
      · have := hpre e he'
        rw [this] at hl
        exact absurd hl.2 (by simp)
      · rcases List.mem_cons.mp he' with rfl | he''
        · exact absurd rfl hl.1
        · exact he''

theorem linked_of_shrinks (used : List String) (s t : HospitalQueueSystem)
    (h : PriorityLinked used s)
    (hrec : ∀ k q, mapFind t.record k = some q → mapFind s.record k = some q)
    (hsub : t.priorityQueue.Sublist s.priorityQueue)
    (hkeep : ∀ e ∈ s.priorityQueue, mapContains t.record e.id = true → e ∈ t.priorityQueue) :
    PriorityLinked used t := by
  obtain ⟨hu, hnd, hr, hso⟩ := h
  refine ⟨fun e he => hu e (hsub.subset he), hnd.sublist (hsub.map _), ?_, ?_⟩
  · intro k q hkq
    have := hr k q (hrec k q hkq)
    refine ⟨this.1, hkeep q this.2 ?_⟩
    rw [this.1]
    exact mapContains_of_find _ _ _ hkq
  · unfold pqSorted at hso ⊢
    exact hso.sublist hsub

theorem linked_add (used : List String) (s : HospitalQueueSystem) (id name : String)
    (severity : Int) (h : PriorityLinked used s) (hid : id ∉ used) :
    PriorityLinked (id :: used) (addPatient s id name severity).1 := by
  obtain ⟨hu, hnd, hr, hso⟩ := h
  have hperm := pqPush_perm ⟨id, name, severity, wrap32 (s.arrivalCounter + 1),
      wrap32 (s.arrivalCounter + 1)⟩
    s.priorityQueue
  refine ⟨?_, ?_, ?_, pqPush_sorted _ _ hso⟩
  · intro e he
    have he' := hperm.mem_iff.mp he
    rcases List.mem_cons.mp he' with rfl | he''
    · exact List.mem_cons_self _ _
    · exact List.mem_cons_of_mem _ (hu e he'')
  · have := (hperm.map (fun e => e.id)).nodup_iff
    show ((pqPush _ s.priorityQueue).map (fun e => e.id)).Nodup
    rw [this]
    simp only [List.map_cons, List.nodup_cons]
    refine ⟨?_, hnd⟩
    intro hc
    obtain ⟨e, he, hid'⟩ := List.mem_map.mp hc
    exact hid (hid' ▸ hu e he)
  · intro k q hkq
    have hkq' : mapFind (mapSet s.record id
        ⟨id, name, severity, wrap32 (s.arrivalCounter + 1),
            wrap32 (s.arrivalCounter + 1)⟩) k = some q := hkq
    rw [mapFind_mapSet] at hkq'
    show q.id = k ∧ q ∈ pqPush _ s.priorityQueue
    by_cases hk : k = id
    · simp only [hk, if_true, Option.some.injEq] at hkq'
      subst hkq'
      exact ⟨hk.symm, hperm.mem_iff.mpr (List.mem_cons_self _ _)⟩
    · simp only [hk, if_false] at hkq'
      have := hr k q hkq'
      exact ⟨this.1, hperm.mem_iff.mpr (List.mem_cons_of_mem _ this.2)⟩

theorem linked_run (ops : List HOp) :
    ∀ (s : HospitalQueueSystem) (used : List String), PriorityLinked used s →
      (addedIds ops).Nodup → (∀ k ∈ addedIds ops, k ∉ used) →
      ∃ used', PriorityLinked used' (runH ops s).1 := by
  induction ops with
  | nil => intro s used h _ _; exact ⟨used, h⟩
  | cons op ops ih =>
    intro s used h hnd hfresh
    simp only [runH]
    cases op with
    | add id name severity =>
      simp only [addedIds, List.nodup_cons, List.mem_cons, forall_eq_or_imp] at hnd hfresh
      refine ih _ (id :: used) (linked_add used s id name severity h hfresh.1) hnd.2 ?_
      intro k hk hc
      rcases List.mem_cons.mp hc with rfl | hc'
      · exact hnd.1 hk
      · exact hfresh.2 k hk hc'
    | treatNormal =>
      have hs := treatNextNormal_shrinks s
      exact ih _ used (linked_of_shrinks used s _ h hs.1 hs.2.1 hs.2.2) hnd hfresh
    | treatPriority =>
      have hs := treatNextPriority_shrinks s
      exact ih _ used (linked_of_shrinks used s _ h hs.1 hs.2.1 hs.2.2) hnd hfresh
    | display => exact ih _ used h hnd hfresh
    | find id =>
      simp only [HOp.apply]
      rw [findPatient_state]
      exact ih _ used h hnd hfresh
    | stats => exact ih _ used h hnd hfresh

theorem linked_init : PriorityLinked [] HospitalQueueSystem.init := by
  refine ⟨?_, ?_, ?_, ?_⟩
  · intro e he
    simp [HospitalQueueSystem.init] at he
  · simp [HospitalQueueSystem.init]
  · intro k q h
    simp [HospitalQueueSystem.init, mapFind] at h
  · simp [pqSorted, HospitalQueueSystem.init]

/-- In a linked state with a live patient the priority take reports the stored
record that no live record outranks. -/
theorem treatNextPriority_max (used : List String) (s : HospitalQueueSystem)
    (h : PriorityLinked used s) (hlive : ∃ k q, mapFind s.record k = some q) :
    ∃ p, (treatNextPriority s).2 = [Out.treatedPriority p] ∧
      mapFind s.record p.id = some p ∧
      ∀ k q, mapFind s.record k = some q →
        q.severity ≤ p.severity ∧ (q.severity = p.severity → p.arrivalOrder ≤ q.arrivalOrder) := by
  obtain ⟨hu, hnd, hr, hso⟩ := h
  obtain ⟨k0, q0, hq0⟩ := hlive
  have hex : ∃ e ∈ s.priorityQueue, mapContains s.record e.id = true := by
    refine ⟨q0, (hr k0 q0 hq0).2, ?_⟩
    rw [(hr k0 q0 hq0).1]
    exact mapContains_of_find _ _ _ hq0
  obtain ⟨pre, p, post, hq, hpre, hp⟩ := exists_first_live s.record s.priorityQueue hex
  have hs := treatNextPriority_live s pre p post hq hpre hp
  have hpmem : p ∈ s.priorityQueue := by
    rw [hq]
    simp
  have hpfind : mapFind s.record p.id = some p := by
    unfold mapContains at hp
    cases hf : mapFind s.record p.id with
    | none => simp [hf] at hp
    | some q =>
      have hq' := hr p.id q hf
      have : q = p := List.inj_on_of_nodup_map hnd hq'.2 hpmem hq'.1
      rw [this]
  refine ⟨p, hs.1, hpfind, ?_⟩
  intro k q hkq
  have hq' := hr k q hkq
  have hqlive : mapContains s.record q.id = true := by
    rw [hq'.1]
    exact mapContains_of_find _ _ _ hkq
  have hmem := hq'.2
  rw [hq] at hmem
  unfold pqSorted at hso
  rw [hq, List.pairwise_append] at hso
  rcases List.mem_append.mp hmem with hm | hm
  · have := hpre q hm
    rw [this] at hqlive
    exact absurd hqlive (by simp)
  · rcases List.mem_cons.mp hm with rfl | hm'
    · exact ⟨le_refl _, fun _ => le_refl _⟩
    · have hcmp := (List.pairwise_cons.mp hso.2.1).1 q hm'
      rw [priorityCompare_false_iff] at hcmp
      constructor
      · omega
      · intro heq
        omega

/-- C3: in every state reached from the fresh system by actions whose added ids
are pairwise distinct and in which some patient is live, `treatNextPriority`
reports a patient `p` that is the record stored under its id, and every live
record has a severity of at most `p.severity` and, at equal severity, an
`arrivalOrder` of at least `p.arrivalOrder`. On the example, severities 3, 5, 1,
5 added in this order and four priority takes, the patients are treated in the
order 2nd, 4th, 1st, 3rd. -/
theorem priority_take_is_max :
    (∀ ops : List HOp, (addedIds ops).Nodup →
      (∃ k q, mapFind (runH ops HospitalQueueSystem.init).1.record k = some q) →
      ∃ p, (treatNextPriority (runH ops HospitalQueueSystem.init).1).2
          = [Out.treatedPriority p] ∧
        mapFind (runH ops HospitalQueueSystem.init).1.record p.id = some p ∧
        ∀ k q, mapFind (runH ops HospitalQueueSystem.init).1.record k = some q →
          q.severity ≤ p.severity ∧
          (q.severity = p.severity → p.arrivalOrder ≤ q.arrivalOrder)) ∧
    treatedIds (runH priorityExample HospitalQueueSystem.init).2 = ["p2", "p4", "p1", "p3"] := by
  refine ⟨?_, by decide⟩
  intro ops hnd hlive
  obtain ⟨used, hlinked⟩ := linked_run ops HospitalQueueSystem.init [] linked_init hnd
    (fun k _ => by simp)
  exact treatNextPriority_max used _ hlinked hlive

/-- C3 after `a` (severity 1), `b` (5), `c` (5) arrived and `b` was treated by
priority: the next priority take reports `c`. -/
theorem priority_take_is_max_witness :
    (addedIds [HOp.add "a" "A" 1, HOp.add "b" "B" 5, HOp.add "c" "C" 5,
      HOp.treatPriority]).Nodup ∧
    (∃ k q, mapFind (runH [HOp.add "a" "A" 1, HOp.add "b" "B" 5, HOp.add "c" "C" 5,
      HOp.treatPriority] HospitalQueueSystem.init).1.record k = some q) ∧
    ∃ p, (treatNextPriority (runH [HOp.add "a" "A" 1, HOp.add "b" "B" 5, HOp.add "c" "C" 5,
        HOp.treatPriority] HospitalQueueSystem.init).1).2 = [Out.treatedPriority p] ∧
      mapFind (runH [HOp.add "a" "A" 1, HOp.add "b" "B" 5, HOp.add "c" "C" 5,
        HOp.treatPriority] HospitalQueueSystem.init).1.record p.id = some p ∧
      ∀ k q, mapFind (runH [HOp.add "a" "A" 1, HOp.add "b" "B" 5, HOp.add "c" "C" 5,
          HOp.treatPriority] HospitalQueueSystem.init).1.record k = some q →
        q.severity ≤ p.severity ∧ (q.severity = p.severity → p.arrivalOrder ≤ q.arrivalOrder) :=
  ⟨by decide, ⟨"c", ⟨"c", "C", 5, 3, 3⟩, by decide⟩,
    priority_take_is_max.1 _ (by decide) ⟨"c", ⟨"c", "C", 5, 3, 3⟩, by decide⟩⟩

/-! ## C8: the sweep boundary -/

theorem strLt_iff (a b : String) : strLt a b = true ↔ a < b := by
  simp [strLt, String.lt_iff_toList_lt]

theorem strLe_iff (a b : String) : strLe a b = true ↔ a ≤ b := by
  unfold strLe
  rw [Bool.not_eq_true', ← Bool.not_eq_true, strLt_iff]
  exact not_lt

theorem pairLt_iff (a b : String × String) :
    pairLt a b = true ↔ a.1 < b.1 ∨ (a.1 = b.1 ∧ a.2 < b.2) := by
  unfold pairLt
  simp only [Bool.or_eq_true, Bool.and_eq_true, Bool.not_eq_true', strLt_iff]
  rw [← Bool.not_eq_true, strLt_iff]
  constructor
  · rintro (h | ⟨h1, h2⟩)
    · exact Or.inl h
    · rcases lt_or_eq_of_le (not_lt.mp h1) with h | h
      · exact Or.inl h
      · exact Or.inr ⟨h, h2⟩
  · rintro (h | ⟨h1, h2⟩)
    · exact Or.inl h
    · exact Or.inr ⟨by rw [h1]; exact lt_irrefl _, h2⟩

theorem pairLt_asymm (a b : String × String) (h : pairLt a b = true) : pairLt b a = false := by
  rw [← Bool.not_eq_true]
  rw [pairLt_iff] at h ⊢
  rintro (h' | ⟨h1, h2⟩)
  · rcases h with h | ⟨h, _⟩
    · exact lt_asymm h h'
    · rw [h] at h'
      exact lt_irrefl _ h'
  · rcases h with h | ⟨_, h⟩
    · rw [h1] at h
      exact lt_irrefl _ h
    · exact lt_asymm h h2

theorem pairLt_trans (a b c : String × String) (hab : pairLt a b = true)
    (hbc : pairLt b c = true) : pairLt a c = true := by
  rw [pairLt_iff] at hab hbc ⊢
  rcases hab with h | ⟨h1, h2⟩
  · rcases hbc with h' | ⟨h1', _⟩
    · exact Or.inl (lt_trans h h')
    · exact Or.inl (h1' ▸ h)
  · rcases hbc with h' | ⟨h1', h2'⟩
    · exact Or.inl (h1 ▸ h')
    · exact Or.inr ⟨h1.trans h1', lt_trans h2 h2'⟩

theorem heapPush_sorted (x : String × String) (l : List (String × String))
    (h : heapSorted l) : heapSorted (heapPush x l) := by
  unfold heapSorted at h ⊢
  induction l with
  | nil => simp [heapPush]
  | cons e l ih =>
    rw [List.pairwise_cons] at h
    unfold heapPush
    by_cases hc : pairGreater e x = true
    · simp only [hc, if_true, List.pairwise_cons]
      refine ⟨?_, h.1, h.2⟩
      intro y hy
      rcases List.mem_cons.mp hy with rfl | hy'
      · exact pairLt_asymm _ _ hc
      · have hey := h.1 y hy'
        unfold pairGreater at hey hc ⊢
        rw [← Bool.not_eq_true] at hey ⊢
        intro hyx
        exact hey (pairLt_trans _ _ _ hyx hc)
    · simp only [hc, Bool.false_eq_true, if_false, List.pairwise_cons]
      refine ⟨?_, ih h.2⟩
      intro y hy
      have hy' : y ∈ x :: l := (heapPush_perm x l).mem_iff.mp hy
      rcases List.mem_cons.mp hy' with rfl | hy''
      · simpa using hc
      · exact h.1 y hy''

/-- The heap after the sweep loop: the entries behind the leading run of expiries
up to `currentDate`. -/
theorem removeExpiredLoop_heap (currentDate : String) (h : List (String × String)) :
    ∀ m : List (String × Item),
      (removeExpiredLoop currentDate h m).1
        = h.dropWhile (fun pr => strLe pr.1 currentDate) := by
  induction h with
  | nil => intro m; rfl
  | cons pr rest ih =>
    intro m
    by_cases hle : strLe pr.1 currentDate = true
    · by_cases hc : mapContains m pr.2 = true
      · simp only [removeExpiredLoop, hle, hc, if_true, List.dropWhile_cons]
        exact ih _
      · simp only [removeExpiredLoop, hle, hc, if_true, Bool.false_eq_true, if_false,
          List.dropWhile_cons]
        exact ih _
    · simp [removeExpiredLoop, hle, List.dropWhile_cons]

/-- The item map after the sweep loop: the ids of the leading run of expiries up
to `currentDate` are gone, every other id is as before. -/
theorem removeExpiredLoop_find (currentDate : String) (h : List (String × String)) :
    ∀ (m : List (String × Item)) (k : String),
      mapFind (removeExpiredLoop currentDate h m).2.1 k
        = if k ∈ (h.takeWhile (fun pr => strLe pr.1 currentDate)).map (fun pr => pr.2)
          then none else mapFind m k := by
  induction h with
  | nil => intro m k; simp [removeExpiredLoop]
  | cons pr rest ih =>
    intro m k
    by_cases hle : strLe pr.1 currentDate = true
    · have htw : (pr :: rest).takeWhile (fun pr => strLe pr.1 currentDate)
          = pr :: rest.takeWhile (fun pr => strLe pr.1 currentDate) := by
        simp [List.takeWhile_cons, hle]
      rw [htw, List.map_cons]
      by_cases hmem : k ∈ (rest.takeWhile (fun pr => strLe pr.1 currentDate)).map
          (fun pr => pr.2)
      · have hmem' : k ∈ pr.2 :: (rest.takeWhile (fun pr => strLe pr.1 currentDate)).map
            (fun pr => pr.2) := List.mem_cons_of_mem _ hmem
        rw [if_pos hmem']
        by_cases hc : mapContains m pr.2 = true
        · simp only [removeExpiredLoop, hle, hc, if_true]
          rw [ih, if_pos hmem]
        · simp only [removeExpiredLoop, hle, hc, if_true, Bool.false_eq_true, if_false]
          rw [ih, if_pos hmem]
      · by_cases hc : mapContains m pr.2 = true
        · simp only [removeExpiredLoop, hle, hc, if_true]
          rw [ih, if_neg hmem, mapIndex_of_contains m pr.2 Item.blank hc, mapFind_mapErase]
          by_cases hk : k = pr.2
          · rw [if_pos hk, if_pos (by rw [hk]; exact List.mem_cons_self _ _)]
          · rw [if_neg hk, if_neg (by
              intro hc'
              rcases List.mem_cons.mp hc' with h1 | h1
              · exact hk h1
              · exact hmem h1)]
        · simp only [removeExpiredLoop, hle, hc, if_true, Bool.false_eq_true, if_false]
          rw [ih, if_neg hmem]
          by_cases hk : k = pr.2
          · rw [if_pos (by rw [hk]; exact List.mem_cons_self _ _)]
            unfold mapContains at hc
            rw [hk]
            cases hf : mapFind m pr.2 with
            | none => rfl
            | some v => simp [hf] at hc
          · rw [if_neg (by
              intro hc'
              rcases List.mem_cons.mp hc' with h1 | h1
              · exact hk h1
              · exact hmem h1)]
    · simp [removeExpiredLoop, hle, List.takeWhile_cons]

theorem mem_takeWhile_of_sorted (d : String) (l : List (String × String))
    (hs : heapSorted l) (x : String × String) (hx : x ∈ l) (hle : strLe x.1 d = true) :
    x ∈ l.takeWhile (fun pr => strLe pr.1 d) := by
  unfold heapSorted at hs
  induction l with
  | nil => simp at hx
  | cons a rest ih =>
    rw [List.pairwise_cons] at hs
    rcases List.mem_cons.mp hx with rfl | hx'
    · simp [List.takeWhile_cons, hle]
    · have ha : strLe a.1 d = true := by
        have hgt := hs.1 x hx'
        unfold pairGreater at hgt
        rw [← Bool.not_eq_true, pairLt_iff] at hgt
        rw [strLe_iff] at hle ⊢
        have : a.1 ≤ x.1 := not_lt.mp (fun hc => hgt (Or.inl hc))
        exact le_trans this hle
      simp only [List.takeWhile_cons, ha, if_true]
      exact List.mem_cons_of_mem _ (ih hs.2 hx')

theorem ensureRack_frame (w : Warehouse) (rackId : String) :
    (ensureRack w rackId).itemMap = w.itemMap ∧
    (ensureRack w rackId).expiryHeap = w.expiryHeap := by
  unfold ensureRack
  by_cases h : mapContains w.racks rackId = true <;> simp [h]

/-- What `dispatchFromRack` does to the heap and the item map. -/
theorem dispatchFromRack_frame (w : Warehouse) (rackId : String) :
    (dispatchFromRack w rackId).1.expiryHeap = w.expiryHeap ∧
    ((dispatchFromRack w rackId).1.itemMap = w.itemMap ∨
      ∃ k, (dispatchFromRack w rackId).1.itemMap = mapErase w.itemMap k) := by
  unfold dispatchFromRack
  by_cases h : mapContains w.racks rackId = true
  · simp only [h, Bool.not_true, Bool.false_eq_true, if_false]
    cases hr : (mapIndex w.racks rackId []).1 with
    | nil => refine ⟨?_, Or.inl ?_⟩ <;> simp
    | cons topId rest =>
      by_cases ht : mapContains w.itemMap topId = true
      · refine ⟨?_, Or.inr ⟨topId, ?_⟩⟩ <;>
          simp [ht, mapIndex_of_contains w.itemMap topId Item.blank ht]
      · refine ⟨?_, Or.inl ?_⟩ <;> simp [ht]
  · simp [h]

theorem expiryLinked_of_shrinks (used : List String) (w t : Warehouse)
    (h : ExpiryLinked used w)
    (hrec : ∀ k it, mapFind t.itemMap k = some it → mapFind w.itemMap k = some it)
    (hsub : t.expiryHeap.Sublist w.expiryHeap)
    (hkeep : ∀ k it, mapFind t.itemMap k = some it → (it.expiry, k) ∈ w.expiryHeap →
      (it.expiry, k) ∈ t.expiryHeap) :
    ExpiryLinked used t := by
  obtain ⟨hu, hnd, hr, hso⟩ := h
  refine ⟨fun e he => hu e (hsub.subset he), hnd.sublist (hsub.map _), ?_, ?_⟩
  · intro k it hk
    have := hr k it (hrec k it hk)
    exact ⟨this.1, hkeep k it hk this.2⟩
  · unfold heapSorted at hso ⊢
    exact hso.sublist hsub

theorem expiryLinked_add (used : List String) (w : Warehouse) (rackId id name expiry : String)
    (h : ExpiryLinked used w) (hid : id ∉ used) :
    ExpiryLinked (id :: used) (addItem w rackId id name expiry).1 := by
  obtain ⟨hu, hnd, hr, hso⟩ := h
  have hperm := heapPush_perm (expiry, id) w.expiryHeap
  have hheap : (addItem w rackId id name expiry).1.expiryHeap
      = heapPush (expiry, id) w.expiryHeap := by
    unfold addItem
    simp only [(ensureRack_frame w rackId).2]
  have hmap : (addItem w rackId id name expiry).1.itemMap
      = mapSet w.itemMap id ⟨id, name, expiry, rackId⟩ := by
    unfold addItem
    simp only [(ensureRack_frame w rackId).1]
  refine ⟨?_, ?_, ?_, ?_⟩
  · intro e he
    rw [hheap] at he
    have he' := hperm.mem_iff.mp he
    rcases List.mem_cons.mp he' with rfl | he''
    · exact List.mem_cons_self _ _
    · exact List.mem_cons_of_mem _ (hu e he'')
  · rw [hheap, (hperm.map (fun e => e.2)).nodup_iff]
    simp only [List.map_cons, List.nodup_cons]
    refine ⟨?_, hnd⟩
    intro hc
    obtain ⟨e, he, hid'⟩ := List.mem_map.mp hc
    exact hid (hid' ▸ hu e he)
  · intro k it hk
    rw [hmap, mapFind_mapSet] at hk
    rw [hheap]
    by_cases hkid : k = id
    · simp only [hkid, if_true, Option.some.injEq] at hk
      subst hk
      exact ⟨hkid.symm, hperm.mem_iff.mpr (by rw [hkid]; exact List.mem_cons_self _ _)⟩
    · simp only [hkid, if_false] at hk
      have := hr k it hk
      exact ⟨this.1, hperm.mem_iff.mpr (List.mem_cons_of_mem _ this.2)⟩
  · rw [hheap]
    exact heapPush_sorted _ _ hso

theorem expiryLinked_sweep (used : List String) (w : Warehouse) (d : String)
    (h : ExpiryLinked used w) : ExpiryLinked used (removeExpired w d).1 := by
  apply expiryLinked_of_shrinks used w _ h
  · intro k it hk
    unfold removeExpired at hk
    simp only at hk
    rw [removeExpiredLoop_find] at hk
    by_cases hm : k ∈ (w.expiryHeap.takeWhile (fun pr => strLe pr.1 d)).map (fun pr => pr.2)
    · rw [if_pos hm] at hk
      exact absurd hk (by simp)
    · rw [if_neg hm] at hk
      exact hk
  · unfold removeExpired
    simp only
    rw [removeExpiredLoop_heap]
    exact List.dropWhile_sublist _
  · intro k it hk hmem
    unfold removeExpired at hk ⊢
    simp only at hk ⊢
    rw [removeExpiredLoop_find] at hk
    rw [removeExpiredLoop_heap]
    by_cases hm : k ∈ (w.expiryHeap.takeWhile (fun pr => strLe pr.1 d)).map (fun pr => pr.2)
    · rw [if_pos hm] at hk
      exact absurd hk (by simp)
    · rw [← List.takeWhile_append_dropWhile (fun pr => strLe pr.1 d) w.expiryHeap] at hmem
      rcases List.mem_append.mp hmem with h1 | h1
      · exact absurd (List.mem_map.mpr ⟨(it.expiry, k), h1, rfl⟩) hm
      · exact h1

theorem expiryLinked_run (ops : List WOp) :
    ∀ (w : Warehouse) (used : List String), ExpiryLinked used w →
      (addedItemIds ops).Nodup → (∀ k ∈ addedItemIds ops, k ∉ used) →
      ∃ used', ExpiryLinked used' (runW ops w).1 := by
  induction ops with
  | nil => intro w used h _ _; exact ⟨used, h⟩
  | cons op ops ih =>
    intro w used h hnd hfresh
    simp only [runW]
    cases op with
    | add rackId id name expiry =>
      simp only [addedItemIds, List.nodup_cons, List.mem_cons, forall_eq_or_imp] at hnd hfresh
      refine ih _ (id :: used) (expiryLinked_add used w rackId id name expiry h hfresh.1)
        hnd.2 ?_
      intro k hk hc
      rcases List.mem_cons.mp hc with rfl | hc'
      · exact hnd.1 hk
      · exact hfresh.2 k hk hc'
    | dispatch rackId =>
      have hf := dispatchFromRack_frame w rackId
      refine ih _ used (expiryLinked_of_shrinks used w _ h ?_ ?_ ?_) hnd hfresh
      · intro k it hk
        simp only [WOp.apply] at hk
        rcases hf.2 with he | ⟨k', he⟩
        · rw [he] at hk
          exact hk
        · rw [he] at hk
          exact (mapFind_of_mapErase _ _ _ _ hk).2
      · simp only [WOp.apply]
        rw [hf.1]
      · intro k it _ hmem
        simp only [WOp.apply]
        rw [hf.1]
        exact hmem
    | find id =>
      simp only [WOp.apply]
      rw [findItem_state]
      exact ih _ used h hnd hfresh
    | display rackId =>
      simp only [WOp.apply]
      rw [showRack_state]
      exact ih _ used h hnd hfresh
    | sweep currentDate =>
      exact ih _ used (expiryLinked_sweep used w currentDate h) hnd hfresh
    | listAll => exact ih _ used h hnd hfresh

theorem expiryLinked_init : ExpiryLinked [] Warehouse.init := by
  refine ⟨?_, ?_, ?_, ?_⟩
  · intro e he
    simp [Warehouse.init] at he
  · simp [Warehouse.init]
  · intro k it h
    simp [Warehouse.init, mapFind] at h
  · simp [heapSorted, Warehouse.init]

/-- In a linked state the sweep removes the live items expiring up to the date
and no others. -/
theorem removeExpired_linked (used : List String) (w : Warehouse) (d : String)
    (h : ExpiryLinked used w) (k : String) :
    mapFind (removeExpired w d).1.itemMap k
      = (mapFind w.itemMap k).filter (fun it => !strLe it.expiry d) := by
  obtain ⟨hu, hnd, hr, hso⟩ := h
  unfold removeExpired
  simp only
  rw [removeExpiredLoop_find]
  cases hf : mapFind w.itemMap k with
  | none => simp
  | some it =>
    have hit := hr k it hf
    by_cases hle : strLe it.expiry d = true
    · have hmem := mem_takeWhile_of_sorted d w.expiryHeap hso (it.expiry, k) hit.2 hle
      have : k ∈ (w.expiryHeap.takeWhile (fun pr => strLe pr.1 d)).map (fun pr => pr.2) :=
        List.mem_map.mpr ⟨(it.expiry, k), hmem, rfl⟩
      rw [if_pos this]
      simp [Option.filter, hle]
    · have : k ∉ (w.expiryHeap.takeWhile (fun pr => strLe pr.1 d)).map (fun pr => pr.2) := by
        intro hc
        obtain ⟨pr, hpr, hk⟩ := List.mem_map.mp hc
        have hprmem : pr ∈ w.expiryHeap := (List.takeWhile_sublist _).subset hpr
        have heq : pr = (it.expiry, k) :=
          List.inj_on_of_nodup_map hnd hprmem hit.2 hk
        have hP := List.mem_takeWhile_imp hpr
        rw [heq] at hP
        exact hle hP
      rw [if_neg this]
      simp [Option.filter, hle]

/-- C8: in every state reached from the empty warehouse by actions whose added
item ids are pairwise distinct and for every date `d`, after `removeExpired d`
the item map holds exactly the items it held before whose expiry is not `<= d`,
each unchanged: the live items with expiry `<= d` are removed, those with expiry
`> d` stay as they are. On the example, expiries 2024-01-01, 2024-02-01 and
2024-03-01 swept with 2024-02-01, the first two items are removed and the third
stays. -/
theorem sweep_boundary :
    (∀ (ops : List WOp) (d : String), (addedItemIds ops).Nodup → ∀ k : String,
      mapFind (removeExpired (runW ops Warehouse.init).1 d).1.itemMap k
        = (mapFind (runW ops Warehouse.init).1.itemMap k).filter
            (fun it => !strLe it.expiry d)) ∧
    mapFind (removeExpired (runW sweepExample Warehouse.init).1 "2024-02-01").1.itemMap "i1"
      = none ∧
    mapFind (removeExpired (runW sweepExample Warehouse.init).1 "2024-02-01").1.itemMap "i2"
      = none ∧
    mapFind (removeExpired (runW sweepExample Warehouse.init).1 "2024-02-01").1.itemMap "i3"
      = some ⟨"i3", "I3", "2024-03-01", "r2"⟩ := by
  refine ⟨?_, by decide, by decide, by decide⟩
  intro ops d hnd k
  obtain ⟨used, hl⟩ := expiryLinked_run ops Warehouse.init [] expiryLinked_init hnd
    (fun k _ => by simp)
  exact removeExpired_linked used _ d hl k

/-- C8 on the example session followed by a dispatch from rack `r1`, swept with
2024-02-01 and asked about `i3`. -/
theorem sweep_boundary_witness :
    (addedItemIds (sweepExample ++ [WOp.dispatch "r1"])).Nodup ∧
    mapFind (removeExpired (runW (sweepExample ++ [WOp.dispatch "r1"]) Warehouse.init).1
        "2024-02-01").1.itemMap "i3"
      = (mapFind (runW (sweepExample ++ [WOp.dispatch "r1"]) Warehouse.init).1.itemMap
          "i3").filter (fun it => !strLe it.expiry "2024-02-01") :=
  ⟨by decide, sweep_boundary.1 _ "2024-02-01" (by decide) "i3"⟩

/-! ## C11: the snapshot of a rack -/

/-- The line `showRack` prints for one id of the stack. -/
theorem showRackLoop_lines (tmp : List String) :
    ∀ m : List (String × Item),
      (showRackLoop tmp m).2 = tmp.map (fun id =>
        match mapFind m id with
        | some it => WOut.rackLine it
        | none => WOut.rackLineRemoved id) := by
  induction tmp with
  | nil => intro m; rfl
  | cons id tmp ih =>
    intro m
    cases hf : mapFind m id with
    | some it =>
      have hc : mapContains m id = true := mapContains_of_find m id it hf
      simp only [showRackLoop, hc, if_true, List.map_cons, hf]
      rw [mapIndex_of_contains m id Item.blank hc, mapIndex_fst_of_find m id Item.blank it hf, ih]
    | none =>
      have hc : mapContains m id = false := by
        unfold mapContains
        rw [hf]
        rfl
      simp only [showRackLoop, hc, Bool.false_eq_true, if_false, List.map_cons, hf]
      rw [ih]

/-- C11 fails on the code: in `sweptStore` the stack of rack `r` is `[b, a]` with
`b` swept; `showRack r` prints a line for `b`, marked as removed, although `b`
is not in `itemMap`. -/
theorem showRack_lists_stale_id :
    mapContains sweptStore.itemMap "b" = false ∧
    (showRack sweptStore "r").2
      = [WOut.rackHeader "r", WOut.rackLineRemoved "b",
          WOut.rackLine ⟨"a", "A", "2025-01-01", "r"⟩] := by
  decide

/-- C11 as the code has it: in every state, for a rack that exists with stack
`st`, `showRack` prints the header and then one line for every id of `st` from
top to bottom, live or not: the stored item for an id that is in `itemMap`, the
id marked as dispatched or removed for an id that is not. Stale ids are marked,
not filtered out. -/
theorem showRack_lists_every_id (w : Warehouse) (rackId : String) (st : List String)
    (h : mapFind w.racks rackId = some st) :
    (showRack w rackId).2 = WOut.rackHeader rackId :: st.map (fun id =>
      match mapFind w.itemMap id with
      | some it => WOut.rackLine it
      | none => WOut.rackLineRemoved id) := by
  have hc : mapContains w.racks rackId = true := mapContains_of_find _ _ _ h
  unfold showRack
  simp only [hc, Bool.not_true, Bool.false_eq_true, if_false]
  rw [mapIndex_fst_of_find w.racks rackId [] st h, showRackLoop_lines]

/-- The amended C11 at `sweptStore` and rack `r`. -/
theorem showRack_lists_every_id_witness :
    mapFind sweptStore.racks "r" = some ["b", "a"] ∧
    (showRack sweptStore "r").2 = WOut.rackHeader "r" :: ["b", "a"].map (fun id =>
      match mapFind sweptStore.itemMap id with
      | some it => WOut.rackLine it
      | none => WOut.rackLineRemoved id) :=
  ⟨by decide, showRack_lists_every_id sweptStore "r" ["b", "a"] (by decide)⟩

/-! ## Facts about the machine arithmetic -/

theorem wrap32_of_range (x : Int) (h1 : -2147483648 ≤ x) (h2 : x < 2147483648) :
    wrap32 x = x := by
  unfold wrap32
  omega

theorem wrap32_range (x : Int) : -2147483648 ≤ wrap32 x ∧ wrap32 x < 2147483648 := by
  unfold wrap32
  omega

theorem wrap32_idem (x : Int) : wrap32 (wrap32 x) = wrap32 x := by
  unfold wrap32
  omega

theorem wrap32_add_left (x y : Int) : wrap32 (wrap32 x + y) = wrap32 (x + y) := by
  unfold wrap32
  omega

theorem wrap64_of_range (x : Int) (h1 : -9223372036854775808 ≤ x)
    (h2 : x < 9223372036854775808) : wrap64 x = x := by
  unfold wrap64
  omega

/-! ## What one action does to the queues and the clock -/

/-- A take through the normal queue only removes from the normal queue, where
every entry that is still live stays. -/
theorem treatNextNormal_normalQueue (s : HospitalQueueSystem) :
    (treatNextNormal s).1.normalQueue.Sublist s.normalQueue ∧
    ∀ e ∈ s.normalQueue, mapContains (treatNextNormal s).1.record e.id = true →
      e ∈ (treatNextNormal s).1.normalQueue := by
  rcases all_stale_or_first_live s.record s.normalQueue with h | ⟨pre, p, post, hq, hpre, hp⟩
  · have hs := treatNextNormalFrom_stale s.normalQueue s h rfl
    unfold treatNextNormal
    rw [hs.2.2.1, hs.2.1]
    refine ⟨List.nil_sublist _, ?_⟩
    intro e he hl
    rw [h e he] at hl
    exact absurd hl (by simp)
  · have hs := treatNextNormalFrom_live pre p post s hpre hp
    unfold treatNextNormal
    rw [hq, hs.2.2.1, hs.2.1]
    refine ⟨(List.sublist_cons_self p post).trans (List.sublist_append_right pre _), ?_⟩
    intro e he hl
    rw [mapContains_mapErase] at hl
    simp only [ne_eq, Bool.and_eq_true, decide_eq_true_eq] at hl
    rcases List.mem_append.mp he with he' | he'
    · rw [hpre e he'] at hl
      exact absurd hl.2 (by simp)
    · rcases List.mem_cons.mp he' with rfl | he''
      · exact absurd rfl hl.1
      · exact he''

/-- A take through the priority queue only removes from the normal queue, where
every entry that is still live stays. -/
theorem treatNextPriority_normalQueue (s : HospitalQueueSystem) :
    (treatNextPriority s).1.normalQueue.Sublist s.normalQueue ∧
    ∀ e ∈ s.normalQueue, mapContains (treatNextPriority s).1.record e.id = true →
      e ∈ (treatNextPriority s).1.normalQueue := by
  rcases all_stale_or_first_live s.record s.priorityQueue with h | ⟨pre, p, post, hq, hpre, hp⟩
  · have hs := treatNextPriority_stale s h
    rw [hs.2]
    exact ⟨List.Sublist.refl _, fun e he _ => he⟩
  · have hs := treatNextPriority_live s pre p post hq hpre hp
    rw [hs.2.2.2.1, hs.2.1]
    exact ⟨dropTreated_sublist _ _, fun e he hl => mem_dropTreated _ _ e he hl⟩

/-- The clock and the tallies after a take through the normal queue: nothing
moves when nobody is treated; when `p` is treated the counter is incremented and
the wait of `p` is added to the total. -/
theorem treatNextNormal_clock (s : HospitalQueueSystem) :
    ((treatNextNormal s).2 = [Out.normalEmpty] ∧
      (treatNextNormal s).1.arrivalCounter = s.arrivalCounter ∧
      (treatNextNormal s).1.totalWaitNormal = s.totalWaitNormal ∧
      (treatNextNormal s).1.treatedNormalCount = s.treatedNormalCount ∧
      (treatNextNormal s).1.totalWaitPriority = s.totalWaitPriority ∧
      (treatNextNormal s).1.treatedPriorityCount = s.treatedPriorityCount) ∨
    ∃ p, p ∈ s.normalQueue ∧ (treatNextNormal s).2 = [Out.treatedFIFO p] ∧
      (treatNextNormal s).1.arrivalCounter = wrap32 (s.arrivalCounter + 1) ∧
      (treatNextNormal s).1.totalWaitNormal
        = wrap64 (s.totalWaitNormal
            + wrap32 (wrap32 (s.arrivalCounter + 1) - p.arrivalTime)) ∧
      (treatNextNormal s).1.treatedNormalCount = wrap32 (s.treatedNormalCount + 1) ∧
      (treatNextNormal s).1.totalWaitPriority = s.totalWaitPriority ∧
      (treatNextNormal s).1.treatedPriorityCount = s.treatedPriorityCount := by
  rcases all_stale_or_first_live s.record s.normalQueue with h | ⟨pre, p, post, hq, hpre, hp⟩
  · have hs := treatNextNormalFrom_stale s.normalQueue s h rfl
    exact Or.inl ⟨hs.1, hs.2.2.2.1, hs.2.2.2.2.1, hs.2.2.2.2.2.1, hs.2.2.2.2.2.2.1,
      hs.2.2.2.2.2.2.2⟩
  · have hs := treatNextNormalFrom_live pre p post s hpre hp
    right
    refine ⟨p, by rw [hq]; simp, ?_⟩
    unfold treatNextNormal
    rw [hq]
    exact ⟨hs.1, hs.2.2.2.1, hs.2.2.2.2.1, hs.2.2.2.2.2.1, hs.2.2.2.2.2.2.1,
      hs.2.2.2.2.2.2.2⟩

/-- The clock and the tallies after a take through the priority queue. -/
theorem treatNextPriority_clock (s : HospitalQueueSystem) :
    ((treatNextPriority s).2 = [Out.priorityEmpty] ∧
      (treatNextPriority s).1.arrivalCounter = s.arrivalCounter ∧
      (treatNextPriority s).1.totalWaitNormal = s.totalWaitNormal ∧
      (treatNextPriority s).1.treatedNormalCount = s.treatedNormalCount ∧
      (treatNextPriority s).1.totalWaitPriority = s.totalWaitPriority ∧
      (treatNextPriority s).1.treatedPriorityCount = s.treatedPriorityCount) ∨
    ∃ p, p ∈ s.priorityQueue ∧ (treatNextPriority s).2 = [Out.treatedPriority p] ∧
      (treatNextPriority s).1.arrivalCounter = wrap32 (s.arrivalCounter + 1) ∧
      (treatNextPriority s).1.totalWaitPriority
        = wrap64 (s.totalWaitPriority
            + wrap32 (wrap32 (s.arrivalCounter + 1) - p.arrivalTime)) ∧
      (treatNextPriority s).1.treatedPriorityCount = wrap32 (s.treatedPriorityCount + 1) ∧
      (treatNextPriority s).1.totalWaitNormal = s.totalWaitNormal ∧
      (treatNextPriority s).1.treatedNormalCount = s.treatedNormalCount := by
  rcases all_stale_or_first_live s.record s.priorityQueue with h | ⟨pre, p, post, hq, hpre, hp⟩
  · have hs := treatNextPriority_stale s h
    refine Or.inl ⟨hs.1, ?_⟩
    rw [hs.2]
    exact ⟨rfl, rfl, rfl, rfl, rfl⟩
  · have hs := treatNextPriority_live s pre p post hq hpre hp
    exact Or.inr ⟨p, by rw [hq]; simp, hs.1, hs.2.2.2.2.1, hs.2.2.2.2.2.1,
      hs.2.2.2.2.2.2.1, hs.2.2.2.2.2.2.2.1, hs.2.2.2.2.2.2.2.2⟩

/-- Every action but `addPatient` only removes entries from the queues and
records from `record`, keeps the entries that are still live, and leaves the
counter alone or increments it. -/
theorem apply_shape (op : HOp) (s : HospitalQueueSystem) :
    (∃ id name severity, op = HOp.add id name severity) ∨
    ((op.apply s).1.normalQueue.Sublist s.normalQueue ∧
      (op.apply s).1.priorityQueue.Sublist s.priorityQueue ∧
      (∀ e ∈ s.normalQueue, mapContains (op.apply s).1.record e.id = true →
        e ∈ (op.apply s).1.normalQueue) ∧
      (∀ e ∈ s.priorityQueue, mapContains (op.apply s).1.record e.id = true →
        e ∈ (op.apply s).1.priorityQueue) ∧
      (∀ k q, mapFind (op.apply s).1.record k = some q → mapFind s.record k = some q) ∧
      ((op.apply s).1.arrivalCounter = s.arrivalCounter ∨
        (op.apply s).1.arrivalCounter = wrap32 (s.arrivalCounter + 1))) := by
  cases op with
  | add id name severity => exact Or.inl ⟨id, name, severity, rfl⟩
  | treatNormal =>
    right
    have h1 := treatNextNormal_normalQueue s
    have h2 := treatNextNormal_shrinks s
    refine ⟨h1.1, h2.2.1, h1.2, h2.2.2, h2.1, ?_⟩
    simp only [HOp.apply]
    rcases treatNextNormal_clock s with ⟨_, hc, _⟩ | ⟨p, _, _, hc, _⟩
    · exact Or.inl hc
    · exact Or.inr hc
  | treatPriority =>
    right
    have h1 := treatNextPriority_normalQueue s
    have h2 := treatNextPriority_shrinks s
    refine ⟨h1.1, h2.2.1, h1.2, h2.2.2, h2.1, ?_⟩
    simp only [HOp.apply]
    rcases treatNextPriority_clock s with ⟨_, hc, _⟩ | ⟨p, _, _, hc, _⟩
    · exact Or.inl hc
    · exact Or.inr hc
  | display =>
    right
    exact ⟨List.Sublist.refl _, List.Sublist.refl _, fun e he _ => he, fun e he _ => he,
      fun k q h => h, Or.inl rfl⟩
  | find id =>
    right
    simp only [HOp.apply]
    rw [findPatient_state]
    exact ⟨List.Sublist.refl _, List.Sublist.refl _, fun e he _ => he, fun e he _ => he,
      fun k q h => h, Or.inl rfl⟩
  | stats =>
    right
    exact ⟨List.Sublist.refl _, List.Sublist.refl _, fun e he _ => he, fun e he _ => he,
      fun k q h => h, Or.inl rfl⟩

/-- The counter of a state the program reaches is an `int`. -/
theorem counter_is_int (s : HospitalQueueSystem) (h : HReachable s) :
    wrap32 s.arrivalCounter = s.arrivalCounter := by
  obtain ⟨ops, rfl⟩ := h
  have hgen : ∀ (ops : List HOp) (s : HospitalQueueSystem),
      wrap32 s.arrivalCounter = s.arrivalCounter →
      wrap32 (runH ops s).1.arrivalCounter = (runH ops s).1.arrivalCounter := by
    intro ops
    induction ops with
    | nil => intro s h; exact h
    | cons op ops ih =>
      intro s h
      simp only [runH]
      apply ih
      rcases apply_shape op s with ⟨id, name, severity, rfl⟩ | ⟨_, _, _, _, _, hc | hc⟩
      · exact wrap32_idem _
      · rw [hc]
        exact h
      · rw [hc]
        exact wrap32_idem _
  exact hgen ops _ rfl

/-! ## Runs without overflow -/

theorem showLoop_waits (clock : Int) (r : List (String × Patient)) (l : List Patient) :
    fifoWaits clock (showLoop r l) = [] ∧ priorityWaits clock (showLoop r l) = [] := by
  induction l with
  | nil => exact ⟨rfl, rfl⟩
  | cons a l ih =>
    by_cases h : mapContains r a.id = true
    · simp only [showLoop, h, if_true]
      exact ⟨by simpa [fifoWaits] using ih.1, by simpa [priorityWaits] using ih.2⟩
    · simp only [showLoop, h, Bool.false_eq_true, if_false]
      exact ih

theorem stamped_init : Stamped HospitalQueueSystem.init := by
  refine ⟨?_, ?_, ?_, ?_, ?_, ?_, ?_, ?_⟩ <;> simp [HospitalQueueSystem.init]

/-- A state with fewer entries, a counter at least as large and tallies within
the bound of that counter is stamped when the state it comes from is. -/
theorem stamped_of_sublists (s t : HospitalQueueSystem) (h : Stamped s)
    (hn : t.normalQueue.Sublist s.normalQueue) (hp : t.priorityQueue.Sublist s.priorityQueue)
    (hc : s.arrivalCounter ≤ t.arrivalCounter)
    (h1 : 0 ≤ t.totalWaitNormal ∧ t.totalWaitNormal ≤ t.arrivalCounter * 2147483647)
    (h2 : 0 ≤ t.treatedNormalCount ∧ t.treatedNormalCount ≤ t.arrivalCounter)
    (h3 : 0 ≤ t.totalWaitPriority ∧ t.totalWaitPriority ≤ t.arrivalCounter * 2147483647)
    (h4 : 0 ≤ t.treatedPriorityCount ∧ t.treatedPriorityCount ≤ t.arrivalCounter) :
    Stamped t := by
  obtain ⟨h0, hsn, hsp, hnd, _⟩ := h
  refine ⟨by omega, ?_, ?_, hnd.sublist (hp.map _), h1, h2, h3, h4⟩
  · intro e he
    have := hsn e (hn.subset he)
    exact ⟨this.1, this.2.1, by omega⟩
  · intro e he
    have := hsp e (hp.subset he)
    exact ⟨this.1, this.2.1, by omega⟩

/-- One action on a stamped state whose counter is below the largest `int`: the
state stays stamped, the counter moves up by at most one, and the wait totals
and treated counts grow by the waits and the number of the patients treated. -/
theorem step_within (op : HOp) (s : HospitalQueueSystem) (h : Stamped s)
    (hc : s.arrivalCounter < 2147483647) :
    Stamped (op.apply s).1 ∧
    s.arrivalCounter ≤ (op.apply s).1.arrivalCounter ∧
    (op.apply s).1.arrivalCounter ≤ s.arrivalCounter + 1 ∧
    (op.apply s).1.totalWaitNormal
      = s.totalWaitNormal + (fifoWaits (op.apply s).1.arrivalCounter (op.apply s).2).sum ∧
    (op.apply s).1.treatedNormalCount
      = s.treatedNormalCount + (fifoWaits (op.apply s).1.arrivalCounter (op.apply s).2).length ∧
    (op.apply s).1.totalWaitPriority
      = s.totalWaitPriority
        + (priorityWaits (op.apply s).1.arrivalCounter (op.apply s).2).sum ∧
    (op.apply s).1.treatedPriorityCount
      = s.treatedPriorityCount
        + (priorityWaits (op.apply s).1.arrivalCounter (op.apply s).2).length := by
  have h0 := h.1
  have hw : wrap32 (s.arrivalCounter + 1) = s.arrivalCounter + 1 :=
    wrap32_of_range _ (by omega) (by omega)
  obtain ⟨_, hsn, hsp, hnd, ht1, ht2, ht3, ht4⟩ := h
  have hstamped : Stamped s := ⟨h0, hsn, hsp, hnd, ht1, ht2, ht3, ht4⟩
  cases op with
  | add id name severity =>
    have hperm := pqPush_perm
      ⟨id, name, severity, wrap32 (s.arrivalCounter + 1), wrap32 (s.arrivalCounter + 1)⟩
      s.priorityQueue
    refine ⟨⟨?_, ?_, ?_, ?_, ?_, ?_, ?_, ?_⟩, ?_, ?_, ?_, ?_, ?_, ?_⟩
    · show 0 ≤ wrap32 (s.arrivalCounter + 1)
      omega
    · intro e he
      have he' : e ∈ s.normalQueue ++ [⟨id, name, severity, wrap32 (s.arrivalCounter + 1),
          wrap32 (s.arrivalCounter + 1)⟩] := he
      show e.arrivalTime = e.arrivalOrder ∧ 1 ≤ e.arrivalOrder ∧
        e.arrivalOrder ≤ wrap32 (s.arrivalCounter + 1)
      rcases List.mem_append.mp he' with h' | h'
      · have := hsn e h'
        exact ⟨this.1, this.2.1, by omega⟩
      · simp only [List.mem_singleton] at h'
        subst h'
        exact ⟨rfl, by show 1 ≤ wrap32 (s.arrivalCounter + 1); omega, le_refl _⟩
    · intro e he
      have he' : e ∈ pqPush ⟨id, name, severity, wrap32 (s.arrivalCounter + 1),
          wrap32 (s.arrivalCounter + 1)⟩ s.priorityQueue := he
      show e.arrivalTime = e.arrivalOrder ∧ 1 ≤ e.arrivalOrder ∧
        e.arrivalOrder ≤ wrap32 (s.arrivalCounter + 1)
      rcases List.mem_cons.mp (hperm.mem_iff.mp he') with h' | h'
      · subst h'
        exact ⟨rfl, by show 1 ≤ wrap32 (s.arrivalCounter + 1); omega, le_refl _⟩
      · have := hsp e h'
        exact ⟨this.1, this.2.1, by omega⟩
    · show ((pqPush _ s.priorityQueue).map (fun e => e.arrivalOrder)).Nodup
      rw [(hperm.map (fun e => e.arrivalOrder)).nodup_iff]
      simp only [List.map_cons, List.nodup_cons]
      refine ⟨?_, hnd⟩
      intro hc'
      obtain ⟨e, he, heq⟩ := List.mem_map.mp hc'
      have := (hsp e he).2.2
      omega
    · show 0 ≤ s.totalWaitNormal ∧ s.totalWaitNormal ≤ wrap32 (s.arrivalCounter + 1) * 2147483647
      omega
    · show 0 ≤ s.treatedNormalCount ∧ s.treatedNormalCount ≤ wrap32 (s.arrivalCounter + 1)
      omega
    · show 0 ≤ s.totalWaitPriority ∧
        s.totalWaitPriority ≤ wrap32 (s.arrivalCounter + 1) * 2147483647
      omega
    · show 0 ≤ s.treatedPriorityCount ∧ s.treatedPriorityCount ≤ wrap32 (s.arrivalCounter + 1)
      omega
    · show s.arrivalCounter ≤ wrap32 (s.arrivalCounter + 1)
      omega
    · show wrap32 (s.arrivalCounter + 1) ≤ s.arrivalCounter + 1
      omega
    · simp [HOp.apply, addPatient, fifoWaits]
    · simp [HOp.apply, addPatient, fifoWaits]
    · simp [HOp.apply, addPatient, priorityWaits]
    · simp [HOp.apply, addPatient, priorityWaits]
  | treatNormal =>
    have hsub1 := (treatNextNormal_normalQueue s).1
    have hsub2 := (treatNextNormal_shrinks s).2.1
    simp only [HOp.apply]
    rcases treatNextNormal_clock s with
      ⟨ho, e1, e2, e3, e4, e5⟩ | ⟨p, hp, ho, e1, e2, e3, e4, e5⟩
    · refine ⟨stamped_of_sublists s _ hstamped hsub1 hsub2 (by omega) (by omega) (by omega)
        (by omega) (by omega), by omega, by omega, ?_, ?_, ?_, ?_⟩ <;>
        simp [ho, e2, e3, e4, e5, fifoWaits, priorityWaits]
    · obtain ⟨hp1, hp2, hp3⟩ := hsn p hp
      have hwait : wrap32 (wrap32 (s.arrivalCounter + 1) - p.arrivalTime)
          = s.arrivalCounter + 1 - p.arrivalOrder := by
        rw [hw, hp1]
        exact wrap32_of_range _ (by omega) (by omega)
      have hcnt : wrap32 (s.treatedNormalCount + 1) = s.treatedNormalCount + 1 :=
        wrap32_of_range _ (by omega) (by omega)
      have htot : wrap64 (s.totalWaitNormal + (s.arrivalCounter + 1 - p.arrivalOrder))
          = s.totalWaitNormal + (s.arrivalCounter + 1 - p.arrivalOrder) :=
        wrap64_of_range _ (by omega) (by omega)
      rw [hwait, htot] at e2
      rw [hcnt] at e3
      rw [hw] at e1
      refine ⟨stamped_of_sublists s _ hstamped hsub1 hsub2 (by omega) (by omega) (by omega)
        (by omega) (by omega), by omega, by omega, ?_, ?_, ?_, ?_⟩
      · rw [ho, e1, e2]
        simp [fifoWaits]
      · rw [ho, e3]
        simp [fifoWaits]
      · rw [ho, e4]
        simp [priorityWaits]
      · rw [ho, e5]
        simp [priorityWaits]
  | treatPriority =>
    have hsub1 := (treatNextPriority_normalQueue s).1
    have hsub2 := (treatNextPriority_shrinks s).2.1
    simp only [HOp.apply]
    rcases treatNextPriority_clock s with
      ⟨ho, e1, e2, e3, e4, e5⟩ | ⟨p, hp, ho, e1, e2, e3, e4, e5⟩
    · refine ⟨stamped_of_sublists s _ hstamped hsub1 hsub2 (by omega) (by omega) (by omega)
        (by omega) (by omega), by omega, by omega, ?_, ?_, ?_, ?_⟩ <;>
        simp [ho, e2, e3, e4, e5, fifoWaits, priorityWaits]
    · obtain ⟨hp1, hp2, hp3⟩ := hsp p hp
      have hwait : wrap32 (wrap32 (s.arrivalCounter + 1) - p.arrivalTime)
          = s.arrivalCounter + 1 - p.arrivalOrder := by
        rw [hw, hp1]
        exact wrap32_of_range _ (by omega) (by omega)
      have hcnt : wrap32 (s.treatedPriorityCount + 1) = s.treatedPriorityCount + 1 :=
        wrap32_of_range _ (by omega) (by omega)
      have htot : wrap64 (s.totalWaitPriority + (s.arrivalCounter + 1 - p.arrivalOrder))
          = s.totalWaitPriority + (s.arrivalCounter + 1 - p.arrivalOrder) :=
        wrap64_of_range _ (by omega) (by omega)
      rw [hwait, htot] at e2
      rw [hcnt] at e3
      rw [hw] at e1
      refine ⟨stamped_of_sublists s _ hstamped hsub1 hsub2 (by omega) (by omega) (by omega)
        (by omega) (by omega), by omega, by omega, ?_, ?_, ?_, ?_⟩
      · rw [ho, e4]
        simp [fifoWaits]
      · rw [ho, e5]
        simp [fifoWaits]
      · rw [ho, e1, e2]
        simp [priorityWaits]
      · rw [ho, e3]
        simp [priorityWaits]
  | display =>
    have h1 := showLoop_waits s.arrivalCounter s.record s.normalQueue
    have h2 := showLoop_waits s.arrivalCounter s.record s.priorityQueue
    unfold fifoWaits at h1 h2
    unfold priorityWaits at h1 h2
    refine ⟨hstamped, le_refl _, by show s.arrivalCounter ≤ s.arrivalCounter + 1; omega,
      ?_, ?_, ?_, ?_⟩ <;>
      simp [HOp.apply, showQueues, fifoWaits, priorityWaits, h1.1, h1.2, h2.1, h2.2]
  | find id =>
    simp only [HOp.apply]
    rw [findPatient_state]
    refine ⟨hstamped, le_refl _, by omega, ?_, ?_, ?_, ?_⟩ <;>
      (unfold findPatient
       by_cases hf : mapContains s.record id = true <;> simp [hf, fifoWaits, priorityWaits])
  | stats =>
    refine ⟨hstamped, le_refl _, by show s.arrivalCounter ≤ s.arrivalCounter + 1; omega,
      ?_, ?_, ?_, ?_⟩ <;>
      (simp only [HOp.apply, simulateCompareAverageWait]
       by_cases h1 : s.treatedNormalCount > 0 <;> by_cases h2 : s.treatedPriorityCount > 0 <;>
         simp [h1, h2, fifoWaits, priorityWaits])

theorem runH_append (a b : List HOp) :
    ∀ s : HospitalQueueSystem,
      runH (a ++ b) s = ((runH b (runH a s).1).1, (runH a s).2 ++ (runH b (runH a s).1).2) := by
  induction a with
  | nil => intro s; simp [runH]
  | cons op a ih =>
    intro s
    have e : (op :: a) ++ b = op :: (a ++ b) := rfl
    rw [e]
    simp only [runH, ih, List.append_assoc]

/-- A run from a stamped state that is short enough for the counter to stay
below the largest `int`: the end state is stamped, the counter has moved by at
most the number of actions, and the totals and counts have grown by the waits and
the number of the patients treated. -/
theorem run_within (ops : List HOp) :
    ∀ s : HospitalQueueSystem, Stamped s → s.arrivalCounter + ops.length ≤ 2147483647 →
      Stamped (runH ops s).1 ∧
      (runH ops s).1.arrivalCounter ≤ s.arrivalCounter + ops.length ∧
      (runH ops s).1.totalWaitNormal = s.totalWaitNormal + (normalDeltas ops s).sum ∧
      (runH ops s).1.treatedNormalCount
        = s.treatedNormalCount + (normalDeltas ops s).length ∧
      (runH ops s).1.totalWaitPriority = s.totalWaitPriority + (priorityDeltas ops s).sum ∧
      (runH ops s).1.treatedPriorityCount
        = s.treatedPriorityCount + (priorityDeltas ops s).length := by
  induction ops with
  | nil => intro s h _; simp [runH, normalDeltas, priorityDeltas, h]
  | cons op ops ih =>
    intro s h hlen
    simp only [List.length_cons, Nat.cast_add, Nat.cast_one] at hlen
    obtain ⟨hst, hc1, hc2, e1, e2, e3, e4⟩ := step_within op s h (by omega)
    obtain ⟨hst', hc', f1, f2, f3, f4⟩ := ih (op.apply s).1 hst (by omega)
    simp only [runH, normalDeltas, priorityDeltas, List.sum_append, List.length_append,
      Nat.cast_add, List.length_cons, Nat.cast_one]
    refine ⟨hst', by omega, ?_, ?_, ?_, ?_⟩
    · rw [f1, e1]; ring
    · rw [f2, e2]; ring
    · rw [f3, e3]; ring
    · rw [f4, e4]; ring

theorem stamped_of_reachableIn (n : Nat) (s : HospitalQueueSystem) (h : HReachableIn n s)
    (hn : n ≤ 2147483647) : Stamped s ∧ s.arrivalCounter ≤ n := by
  obtain ⟨ops, hlen, rfl⟩ := h
  have := run_within ops HospitalQueueSystem.init stamped_init (by
    show (0 : Int) + ops.length ≤ 2147483647
    omega)
  refine ⟨this.1, ?_⟩
  have h2 := this.2.1
  have h0 : HospitalQueueSystem.init.arrivalCounter = 0 := rfl
  rw [h0] at h2
  omega

/-! ## The run to the largest `int` -/

theorem cycle_one (k : Int) (h0 : 0 ≤ k) (h : 2 * k + 2 ≤ 2147483647) :
    (runH [HOp.add "a" "A" 1, HOp.treatNormal] (flatWard k)).1 = flatWard (k + 1) := by
  have w1 : wrap32 (2 * k + 1) = 2 * k + 1 := wrap32_of_range _ (by omega) (by omega)
  have w2 : wrap32 (2 * k + 1 + 1) = 2 * (k + 1) := by
    rw [wrap32_of_range _ (by omega) (by omega)]
    ring
  have w3 : wrap32 (2 * (k + 1) - (2 * k + 1)) = 1 := by
    rw [wrap32_of_range _ (by omega) (by omega)]
    ring
  have w4 : wrap64 (k + 1) = k + 1 := wrap64_of_range _ (by omega) (by omega)
  have w5 : wrap32 (k + 1) = k + 1 := wrap32_of_range _ (by omega) (by omega)
  simp [runH, HOp.apply, addPatient, treatNextNormal, treatNextNormalFrom, flatWard, mapSet,
    mapContains, mapFind, mapErase, cleanPriorityTop, dropTreated, pqPush, w1, w2, w3, w4, w5]

theorem cycle_run (m : Nat) :
    ∀ k : Int, 0 ≤ k → 2 * (k + m) ≤ 2147483646 →
      (runH (cycleOps m) (flatWard k)).1 = flatWard (k + m) := by
  induction m with
  | zero => intro k _ _; simp [cycleOps, runH]
  | succ m ih =>
    intro k h0 h
    have hstep := cycle_one k h0 (by push_cast at h; omega)
    have hsplit : cycleOps (m + 1)
        = [HOp.add "a" "A" 1, HOp.treatNormal] ++ cycleOps m := rfl
    rw [hsplit, runH_append]
    simp only
    rw [hstep, ih (k + 1) (by omega) (by push_cast at h; omega)]
    congr 1
    push_cast
    ring

theorem cycleOps_length (m : Nat) : (cycleOps m).length = 2 * m := by
  induction m with
  | zero => rfl
  | succ m ih => simp [cycleOps, ih]; ring

theorem overflowRun_ends : (runH overflowRun HospitalQueueSystem.init).1 = overflowWard := by
  have h0 : HospitalQueueSystem.init = flatWard 0 := rfl
  have hc := cycle_run 1073741823 0 (le_refl _) (by norm_num)
  unfold overflowRun
  rw [runH_append, h0]
  simp only
  rw [hc]
  decide

theorem overflowRun_length : overflowRun.length = 2147483647 := by
  unfold overflowRun
  rw [List.length_append, cycleOps_length]
  rfl

/-! ## The age of the stamps -/

theorem aged_init : Aged 0 HospitalQueueSystem.init := by
  refine ⟨by decide, ?_, ?_, ?_⟩ <;> simp [HospitalQueueSystem.init]

theorem agedEntry_new (n c : Int) (id name : String) (severity : Int) (h0 : 0 ≤ n) :
    AgedEntry (n + 1) (wrap32 (c + 1)) ⟨id, name, severity, wrap32 (c + 1), wrap32 (c + 1)⟩ := by
  refine ⟨rfl, 0, le_refl _, by omega, ?_⟩
  show wrap32 (wrap32 (c + 1) + 0) = wrap32 (c + 1)
  rw [add_zero, wrap32_idem]

theorem agedEntry_stay (n c : Int) (e : Patient) (h : AgedEntry n c e) :
    AgedEntry (n + 1) c e := by
  obtain ⟨ht, a, ha0, han, hage⟩ := h
  exact ⟨ht, a, ha0, by omega, hage⟩

theorem agedEntry_tick (n c : Int) (e : Patient) (h : AgedEntry n c e) :
    AgedEntry (n + 1) (wrap32 (c + 1)) e := by
  obtain ⟨ht, a, ha0, han, hage⟩ := h
  refine ⟨ht, a + 1, by omega, by omega, ?_⟩
  rw [← hage, ← add_assoc, wrap32_add_left]

/-- One action ages every queue entry by at most one, and the stamp of a new
entry differs from the stamps of entries less than 4294967295 old. -/
theorem aged_step (op : HOp) (s : HospitalQueueSystem) (n : Int) (h : Aged n s)
    (h0 : 0 ≤ n) (hn : n < 4294967296) : Aged (n + 1) (op.apply s).1 := by
  obtain ⟨hc, hq, hp, hnd⟩ := h
  rcases apply_shape op s with ⟨id, name, severity, rfl⟩ | ⟨h1, h2, _, _, _, hcount⟩
  · have hperm := pqPush_perm
      ⟨id, name, severity, wrap32 (s.arrivalCounter + 1), wrap32 (s.arrivalCounter + 1)⟩
      s.priorityQueue
    refine ⟨?_, ?_, ?_, ?_⟩
    · show wrap32 (wrap32 (s.arrivalCounter + 1)) = wrap32 (s.arrivalCounter + 1)
      exact wrap32_idem _
    · intro e he
      have he' : e ∈ s.normalQueue ++
          [⟨id, name, severity, wrap32 (s.arrivalCounter + 1),
            wrap32 (s.arrivalCounter + 1)⟩] := he
      show AgedEntry (n + 1) (wrap32 (s.arrivalCounter + 1)) e
      rcases List.mem_append.mp he' with h' | h'
      · exact agedEntry_tick n _ e (hq e h')
      · simp only [List.mem_singleton] at h'
        subst h'
        exact agedEntry_new n _ id name severity h0
    · intro e he
      have he' : e ∈ pqPush
          ⟨id, name, severity, wrap32 (s.arrivalCounter + 1), wrap32 (s.arrivalCounter + 1)⟩
          s.priorityQueue := he
      show AgedEntry (n + 1) (wrap32 (s.arrivalCounter + 1)) e
      rcases List.mem_cons.mp (hperm.mem_iff.mp he') with h' | h'
      · subst h'
        exact agedEntry_new n _ id name severity h0
      · exact agedEntry_tick n _ e (hp e h')
    · show ((pqPush _ s.priorityQueue).map (fun e => e.arrivalOrder)).Nodup
      rw [(hperm.map (fun e => e.arrivalOrder)).nodup_iff]
      simp only [List.map_cons, List.nodup_cons]
      refine ⟨?_, hnd⟩
      intro hmem
      obtain ⟨e, he, heq⟩ := List.mem_map.mp hmem
      obtain ⟨_, a, ha0, han, hage⟩ := hp e he
      rw [heq, wrap32_add_left] at hage
      unfold wrap32 at hage hc
      omega
  · refine ⟨?_, ?_, ?_, hnd.sublist (h2.map _)⟩
    · rcases hcount with h' | h'
      · rw [h']; exact hc
      · rw [h']; exact wrap32_idem _
    · intro e he
      rcases hcount with h' | h'
      · rw [h']; exact agedEntry_stay n _ e (hq e (h1.subset he))
      · rw [h']; exact agedEntry_tick n _ e (hq e (h1.subset he))
    · intro e he
      rcases hcount with h' | h'
      · rw [h']; exact agedEntry_stay n _ e (hp e (h2.subset he))
      · rw [h']; exact agedEntry_tick n _ e (hp e (h2.subset he))

theorem aged_run (ops : List HOp) :
    ∀ (n : Int) (s : HospitalQueueSystem), Aged n s → 0 ≤ n →
      n + ops.length ≤ 4294967296 →
      Aged (n + ops.length) (runH ops s).1 := by
  induction ops with
  | nil => intro n s h _ _; simpa [runH] using h
  | cons op ops ih =>
    intro n s h h0 hlen
    simp only [List.length_cons, Nat.cast_add, Nat.cast_one] at hlen ⊢
    have := ih (n + 1) (op.apply s).1 (aged_step op s n h h0 (by omega)) (by omega) (by omega)
    simp only [runH]
    have e : n + (↑ops.length + 1) = n + 1 + ↑ops.length := by ring
    rw [e]
    exact this

theorem aged_mono (m n : Int) (s : HospitalQueueSystem) (h : Aged m s) (hmn : m ≤ n) :
    Aged n s := by
  obtain ⟨hc, hq, hp, hnd⟩ := h
  refine ⟨hc, ?_, ?_, hnd⟩
  · intro e he
    obtain ⟨ht, a, ha0, han, hage⟩ := hq e he
    exact ⟨ht, a, ha0, by omega, hage⟩
  · intro e he
    obtain ⟨ht, a, ha0, han, hage⟩ := hp e he
    exact ⟨ht, a, ha0, by omega, hage⟩

theorem aged_of_reachableIn (n : Nat) (s : HospitalQueueSystem) (h : HReachableIn n s)
    (hn : n ≤ 4294967296) : Aged n s := by
  obtain ⟨ops, hlen, rfl⟩ := h
  have hl : (ops.length : Int) ≤ n := by exact_mod_cast hlen
  have hn' : (n : Int) ≤ 4294967296 := by exact_mod_cast hn
  have := aged_run ops 0 HospitalQueueSystem.init aged_init (le_refl _) (by omega)
  exact aged_mono _ _ _ this (by omega)

theorem distinct_stamps_of_reachableIn (s : HospitalQueueSystem)
    (h : HReachableIn 4294967296 s) :
    (s.priorityQueue.map (fun e => e.arrivalOrder)).Nodup :=
  (aged_of_reachableIn 4294967296 s h (le_refl _)).2.2.2

/-! ## The run once round the `int` range -/

theorem churn_one (c : Int) (s : HospitalQueueSystem) (h : Buried c s) :
    Buried (wrap32 (c + 2)) (runH [HOp.add "b" "B" 5, HOp.treatPriority] s).1 := by
  obtain ⟨nq, pq, rec, c0, t1, t2, n1, n2⟩ := s
  obtain ⟨h1, h2, h3, h4⟩ := h
  simp only at h1 h2 h3 h4
  subst h1 h2 h3 h4
  have e : wrap32 (wrap32 (c0 + 1) + 1) = wrap32 (c0 + 2) := by
    rw [wrap32_add_left]
    congr 1
    ring
  simp [Buried, runH, HOp.apply, addPatient, treatNextPriority, skipTreated, mapSet,
    mapContains, mapFind, mapErase, cleanNormalFront, dropTreated, pqPush, PriorityCompare, e]

theorem churn_iter (P : Int → HospitalQueueSystem → Prop)
    (hstep : ∀ c s, P c s →
      P (wrap32 (c + 2)) (runH [HOp.add "b" "B" 5, HOp.treatPriority] s).1) (m : Nat) :
    ∀ (c : Int) (s : HospitalQueueSystem), wrap32 c = c → P c s →
      P (wrap32 (c + 2 * m)) (runH (churnOps m) s).1 := by
  induction m with
  | zero =>
    intro c s hc h
    simpa [churnOps, runH, hc] using h
  | succ m ih =>
    intro c s hc h
    have hsplit : churnOps (m + 1)
        = [HOp.add "b" "B" 5, HOp.treatPriority] ++ churnOps m := rfl
    rw [hsplit, runH_append]
    simp only
    have := ih _ _ (wrap32_idem _) (hstep c s h)
    rw [wrap32_add_left] at this
    have e : c + 2 + 2 * (m : Int) = c + 2 * ((m + 1 : Nat) : Int) := by push_cast; ring
    rw [e] at this
    exact this

theorem churn_run (m : Nat) (c : Int) (s : HospitalQueueSystem) (hc : wrap32 c = c)
    (h : Buried c s) : Buried (wrap32 (c + 2 * m)) (runH (churnOps m) s).1 :=
  churn_iter Buried churn_one m c s hc h

theorem held_one (c : Int) (s : HospitalQueueSystem) (h : Held c s) :
    Held (wrap32 (c + 2)) (runH [HOp.add "b" "B" 5, HOp.treatPriority] s).1 := by
  obtain ⟨nq, pq, rec, c0, t1, t2, n1, n2⟩ := s
  obtain ⟨⟨rest, h1⟩, h2, h3, h4, h5⟩ := h
  simp only at h1 h2 h3 h4 h5
  subst h1 h2 h3 h4 h5
  have e : wrap32 (wrap32 (c0 + 1) + 1) = wrap32 (c0 + 2) := by
    rw [wrap32_add_left]
    congr 1
    ring
  simp [Held, runH, HOp.apply, addPatient, treatNextPriority, skipTreated, mapSet,
    mapContains, mapFind, mapErase, cleanNormalFront, dropTreated, pqPush, PriorityCompare, e]

theorem held_run (m : Nat) :
    Held (wrap32 (1 + 2 * m))
      (runH (HOp.add "a" "A" 1 :: churnOps m) HospitalQueueSystem.init).1 := by
  have h1 : Held 1 (addPatient HospitalQueueSystem.init "a" "A" 1).1 := by
    refine ⟨⟨[], ?_⟩, ?_, ?_, ?_, ?_⟩ <;> decide
  exact churn_iter Held held_one m 1 _ (by decide) h1

theorem churnOps_length (m : Nat) : (churnOps m).length = 2 * m := by
  induction m with
  | zero => rfl
  | succ m ih => simp [churnOps, ih]; ring

theorem wrapRun_length : wrapRun.length = 4294967297 := by
  unfold wrapRun
  rw [List.length_append, List.length_append, churnOps_length]
  rfl

theorem wrapRun_priorityQueue :
    (runH wrapRun HospitalQueueSystem.init).1.priorityQueue
      = [⟨"a", "A", 1, 1, 1⟩, ⟨"c", "C", 1, 1, 1⟩] := by
  have hb : Buried 4 (runH buryOps HospitalQueueSystem.init).1 := by
    refine ⟨?_, ?_, ?_, ?_⟩ <;> decide
  have hz : wrap32 (4 + 2 * ((2147483646 : Nat) : Int)) = 0 := by decide
  have hc := churn_run 2147483646 4 _ (by decide) hb
  rw [hz] at hc
  unfold wrapRun
  rw [runH_append, runH_append]
  generalize (runH (churnOps 2147483646) (runH buryOps HospitalQueueSystem.init).1).1 = t at hc
  obtain ⟨h1, h2, h3, h4⟩ := hc
  simp only [runH, HOp.apply, addPatient, h2, h4]
  decide

theorem lateOps_length : lateOps.length = 2147483648 := by
  unfold lateOps
  rw [List.length_append, List.length_cons, churnOps_length]
  rfl

/-- After `lateOps` the take by arrival treats `a`, stamped 1, at the clock value
-2147483647, and adds -2147483648 to the total as the wait. -/
theorem lateOps_take :
    (treatNextNormal (runH lateOps HospitalQueueSystem.init).1).2
      = [Out.treatedFIFO ⟨"a", "A", 1, 1, 1⟩] ∧
    (treatNextNormal (runH lateOps HospitalQueueSystem.init).1).1.arrivalCounter
      = -2147483647 ∧
    (runH lateOps HospitalQueueSystem.init).1.totalWaitNormal = 0 ∧
    (treatNextNormal (runH lateOps HospitalQueueSystem.init).1).1.totalWaitNormal
      = -2147483648 := by
  have hz : wrap32 (1 + 2 * ((1073741823 : Nat) : Int)) = 2147483647 := by decide
  have hh := held_run 1073741823
  rw [hz] at hh
  unfold lateOps
  rw [runH_append]
  generalize (runH (HOp.add "a" "A" 1 :: churnOps 1073741823) HospitalQueueSystem.init).1
    = t at hh
  obtain ⟨nq, pq, rec, c0, t1, t2, n1, n2⟩ := t
  obtain ⟨⟨rest, h1⟩, h2, h3, h4, h5⟩ := hh
  simp only at h1 h2 h3 h4 h5
  subst h1 h2 h3 h4 h5
  have e1 : wrap32 2147483648 = -2147483648 := by decide
  have e2 : wrap32 (-2147483647) = -2147483647 := by decide
  have e3 : wrap32 (-2147483648) = -2147483648 := by decide
  have e4 : wrap64 (-2147483648) = -2147483648 := by decide
  simp [runH, HOp.apply, addPatient, treatNextNormal, treatNextNormalFrom, mapSet,
    mapContains, mapFind, mapErase, cleanPriorityTop, dropTreated, pqPush, PriorityCompare,
    e1, e2, e3, e4]

/-! ## C17: the logical clock -/

/-- An action that reports a patient as treated increments the counter. -/
theorem treated_increments (op : HOp) (s : HospitalQueueSystem)
    (ht : treatedIds (op.apply s).2 ≠ []) :
    (op.apply s).1.arrivalCounter = wrap32 (s.arrivalCounter + 1) := by
  cases op with
  | add id name severity => rfl
  | treatNormal =>
    simp only [HOp.apply] at ht ⊢
    rcases treatNextNormal_clock s with ⟨ho, _⟩ | ⟨p, _, _, hc, _⟩
    · rw [ho] at ht
      exact absurd rfl ht
    · exact hc
  | treatPriority =>
    simp only [HOp.apply] at ht ⊢
    rcases treatNextPriority_clock s with ⟨ho, _⟩ | ⟨p, _, _, hc, _⟩
    · rw [ho] at ht
      exact absurd rfl ht
    · exact hc
  | display =>
    rcases apply_record HOp.display s with ⟨h0, _⟩ | ⟨k, hk, _⟩
    · exact absurd h0 ht
    · rcases hk with hk | hk <;> cases hk
  | find id =>
    rcases apply_record (HOp.find id) s with ⟨h0, _⟩ | ⟨k, hk, _⟩
    · exact absurd h0 ht
    · rcases hk with hk | hk <;> cases hk
  | stats =>
    rcases apply_record HOp.stats s with ⟨h0, _⟩ | ⟨k, hk, _⟩
    · exact absurd h0 ht
    · rcases hk with hk | hk <;> cases hk

theorem showLoop_shown (r : List (String × Patient)) (l : List Patient) (x : Out)
    (hx : x ∈ showLoop r l) : ∃ e, x = Out.shown e := by
  induction l with
  | nil => simp [showLoop] at hx
  | cons a l ih =>
    by_cases ha : mapContains r a.id = true
    · simp only [showLoop, ha, if_true, List.mem_cons] at hx
      rcases hx with rfl | hx
      · exact ⟨a, rfl⟩
      · exact ih hx
    · simp only [showLoop, ha, Bool.false_eq_true, if_false] at hx
      exact ih hx

/-- The entry an action reports as treated was in one of the two queues, and the
action has incremented the counter. -/
theorem treated_entry_queued (op : HOp) (s : HospitalQueueSystem) (p : Patient)
    (hp : Out.treatedFIFO p ∈ (op.apply s).2 ∨ Out.treatedPriority p ∈ (op.apply s).2) :
    (p ∈ s.normalQueue ∨ p ∈ s.priorityQueue) ∧
    (op.apply s).1.arrivalCounter = wrap32 (s.arrivalCounter + 1) := by
  cases op with
  | add id name severity =>
    simp [HOp.apply, addPatient] at hp
  | treatNormal =>
    simp only [HOp.apply] at hp ⊢
    rcases treatNextNormal_clock s with ⟨ho, _⟩ | ⟨q, hq, ho, hc, _⟩
    · rw [ho] at hp
      simp at hp
    · rw [ho] at hp
      simp only [List.mem_singleton, Out.treatedFIFO.injEq, reduceCtorEq, or_false] at hp
      subst hp
      exact ⟨Or.inl hq, hc⟩
  | treatPriority =>
    simp only [HOp.apply] at hp ⊢
    rcases treatNextPriority_clock s with ⟨ho, _⟩ | ⟨q, hq, ho, hc, _⟩
    · rw [ho] at hp
      simp at hp
    · rw [ho] at hp
      simp only [List.mem_singleton, Out.treatedPriority.injEq, reduceCtorEq, false_or] at hp
      subst hp
      exact ⟨Or.inr hq, hc⟩
  | display =>
    exfalso
    simp only [HOp.apply, showQueues] at hp
    rcases hp with hp | hp
    · simp only [List.mem_append, List.mem_singleton, reduceCtorEq, false_or, or_false] at hp
      rcases hp with hp | hp
      · obtain ⟨e, he⟩ := showLoop_shown _ _ _ hp
        cases he
      · obtain ⟨e, he⟩ := showLoop_shown _ _ _ hp
        cases he
    · simp only [List.mem_append, List.mem_singleton, reduceCtorEq, false_or, or_false] at hp
      rcases hp with hp | hp
      · obtain ⟨e, he⟩ := showLoop_shown _ _ _ hp
        cases he
      · obtain ⟨e, he⟩ := showLoop_shown _ _ _ hp
        cases he
  | find id =>
    exfalso
    simp only [HOp.apply, findPatient] at hp
    by_cases hc : mapContains s.record id = true <;> simp [hc] at hp
  | stats =>
    exfalso
    simp only [HOp.apply, simulateCompareAverageWait] at hp
    by_cases h1 : s.treatedNormalCount > 0 <;> by_cases h2 : s.treatedPriorityCount > 0 <;>
      simp [h1, h2] at hp

/-- C17, the claim as worded fails once the counter has reached the largest
`int`. `overflowRun`, 2147483647 actions from the fresh system, ends in
`overflowWard` with `arrivalCounter = 2147483647`; there `addPatient` and a
`treatNextNormal` that treats the waiting patient both take the counter to
-2147483648, which is neither one more nor no less, and the clock at that
treatment minus the `arrivalTime` of the treated entry is -4294967295, where the
`int` the code adds to the total wraps round to 1. After `lateOps`, 2147483648
actions, `treatNextNormal` treats `a`, who arrived at time 1, at the clock value
-2147483647, and the wait it adds to the total is -2147483648. -/
theorem clock_wraps_at_int_max :
    overflowRun.length = 2147483647 ∧
    (runH overflowRun HospitalQueueSystem.init).1 = overflowWard ∧
    HReachable overflowWard ∧
    overflowWard.arrivalCounter = 2147483647 ∧
    (addPatient overflowWard "b" "B" 1).1.arrivalCounter = -2147483648 ∧
    (treatNextNormal overflowWard).2
      = [Out.treatedFIFO ⟨"a", "A", 1, 2147483647, 2147483647⟩] ∧
    (treatNextNormal overflowWard).1.arrivalCounter = -2147483648 ∧
    ¬ ((treatNextNormal overflowWard).1.arrivalCounter = overflowWard.arrivalCounter + 1) ∧
    ¬ (overflowWard.arrivalCounter ≤ (treatNextNormal overflowWard).1.arrivalCounter) ∧
    (treatNextNormal overflowWard).1.arrivalCounter
      - (⟨"a", "A", 1, 2147483647, 2147483647⟩ : Patient).arrivalTime = -4294967295 ∧
    (treatNextNormal overflowWard).1.totalWaitNormal = overflowWard.totalWaitNormal + 1 ∧
    lateOps.length = 2147483648 ∧
    (treatNextNormal (runH lateOps HospitalQueueSystem.init).1).2
      = [Out.treatedFIFO ⟨"a", "A", 1, 1, 1⟩] ∧
    (treatNextNormal (runH lateOps HospitalQueueSystem.init).1).1.arrivalCounter
      - (⟨"a", "A", 1, 1, 1⟩ : Patient).arrivalTime = -2147483648 ∧
    (treatNextNormal (runH lateOps HospitalQueueSystem.init).1).1.totalWaitNormal
      = (runH lateOps HospitalQueueSystem.init).1.totalWaitNormal + -2147483648 := by
  refine ⟨overflowRun_length, overflowRun_ends, ⟨overflowRun, overflowRun_ends⟩, rfl,
    by decide, by decide, by decide, by decide, by decide, by decide, by decide,
    lateOps_length, lateOps_take.1, ?_, ?_⟩
  · rw [lateOps_take.2.1]
    decide
  · rw [lateOps_take.2.2.2, lateOps_take.2.2.1]
    decide

/-- C17: in every state the program can reach in which `arrivalCounter` is
below 2147483647, the largest `int`, `addPatient` advances the counter by exactly
one, so does a take that reports a patient as treated, and no action turns the
counter back. In every state reached by at most 2147483646 actions, the wait of
a treated patient, the counter after the take minus the `arrivalTime` of the
treated entry, is at least one and is the `int` the code computes for it; in
every state reached by at most 2147483647 actions that `int` is at least one. -/
theorem clock_advances (s : HospitalQueueSystem) (op : HOp) :
    (HReachable s → s.arrivalCounter < 2147483647 →
      (∀ id name severity, op = HOp.add id name severity →
        (op.apply s).1.arrivalCounter = s.arrivalCounter + 1) ∧
      (treatedIds (op.apply s).2 ≠ [] →
        (op.apply s).1.arrivalCounter = s.arrivalCounter + 1) ∧
      s.arrivalCounter ≤ (op.apply s).1.arrivalCounter) ∧
    (HReachableIn 2147483646 s → ∀ p,
      Out.treatedFIFO p ∈ (op.apply s).2 ∨ Out.treatedPriority p ∈ (op.apply s).2 →
      1 ≤ (op.apply s).1.arrivalCounter - p.arrivalTime ∧
      wrap32 ((op.apply s).1.arrivalCounter - p.arrivalTime)
        = (op.apply s).1.arrivalCounter - p.arrivalTime) ∧
    (HReachableIn 2147483647 s → ∀ p,
      Out.treatedFIFO p ∈ (op.apply s).2 ∨ Out.treatedPriority p ∈ (op.apply s).2 →
      1 ≤ wrap32 ((op.apply s).1.arrivalCounter - p.arrivalTime)) := by
  refine ⟨?_, ?_, ?_⟩
  · intro hs hc
    have hint := counter_is_int s hs
    have hw : wrap32 (s.arrivalCounter + 1) = s.arrivalCounter + 1 := by
      unfold wrap32 at hint ⊢
      omega
    refine ⟨?_, ?_, ?_⟩
    · rintro id name severity rfl
      exact hw
    · intro ht
      rw [treated_increments op s ht, hw]
    · rcases apply_shape op s with ⟨id, name, severity, rfl⟩ | ⟨_, _, _, _, _, h | h⟩
      · show s.arrivalCounter ≤ wrap32 (s.arrivalCounter + 1)
        omega
      · omega
      · omega
  · intro hin p hp
    obtain ⟨hst, hle⟩ := stamped_of_reachableIn 2147483646 s hin (by norm_num)
    obtain ⟨hq, hcount⟩ := treated_entry_queued op s p hp
    have hw : wrap32 (s.arrivalCounter + 1) = s.arrivalCounter + 1 := by
      have := hst.1
      push_cast at hle
      exact wrap32_of_range _ (by omega) (by omega)
    rw [hcount, hw]
    have hb : p.arrivalTime = p.arrivalOrder ∧ 1 ≤ p.arrivalOrder ∧
        p.arrivalOrder ≤ s.arrivalCounter := by
      rcases hq with hq | hq
      · exact hst.2.1 p hq
      · exact hst.2.2.1 p hq
    push_cast at hle
    refine ⟨by omega, ?_⟩
    unfold wrap32
    omega
  · intro hin p hp
    obtain ⟨hc, hn, hpq, _⟩ := aged_of_reachableIn 2147483647 s hin (by norm_num)
    obtain ⟨hq, hcount⟩ := treated_entry_queued op s p hp
    have hb : AgedEntry ((2147483647 : Nat) : Int) s.arrivalCounter p := by
      rcases hq with hq | hq
      · exact hn p hq
      · exact hpq p hq
    obtain ⟨ht, a, ha0, han, hage⟩ := hb
    rw [hcount, ht]
    push_cast at han
    unfold wrap32 at hc hage ⊢
    omega

/-- C17 at `sampleWard`, reached by five actions, where the take through the
normal queue treats `c`, which arrived at time 3, at time 6. -/
theorem clock_advances_witness :
    HReachable sampleWard ∧ sampleWard.arrivalCounter < 2147483647 ∧
    treatedIds (HOp.treatNormal.apply sampleWard).2 ≠ [] ∧
    HReachableIn 2147483646 sampleWard ∧ HReachableIn 2147483647 sampleWard ∧
    Out.treatedFIFO ⟨"c", "C", 1, 3, 3⟩ ∈ (HOp.treatNormal.apply sampleWard).2 ∧
    (HOp.treatNormal.apply sampleWard).1.arrivalCounter = sampleWard.arrivalCounter + 1 ∧
    1 ≤ (HOp.treatNormal.apply sampleWard).1.arrivalCounter
      - (⟨"c", "C", 1, 3, 3⟩ : Patient).arrivalTime ∧
    1 ≤ wrap32 ((HOp.treatNormal.apply sampleWard).1.arrivalCounter
      - (⟨"c", "C", 1, 3, 3⟩ : Patient).arrivalTime) :=
  ⟨⟨_, rfl⟩, by decide, by decide, ⟨_, by decide, rfl⟩, ⟨_, by decide, rfl⟩, by decide,
    ((clock_advances sampleWard HOp.treatNormal).1 ⟨_, rfl⟩ (by decide)).2.1 (by decide),
    ((clock_advances sampleWard HOp.treatNormal).2.1
      ⟨_, by decide, rfl⟩ _ (Or.inl (by decide))).1,
    (clock_advances sampleWard HOp.treatNormal).2.2
      ⟨_, by decide, rfl⟩ _ (Or.inl (by decide))⟩

/-! ## C16: the comparator is a strict weak ordering -/

/-- C16, the claim as worded fails once the counter has gone round the `int`
range: `wrapRun`, 4294967297 actions from the fresh system, ends with the stale
entry of `a` and the entry of `c` in the priority queue, both with severity 1
and `arrivalOrder` 1, so the stamps are not distinct and the two entries are
incomparable under `PriorityCompare`. -/
theorem stamp_repeats_after_wrap :
    wrapRun.length = 4294967297 ∧
    HReachable (runH wrapRun HospitalQueueSystem.init).1 ∧
    (runH wrapRun HospitalQueueSystem.init).1.priorityQueue
      = [⟨"a", "A", 1, 1, 1⟩, ⟨"c", "C", 1, 1, 1⟩] ∧
    ¬ ((runH wrapRun HospitalQueueSystem.init).1.priorityQueue.map
        (fun e => e.arrivalOrder)).Nodup ∧
    PriorityCompare ⟨"a", "A", 1, 1, 1⟩ ⟨"c", "C", 1, 1, 1⟩ = false ∧
    PriorityCompare ⟨"c", "C", 1, 1, 1⟩ ⟨"a", "A", 1, 1, 1⟩ = false ∧
    ¬ (runH wrapRun HospitalQueueSystem.init).1.priorityQueue.Pairwise
        (fun a b => PriorityCompare a b = true ∨ PriorityCompare b a = true) := by
  refine ⟨wrapRun_length, ⟨wrapRun, rfl⟩, wrapRun_priorityQueue, ?_, by decide, by decide,
    ?_⟩
  · rw [wrapRun_priorityQueue]
    decide
  · rw [wrapRun_priorityQueue]
    decide

/-- C16: `PriorityCompare` is irreflexive, asymmetric and transitive, being
incomparable under it is transitive, it ranks `a` below `b` exactly when `a` has
the lower severity or the same severity and the later arrival, two patients are
incomparable exactly when they agree in severity and `arrivalOrder`, and in every
state the program reaches by at most 4294967296 actions the entries of the
priority queue have pairwise distinct `arrivalOrder`, so any two of them are
comparable. -/
theorem priorityCompare_strict_weak_order :
    (∀ a, PriorityCompare a a = false) ∧
    (∀ a b, PriorityCompare a b = true → PriorityCompare b a = false) ∧
    (∀ a b c, PriorityCompare a b = true → PriorityCompare b c = true →
      PriorityCompare a c = true) ∧
    (∀ a b c, PriorityCompare a b = false ∧ PriorityCompare b a = false →
      PriorityCompare b c = false ∧ PriorityCompare c b = false →
      PriorityCompare a c = false ∧ PriorityCompare c a = false) ∧
    (∀ a b, PriorityCompare a b = true ↔
      a.severity < b.severity ∨ (a.severity = b.severity ∧ b.arrivalOrder < a.arrivalOrder)) ∧
    (∀ a b, (PriorityCompare a b = false ∧ PriorityCompare b a = false) ↔
      (a.severity = b.severity ∧ a.arrivalOrder = b.arrivalOrder)) ∧
    (∀ s, HReachableIn 4294967296 s →
      (s.priorityQueue.map (fun e => e.arrivalOrder)).Nodup ∧
      s.priorityQueue.Pairwise
        (fun a b => PriorityCompare a b = true ∨ PriorityCompare b a = true)) := by
  refine ⟨?_, priorityCompare_asymm, ?_, ?_, priorityCompare_true_iff, ?_, ?_⟩
  · intro a
    rw [priorityCompare_false_iff]
    omega
  · intro a b c hab hbc
    rw [priorityCompare_true_iff] at hab hbc ⊢
    omega
  · intro a b c hab hbc
    simp only [priorityCompare_false_iff] at hab hbc ⊢
    omega
  · intro a b
    simp only [priorityCompare_false_iff]
    omega
  · intro s hs
    have hnd := distinct_stamps_of_reachableIn s hs
    refine ⟨hnd, ?_⟩
    have hpw := List.pairwise_map.mp hnd
    refine hpw.imp ?_
    intro a b hne
    simp only [priorityCompare_true_iff]
    omega

/-- C16 at `threeWaiting`, reached by three arrivals, where the priority queue
holds `b`, `a` and `c` in this order. -/
theorem priorityCompare_strict_weak_order_witness :
    HReachableIn 4294967296 threeWaiting ∧
    threeWaiting.priorityQueue
      = [⟨"b", "B", 5, 2, 2⟩, ⟨"a", "A", 1, 1, 1⟩, ⟨"c", "C", 1, 3, 3⟩] ∧
    (threeWaiting.priorityQueue.map (fun e => e.arrivalOrder)).Nodup ∧
    threeWaiting.priorityQueue.Pairwise
      (fun a b => PriorityCompare a b = true ∨ PriorityCompare b a = true) :=
  ⟨⟨_, by decide, rfl⟩, by decide,
    priorityCompare_strict_weak_order.2.2.2.2.2.2 threeWaiting ⟨_, by decide, rfl⟩⟩

/-! ## C12: the wait statistics -/

theorem mapContains_iff_find {β : Type} (m : List (String × β)) (k : String) :
    mapContains m k = true ↔ ∃ v, mapFind m k = some v := by
  unfold mapContains
  cases mapFind m k <;> simp

theorem map_nil_of_no_key {β : Type} (m : List (String × β))
    (h : ∀ k, mapContains m k = false) : m = [] := by
  cases m with
  | nil => rfl
  | cons e m =>
    have := h e.1
    simp [mapContains, mapFind] at this

theorem covered_init : Covered HospitalQueueSystem.init := by
  intro k hk
  simp [HospitalQueueSystem.init, mapContains, mapFind] at hk

theorem covered_step (op : HOp) (s : HospitalQueueSystem) (h : Covered s) :
    Covered (op.apply s).1 := by
  rcases apply_shape op s with ⟨id, name, severity, rfl⟩ | ⟨_, _, hkn, hkp, hrec, _⟩
  · intro k hk
    have hk' : mapContains (mapSet s.record id
        ⟨id, name, severity, wrap32 (s.arrivalCounter + 1),
            wrap32 (s.arrivalCounter + 1)⟩) k = true := hk
    rw [mapContains_mapSet] at hk'
    have hperm := pqPush_perm ⟨id, name, severity, wrap32 (s.arrivalCounter + 1),
        wrap32 (s.arrivalCounter + 1)⟩
      s.priorityQueue
    show (∃ e ∈ s.normalQueue ++ [_], e.id = k) ∧ (∃ e ∈ pqPush _ s.priorityQueue, e.id = k)
    by_cases hkid : k = id
    · subst hkid
      exact ⟨⟨_, List.mem_append_right _ (List.mem_singleton_self _), rfl⟩,
        ⟨_, hperm.mem_iff.mpr (List.mem_cons_self _ _), rfl⟩⟩
    · simp only [hkid, decide_False, Bool.false_or] at hk'
      obtain ⟨⟨e1, he1, hid1⟩, ⟨e2, he2, hid2⟩⟩ := h k hk'
      exact ⟨⟨e1, List.mem_append_left _ he1, hid1⟩,
        ⟨e2, hperm.mem_iff.mpr (List.mem_cons_of_mem _ he2), hid2⟩⟩
  · intro k hk
    obtain ⟨v, hv⟩ := (mapContains_iff_find _ _).mp hk
    have hold : mapContains s.record k = true := mapContains_of_find _ _ _ (hrec k v hv)
    obtain ⟨⟨e1, he1, hid1⟩, ⟨e2, he2, hid2⟩⟩ := h k hold
    exact ⟨⟨e1, hkn e1 he1 (by rw [hid1]; exact hk), hid1⟩,
      ⟨e2, hkp e2 he2 (by rw [hid2]; exact hk), hid2⟩⟩

theorem covered_run (ops : List HOp) :
    ∀ s : HospitalQueueSystem, Covered s → Covered (runH ops s).1 := by
  induction ops with
  | nil => intro s h; exact h
  | cons op ops ih =>
    intro s h
    simp only [runH]
    exact ih _ (covered_step op s h)

/-- C19: in every state reached from the fresh system by any actions, with ids
repeated or not, every id in `record` has an entry with that id in the normal
queue and one in the priority queue; so when either queue has no entries,
`record` is empty. -/
theorem live_id_in_both_queues (s : HospitalQueueSystem) (h : HReachable s) :
    (∀ k, mapContains s.record k = true →
      (∃ e ∈ s.normalQueue, e.id = k) ∧ (∃ e ∈ s.priorityQueue, e.id = k)) ∧
    (s.normalQueue = [] → s.record = []) ∧
    (s.priorityQueue = [] → s.record = []) := by
  obtain ⟨ops, rfl⟩ := h
  have hc := covered_run ops _ covered_init
  refine ⟨hc, ?_, ?_⟩
  · intro hq
    apply map_nil_of_no_key
    intro k
    by_contra hk
    obtain ⟨⟨e, he, _⟩, _⟩ := hc k (by simpa using hk)
    rw [hq] at he
    simp at he
  · intro hq
    apply map_nil_of_no_key
    intro k
    by_contra hk
    obtain ⟨_, ⟨e, he, _⟩⟩ := hc k (by simpa using hk)
    rw [hq] at he
    simp at he

/-- C19 at `readmittedWard`, where the id `b` was added twice. -/
theorem live_id_in_both_queues_witness :
    HReachable readmittedWard ∧ mapContains readmittedWard.record "b" = true ∧
    (∃ e ∈ readmittedWard.normalQueue, e.id = "b") ∧
    (∃ e ∈ readmittedWard.priorityQueue, e.id = "b") :=
  ⟨⟨_, rfl⟩, by decide,
    (live_id_in_both_queues readmittedWard ⟨_, rfl⟩).1 "b" (by decide)⟩

/-! ## C15: the treated entry and the stored record -/

theorem treatNextNormal_treated (s : HospitalQueueSystem) (p : Patient)
    (h : (treatNextNormal s).2 = [Out.treatedFIFO p]) :
    p ∈ s.normalQueue ∧ mapContains s.record p.id = true := by
  rcases all_stale_or_first_live s.record s.normalQueue with hst | ⟨pre, q, post, hq, hpre, hp⟩
  · have hs := treatNextNormalFrom_stale s.normalQueue s hst rfl
    unfold treatNextNormal at h
    rw [hs.1] at h
    simp at h
  · have hs := treatNextNormalFrom_live pre q post s hpre hp
    unfold treatNextNormal at h
    rw [hq, hs.1] at h
    simp only [List.cons.injEq, Out.treatedFIFO.injEq, and_true] at h
    subst h
    exact ⟨by rw [hq]; simp, hp⟩

theorem treatNextPriority_treated (s : HospitalQueueSystem) (p : Patient)
    (h : (treatNextPriority s).2 = [Out.treatedPriority p]) :
    p ∈ s.priorityQueue ∧ mapContains s.record p.id = true := by
  rcases all_stale_or_first_live s.record s.priorityQueue with
    hst | ⟨pre, q, post, hq, hpre, hp⟩
  · have hs := treatNextPriority_stale s hst
    rw [hs.1] at h
    simp at h
  · have hs := treatNextPriority_live s pre q post hq hpre hp
    rw [hs.1] at h
    simp only [List.cons.injEq, Out.treatedPriority.injEq, and_true] at h
    subst h
    exact ⟨by rw [hq]; simp, hp⟩

theorem normalLinked_init : NormalLinked [] HospitalQueueSystem.init := by
  refine ⟨?_, ?_, ?_⟩
  · intro e he
    simp [HospitalQueueSystem.init] at he
  · simp [HospitalQueueSystem.init]
  · intro k q h
    simp [HospitalQueueSystem.init, mapFind] at h

theorem normalLinked_add (used : List String) (s : HospitalQueueSystem) (id name : String)
    (severity : Int) (h : NormalLinked used s) (hid : id ∉ used) :
    NormalLinked (id :: used) (addPatient s id name severity).1 := by
  obtain ⟨hu, hnd, hr⟩ := h
  refine ⟨?_, ?_, ?_⟩
  · intro e he
    have he' : e ∈ s.normalQueue
        ++ [⟨id, name, severity, wrap32 (s.arrivalCounter + 1),
            wrap32 (s.arrivalCounter + 1)⟩] := he
    rcases List.mem_append.mp he' with h' | h'
    · exact List.mem_cons_of_mem _ (hu e h')
    · simp only [List.mem_singleton] at h'
      subst h'
      exact List.mem_cons_self _ _
  · show ((s.normalQueue ++ [_]).map (fun e : Patient => e.id)).Nodup
    rw [List.map_append, List.nodup_append]
    refine ⟨hnd, by simp, ?_⟩
    intro a ha hb
    simp only [List.map_cons, List.map_nil, List.mem_singleton] at hb
    obtain ⟨e, he, heq⟩ := List.mem_map.mp ha
    apply hid
    rw [← hb, ← heq]
    exact hu e he
  · intro k q hkq
    have hkq' : mapFind (mapSet s.record id
        ⟨id, name, severity, wrap32 (s.arrivalCounter + 1),
            wrap32 (s.arrivalCounter + 1)⟩) k = some q := hkq
    rw [mapFind_mapSet] at hkq'
    show q.id = k ∧ q ∈ s.normalQueue ++ [_]
    by_cases hk : k = id
    · simp only [hk, if_true, Option.some.injEq] at hkq'
      subst hkq'
      exact ⟨hk.symm, List.mem_append_right _ (List.mem_singleton_self _)⟩
    · simp only [hk, if_false] at hkq'
      have := hr k q hkq'
      exact ⟨this.1, List.mem_append_left _ this.2⟩

theorem normalLinked_run (ops : List HOp) :
    ∀ (s : HospitalQueueSystem) (used : List String), NormalLinked used s →
      (addedIds ops).Nodup → (∀ k ∈ addedIds ops, k ∉ used) →
      ∃ used', NormalLinked used' (runH ops s).1 := by
  induction ops with
  | nil => intro s used h _ _; exact ⟨used, h⟩
  | cons op ops ih =>
    intro s used h hnd hfresh
    simp only [runH]
    rcases apply_shape op s with ⟨id, name, severity, rfl⟩ | ⟨hsub, _, hkeep, _, hrec, _⟩
    · simp only [addedIds, List.nodup_cons, List.mem_cons, forall_eq_or_imp] at hnd hfresh
      refine ih _ (id :: used) (normalLinked_add used s id name severity h hfresh.1) hnd.2 ?_
      intro k hk hc
      rcases List.mem_cons.mp hc with rfl | hc'
      · exact hnd.1 hk
      · exact hfresh.2 k hk hc'
    · have hadd : addedIds (op :: ops) = addedIds ops ∨ ∃ id n v, op = HOp.add id n v := by
        cases op <;> simp [addedIds]
      obtain ⟨hu, hnd', hr⟩ := h
      have hl : NormalLinked used (op.apply s).1 := by
        refine ⟨fun e he => hu e (hsub.subset he), hnd'.sublist (hsub.map _), ?_⟩
        intro k q hkq
        have := hr k q (hrec k q hkq)
        refine ⟨this.1, hkeep q this.2 ?_⟩
        rw [this.1]
        exact mapContains_of_find _ _ _ hkq
      rcases hadd with hadd | ⟨id, n, v, rfl⟩
      · rw [hadd] at hnd hfresh
        exact ih _ used hl hnd hfresh
      · simp only [addedIds, List.nodup_cons, List.mem_cons, forall_eq_or_imp] at hnd hfresh
        exact ih _ (id :: used)
          (normalLinked_add used s id n v ⟨hu, hnd', hr⟩ hfresh.1) hnd.2 (by
            intro k hk hc
            rcases List.mem_cons.mp hc with rfl | hc'
            · exact hnd.1 hk
            · exact hfresh.2 k hk hc')

/-- With pairwise distinct added ids the takes treat the stored record: in every
state reached from the fresh system by actions whose added ids are pairwise
distinct, the entry that `treatNextNormal` or `treatNextPriority` reports as
treated is the record stored in `record` under its id at that moment. -/
theorem treated_entry_is_stored_record (ops : List HOp) (h : (addedIds ops).Nodup)
    (p : Patient) :
    ((treatNextNormal (runH ops HospitalQueueSystem.init).1).2 = [Out.treatedFIFO p] →
      mapFind (runH ops HospitalQueueSystem.init).1.record p.id = some p) ∧
    ((treatNextPriority (runH ops HospitalQueueSystem.init).1).2 = [Out.treatedPriority p] →
      mapFind (runH ops HospitalQueueSystem.init).1.record p.id = some p) := by
  constructor
  · intro ht
    obtain ⟨used, _, hnd, hr⟩ := normalLinked_run ops HospitalQueueSystem.init []
      normalLinked_init h (fun k _ => by simp)
    obtain ⟨hmem, hlive⟩ := treatNextNormal_treated _ p ht
    obtain ⟨q, hq⟩ := (mapContains_iff_find _ _).mp hlive
    have hq' := hr p.id q hq
    have : q = p := List.inj_on_of_nodup_map hnd hq'.2 hmem hq'.1
    rw [hq, this]
  · intro ht
    obtain ⟨used, _, hnd, hr, _⟩ := linked_run ops HospitalQueueSystem.init []
      linked_init h (fun k _ => by simp)
    obtain ⟨hmem, hlive⟩ := treatNextPriority_treated _ p ht
    obtain ⟨q, hq⟩ := (mapContains_iff_find _ _).mp hlive
    have hq' := hr p.id q hq
    have : q = p := List.inj_on_of_nodup_map hnd hq'.2 hmem hq'.1
    rw [hq, this]

/-- C15 fails on the code. In the session that ends in `readmittedWard` the
patient `b` is treated by priority and the id `b` is then admitted again with new
data, while the copy of the first `b` is still in the normal queue. In
`readmittedWard` that stale copy is at the front of the normal queue and
`record` holds the second patient under `b`. `treatNextNormal` finds the id in
`record`, so its test for an entry already treated does not fire: it reports
the first `b` as treated a second time, which is not the record stored under `b`,
and erases the record of the second patient, who is then found by neither queue
and is never treated. -/
theorem stale_copy_treated_as_live :
    HReachable readmittedWard ∧
    Out.treatedPriority ⟨"b", "B", 5, 2, 2⟩ ∈
      (runH [HOp.add "a" "A" 1, HOp.add "b" "B" 5, HOp.treatPriority, HOp.add "b" "B2" 1,
        HOp.treatNormal] HospitalQueueSystem.init).2 ∧
    readmittedWard.normalQueue = [⟨"b", "B", 5, 2, 2⟩, ⟨"b", "B2", 1, 4, 4⟩] ∧
    mapFind readmittedWard.record "b" = some ⟨"b", "B2", 1, 4, 4⟩ ∧
    (treatNextNormal readmittedWard).2 = [Out.treatedFIFO ⟨"b", "B", 5, 2, 2⟩] ∧
    mapFind readmittedWard.record "b" ≠ some ⟨"b", "B", 5, 2, 2⟩ ∧
    mapFind (treatNextNormal readmittedWard).1.record "b" = none ∧
    (treatNextNormal (treatNextNormal readmittedWard).1).2 = [Out.normalEmpty] ∧
    (treatNextPriority (treatNextNormal readmittedWard).1).2 = [Out.priorityEmpty] :=
  ⟨⟨_, rfl⟩, by decide, by decide, by decide, by decide, by decide, by decide, by decide,
    by decide⟩

/-! ## The rack stacks -/

/-- The stacks of the other racks after `addItem`. -/
theorem addItem_rack_other (w : Warehouse) (rackId id name expiry r : String)
    (h : r ≠ rackId) :
    mapFind (addItem w rackId id name expiry).1.racks r = mapFind w.racks r := by
  unfold addItem
  simp only [mapFind_mapSet, h, if_false, mapFind_mapIndex]
  unfold ensureRack
  by_cases hc : mapContains w.racks rackId = true
  · simp [hc]
  · simp [hc, mapFind_mapSet, h]

theorem addItem_itemMap (w : Warehouse) (rackId id name expiry : String) :
    (addItem w rackId id name expiry).1.itemMap
      = mapSet w.itemMap id ⟨id, name, expiry, rackId⟩ := by
  unfold addItem
  simp only [(ensureRack_frame w rackId).1]

theorem addItem_expiryHeap (w : Warehouse) (rackId id name expiry : String) :
    (addItem w rackId id name expiry).1.expiryHeap = heapPush (expiry, id) w.expiryHeap := by
  unfold addItem
  simp only [(ensureRack_frame w rackId).2]

/-- The two outcomes of `dispatchFromRack`: nothing to pop, or one id popped. -/
theorem dispatchFromRack_cases (w : Warehouse) (rackId : String) :
    (((mapFind w.racks rackId).getD [] = []) ∧ (dispatchFromRack w rackId).1 = w ∧
      (dispatchFromRack w rackId).2 = [WOut.rackEmptyOrMissing rackId]) ∨
    ∃ topId rest, mapFind w.racks rackId = some (topId :: rest) ∧
      (∀ r, mapFind (dispatchFromRack w rackId).1.racks r
        = if r = rackId then some rest else mapFind w.racks r) ∧
      (dispatchFromRack w rackId).1.expiryHeap = w.expiryHeap ∧
      ((∃ it, mapFind w.itemMap topId = some it ∧
          (dispatchFromRack w rackId).2 = [WOut.dispatched it rackId] ∧
          (dispatchFromRack w rackId).1.itemMap = mapErase w.itemMap topId) ∨
        (mapFind w.itemMap topId = none ∧
          (dispatchFromRack w rackId).2 = [WOut.topNotFound] ∧
          (dispatchFromRack w rackId).1.itemMap = w.itemMap)) := by
  cases hf : mapFind w.racks rackId with
  | none =>
    left
    have hc : mapContains w.racks rackId = false := by
      unfold mapContains
      rw [hf]
      rfl
    unfold dispatchFromRack
    simp [hc]
  | some st =>
    have hc : mapContains w.racks rackId = true := mapContains_of_find _ _ _ hf
    have hi : mapIndex w.racks rackId [] = (st, w.racks) := by
      unfold mapIndex
      rw [hf]
    cases st with
    | nil =>
      left
      unfold dispatchFromRack
      simp [hc, hi]
    | cons topId rest =>
      right
      refine ⟨topId, rest, rfl, ?_, ?_, ?_⟩
      · intro r
        unfold dispatchFromRack
        simp only [hc, Bool.not_true, Bool.false_eq_true, if_false, hi]
        by_cases ht : mapContains w.itemMap topId = true <;> simp [ht, mapFind_mapSet]
      · unfold dispatchFromRack
        simp only [hc, Bool.not_true, Bool.false_eq_true, if_false, hi]
        by_cases ht : mapContains w.itemMap topId = true <;> simp [ht]
      · cases hit : mapFind w.itemMap topId with
        | some it =>
          left
          have ht : mapContains w.itemMap topId = true := mapContains_of_find _ _ _ hit
          have hidx : mapIndex w.itemMap topId Item.blank = (it, w.itemMap) := by
            unfold mapIndex
            rw [hit]
          refine ⟨it, rfl, ?_, ?_⟩ <;>
            (unfold dispatchFromRack
             simp [hc, hi, ht, hidx])
        | none =>
          right
          have ht : mapContains w.itemMap topId = false := by
            unfold mapContains
            rw [hit]
            rfl
          refine ⟨rfl, ?_, ?_⟩ <;>
            (unfold dispatchFromRack
             simp [hc, hi, ht])

/-! ## C20: every stored item is in the heap and on its rack -/

theorem stocked_init : Stocked Warehouse.init := by
  refine ⟨?_, ?_⟩
  · intro k it h
    simp [Warehouse.init, mapFind] at h
  · simp [heapSorted, Warehouse.init]

theorem stocked_add (w : Warehouse) (rackId id name expiry : String) (h : Stocked w) :
    Stocked (addItem w rackId id name expiry).1 := by
  obtain ⟨hr, hso⟩ := h
  have hperm := heapPush_perm (expiry, id) w.expiryHeap
  refine ⟨?_, ?_⟩
  · intro k it hk
    rw [addItem_itemMap, mapFind_mapSet] at hk
    rw [addItem_expiryHeap]
    by_cases hkid : k = id
    · simp only [hkid, if_true, Option.some.injEq] at hk
      subst hk
      refine ⟨hkid.symm, hperm.mem_iff.mpr (by rw [hkid]; exact List.mem_cons_self _ _), ?_⟩
      exact ⟨_, addItem_rack w rackId id name expiry, by rw [hkid]; exact List.mem_cons_self _ _⟩
    · simp only [hkid, if_false] at hk
      obtain ⟨h1, h2, st, hst, hmem⟩ := hr k it hk
      refine ⟨h1, hperm.mem_iff.mpr (List.mem_cons_of_mem _ h2), ?_⟩
      by_cases hrk : it.rackId = rackId
      · refine ⟨_, by rw [hrk]; exact addItem_rack w rackId id name expiry, ?_⟩
        rw [← hrk, hst]
        exact List.mem_cons_of_mem _ hmem
      · exact ⟨st, by rw [addItem_rack_other w rackId id name expiry _ hrk]; exact hst, hmem⟩
  · rw [addItem_expiryHeap]
    exact heapPush_sorted _ _ hso

theorem stocked_dispatch (w : Warehouse) (rackId : String) (h : Stocked w) :
    Stocked (dispatchFromRack w rackId).1 := by
  obtain ⟨hr, hso⟩ := h
  rcases dispatchFromRack_cases w rackId with ⟨_, hs, _⟩ | ⟨topId, rest, hst, hracks, hheap, hmap⟩
  · rw [hs]
    exact ⟨hr, hso⟩
  · refine ⟨?_, by rw [hheap]; exact hso⟩
    intro k it hk
    have hold : mapFind w.itemMap k = some it ∧ k ≠ topId := by
      rcases hmap with ⟨it0, _, _, hm⟩ | ⟨hnone, _, hm⟩
      · rw [hm] at hk
        have := mapFind_of_mapErase _ _ _ _ hk
        exact ⟨this.2, this.1⟩
      · rw [hm] at hk
        refine ⟨hk, ?_⟩
        intro hc
        rw [hc, hnone] at hk
        simp at hk
    obtain ⟨h1, h2, st, hst', hmem⟩ := hr k it hold.1
    refine ⟨h1, by rw [hheap]; exact h2, ?_⟩
    rw [hracks]
    by_cases hrk : it.rackId = rackId
    · rw [if_pos hrk]
      refine ⟨rest, rfl, ?_⟩
      rw [hrk, hst] at hst'
      simp only [Option.some.injEq] at hst'
      rw [← hst'] at hmem
      rcases List.mem_cons.mp hmem with hc | hc
      · exact absurd hc hold.2
      · exact hc
    · rw [if_neg hrk]
      exact ⟨st, hst', hmem⟩

theorem stocked_sweep (w : Warehouse) (d : String) (h : Stocked w) :
    Stocked (removeExpired w d).1 := by
  obtain ⟨hr, hso⟩ := h
  have hheap : (removeExpired w d).1.expiryHeap
      = w.expiryHeap.dropWhile (fun pr => strLe pr.1 d) := by
    unfold removeExpired
    simp only
    rw [removeExpiredLoop_heap]
  have hfind : ∀ k, mapFind (removeExpired w d).1.itemMap k
      = if k ∈ (w.expiryHeap.takeWhile (fun pr => strLe pr.1 d)).map (fun pr => pr.2)
        then none else mapFind w.itemMap k := by
    intro k
    unfold removeExpired
    simp only
    rw [removeExpiredLoop_find]
  refine ⟨?_, ?_⟩
  · intro k it hk
    rw [hfind] at hk
    by_cases hm : k ∈ (w.expiryHeap.takeWhile (fun pr => strLe pr.1 d)).map (fun pr => pr.2)
    · rw [if_pos hm] at hk
      exact absurd hk (by simp)
    · rw [if_neg hm] at hk
      obtain ⟨h1, h2, hst⟩ := hr k it hk
      refine ⟨h1, ?_, hst⟩
      rw [hheap]
      rw [← List.takeWhile_append_dropWhile (fun pr => strLe pr.1 d) w.expiryHeap] at h2
      rcases List.mem_append.mp h2 with h3 | h3
      · exact absurd (List.mem_map.mpr ⟨(it.expiry, k), h3, rfl⟩) hm
      · exact h3
  · rw [hheap]
    unfold heapSorted at hso ⊢
    exact hso.sublist (List.dropWhile_sublist _)

theorem stocked_step (op : WOp) (w : Warehouse) (h : Stocked w) : Stocked (op.apply w).1 := by
  cases op with
  | add rackId id name expiry => exact stocked_add w rackId id name expiry h
  | dispatch rackId => exact stocked_dispatch w rackId h
  | find id =>
    simp only [WOp.apply]
    rw [findItem_state]
    exact h
  | display rackId =>
    simp only [WOp.apply]
    rw [showRack_state]
    exact h
  | sweep currentDate => exact stocked_sweep w currentDate h
  | listAll => exact h

theorem stocked_run (ops : List WOp) :
    ∀ w : Warehouse, Stocked w → Stocked (runW ops w).1 := by
  induction ops with
  | nil => intro w h; exact h
  | cons op ops ih =>
    intro w h
    simp only [runW]
    exact ih _ (stocked_step op w h)

/-- C20: in every state reached from the empty warehouse by any actions, with ids
repeated or not, every item in `itemMap` is filed under its own id, has the pair
of its expiry and id in the expiry heap and its id on the stack of its rack; so
after `removeExpired d` every item left in `itemMap` has an expiry that is not
`<= d`. -/
theorem stored_item_in_heap_and_rack (w : Warehouse) (h : WReachable w) :
    (∀ k it, mapFind w.itemMap k = some it →
      it.id = k ∧ (it.expiry, it.id) ∈ w.expiryHeap ∧
      ∃ st, mapFind w.racks it.rackId = some st ∧ it.id ∈ st) ∧
    ∀ d k it, mapFind (removeExpired w d).1.itemMap k = some it → strLe it.expiry d = false := by
  obtain ⟨ops, rfl⟩ := h
  obtain ⟨hr, hso⟩ := stocked_run ops _ stocked_init
  refine ⟨?_, ?_⟩
  · intro k it hk
    obtain ⟨h1, h2, h3⟩ := hr k it hk
    rw [h1]
    exact ⟨rfl, h2, h3⟩
  · intro d k it hk
    unfold removeExpired at hk
    simp only at hk
    rw [removeExpiredLoop_find] at hk
    by_cases hm : k ∈ ((runW ops Warehouse.init).1.expiryHeap.takeWhile
        (fun pr => strLe pr.1 d)).map (fun pr => pr.2)
    · rw [if_pos hm] at hk
      exact absurd hk (by simp)
    · rw [if_neg hm] at hk
      obtain ⟨_, h2, _⟩ := hr k it hk
      by_contra hle
      have hle' : strLe it.expiry d = true := by simpa using hle
      exact hm (List.mem_map.mpr
        ⟨(it.expiry, k), mem_takeWhile_of_sorted d _ hso (it.expiry, k) h2 hle', rfl⟩)

/-- C20 at `restockedStore`, where the id `x` was added twice. -/
theorem stored_item_in_heap_and_rack_witness :
    WReachable restockedStore ∧
    mapFind restockedStore.itemMap "x" = some ⟨"x", "X", "2030-01-01", "r"⟩ ∧
    ("2030-01-01", "x") ∈ restockedStore.expiryHeap ∧
    ∃ st, mapFind restockedStore.racks "r" = some st ∧ "x" ∈ st :=
  ⟨⟨_, rfl⟩, by decide,
    ((stored_item_in_heap_and_rack restockedStore ⟨_, rfl⟩).1 "x"
      ⟨"x", "X", "2030-01-01", "r"⟩ (by decide)).2⟩

/-! ## C14: the sweep and a re-added id -/

/-- C14 fails on the code: in `restockedStore` the item stored under `x` expires
on 2030-01-01, yet `removeExpired "2025-01-01"` erases it, because the heap still
holds the pair of the first `x`, which expired on 2020-01-01. -/
theorem sweep_removes_unexpired_item :
    WReachable restockedStore ∧
    mapFind restockedStore.itemMap "x" = some ⟨"x", "X", "2030-01-01", "r"⟩ ∧
    strLe "2030-01-01" "2025-01-01" = false ∧
    mapFind (removeExpired restockedStore "2025-01-01").1.itemMap "x" = none ∧
    (removeExpired restockedStore "2025-01-01").2
      = [WOut.removedExpired ⟨"x", "X", "2030-01-01", "r"⟩ "x" "2020-01-01"] :=
  ⟨⟨_, rfl⟩, by decide, by decide, by decide, by decide⟩

/-! ## C13: last in, first out on every rack -/

theorem showRackLoop_dispatched (r : String) (tmp : List String) (m : List (String × Item)) :
    dispatchedFrom r (showRackLoop tmp m).2 = [] := by
  rw [showRackLoop_lines]
  unfold dispatchedFrom
  induction tmp with
  | nil => rfl
  | cons id tmp ih =>
    simp only [List.map_cons]
    cases mapFind m id <;> simpa using ih

/-- The read-only actions report no dispatch and leave the state alone. -/
theorem readOnly_dispatched (r : String) (op : WOp) (w : Warehouse)
    (h : (∃ id, op = WOp.find id) ∨ (∃ r0, op = WOp.display r0) ∨ op = WOp.listAll) :
    (op.apply w).1 = w ∧ dispatchedFrom r (op.apply w).2 = [] := by
  rcases h with ⟨id, rfl⟩ | ⟨r0, rfl⟩ | rfl
  · refine ⟨findItem_state w id, ?_⟩
    simp only [WOp.apply, findItem]
    by_cases hc : mapContains w.itemMap id = true <;> simp [hc, dispatchedFrom]
  · refine ⟨showRack_state w r0, ?_⟩
    simp only [WOp.apply, showRack]
    by_cases hc : mapContains w.racks r0 = true
    · simp only [hc, Bool.not_true, Bool.false_eq_true, if_false]
      have := showRackLoop_dispatched r (mapIndex w.racks r0 []).1 w.itemMap
      unfold dispatchedFrom at this ⊢
      simpa using this
    · simp [hc, dispatchedFrom]
  · refine ⟨rfl, ?_⟩
    simp [WOp.apply, listAllItems, dispatchedFrom]

theorem stackLinked_init : StackLinked [] Warehouse.init := by
  intro r st h
  simp [Warehouse.init, mapFind] at h

theorem stackLinked_add (used : List String) (w : Warehouse) (rackId id name expiry : String)
    (h : StackLinked used w) (hid : id ∉ used) :
    StackLinked (id :: used) (addItem w rackId id name expiry).1 := by
  intro r st hst
  have hother : ∀ r0 st0, mapFind w.racks r0 = some st0 → ∀ x ∈ st0,
      x ∈ id :: used ∧ ∃ it, mapFind (addItem w rackId id name expiry).1.itemMap x = some it ∧
        it.id = x ∧ it.rackId = r0 := by
    intro r0 st0 h0 x hx
    obtain ⟨hu, it, hit, h1, h2⟩ := (h r0 st0 h0).2 x hx
    refine ⟨List.mem_cons_of_mem _ hu, it, ?_, h1, h2⟩
    rw [addItem_itemMap, mapFind_mapSet]
    have : x ≠ id := fun hc => hid (hc ▸ hu)
    simp [this, hit]
  by_cases hr : r = rackId
  · subst hr
    rw [addItem_rack] at hst
    simp only [Option.some.injEq] at hst
    subst hst
    have hnew : ∃ it, mapFind (addItem w r id name expiry).1.itemMap id = some it ∧
        it.id = id ∧ it.rackId = r := by
      refine ⟨⟨id, name, expiry, r⟩, ?_, rfl, rfl⟩
      rw [addItem_itemMap, mapFind_mapSet]
      simp
    have hstack : ((mapFind w.racks r).getD []).Nodup ∧
        ∀ x ∈ (mapFind w.racks r).getD [], x ∈ used ∧ x ∈ id :: used ∧
          ∃ it, mapFind (addItem w r id name expiry).1.itemMap x = some it ∧
            it.id = x ∧ it.rackId = r := by
      cases hold : mapFind w.racks r with
      | none =>
        refine ⟨List.nodup_nil, ?_⟩
        intro x hx
        simp at hx
      | some st0 =>
        refine ⟨(h r st0 hold).1, ?_⟩
        intro x hx
        have hx' : x ∈ st0 := hx
        exact ⟨((h r st0 hold).2 x hx').1, hother r st0 hold x hx'⟩
    refine ⟨List.nodup_cons.mpr ⟨fun hc => hid (hstack.2 id hc).1, hstack.1⟩, ?_⟩
    intro x hx
    rcases List.mem_cons.mp hx with hxid | hx'
    · rw [hxid]
      exact ⟨List.mem_cons_self _ _, hnew⟩
    · exact (hstack.2 x hx').2
  · rw [addItem_rack_other w rackId id name expiry r hr] at hst
    exact ⟨(h r st hst).1, hother r st hst⟩

theorem stackLinked_dispatch (used : List String) (w : Warehouse) (rackId : String)
    (h : StackLinked used w) : StackLinked used (dispatchFromRack w rackId).1 := by
  rcases dispatchFromRack_cases w rackId with ⟨_, hs, _⟩ | ⟨topId, rest, hst, hracks, _, hmap⟩
  · rw [hs]
    exact h
  · have htop := h rackId (topId :: rest) hst
    obtain ⟨_, it0, hit0, _, hrack0⟩ := htop.2 topId (List.mem_cons_self _ _)
    have hm : (dispatchFromRack w rackId).1.itemMap = mapErase w.itemMap topId := by
      rcases hmap with ⟨_, _, _, hm⟩ | ⟨hnone, _, _⟩
      · exact hm
      · rw [hnone] at hit0
        simp at hit0
    intro r st hrst
    rw [hracks] at hrst
    by_cases hr : r = rackId
    · rw [if_pos hr] at hrst
      simp only [Option.some.injEq] at hrst
      subst hrst
      have hnd := List.nodup_cons.mp htop.1
      refine ⟨hnd.2, ?_⟩
      intro x hx
      obtain ⟨hu, it, hit, h1, h2⟩ := htop.2 x (List.mem_cons_of_mem _ hx)
      refine ⟨hu, it, ?_, h1, by rw [hr]; exact h2⟩
      rw [hm, mapFind_mapErase]
      have : x ≠ topId := fun hc => hnd.1 (hc ▸ hx)
      simp [this, hit]
    · rw [if_neg hr] at hrst
      refine ⟨(h r st hrst).1, ?_⟩
      intro x hx
      obtain ⟨hu, it, hit, h1, h2⟩ := (h r st hrst).2 x hx
      refine ⟨hu, it, ?_, h1, h2⟩
      rw [hm, mapFind_mapErase]
      have : x ≠ topId := by
        intro hc
        rw [hc, hit0] at hit
        simp only [Option.some.injEq] at hit
        rw [hit] at hrack0
        exact hr (h2.symm.trans hrack0)
      simp [this, hit]

theorem dispatchedFrom_append (r : String) (a b : List WOut) :
    dispatchedFrom r (a ++ b) = dispatchedFrom r a ++ dispatchedFrom r b := by
  unfold dispatchedFrom
  exact List.filterMap_append _ _ _

/-- The code follows the stack model on every rack as long as ids are added at
most once and nothing is swept. -/
theorem lifo_run (r : String) (ops : List WOp) :
    ∀ (w : Warehouse) (used : List String), StackLinked used w → noSweep ops = true →
      (addedItemIds ops).Nodup → (∀ k ∈ addedItemIds ops, k ∉ used) →
      dispatchedFrom r (runW ops w).2 = lifoModel r ops ((mapFind w.racks r).getD []) := by
  induction ops with
  | nil => intro w used _ _ _ _; rfl
  | cons op ops ih =>
    intro w used h hns hnd hfresh
    simp only [runW, dispatchedFrom_append]
    cases op with
    | add rackId id name expiry =>
      simp only [addedItemIds, List.nodup_cons, List.mem_cons, forall_eq_or_imp] at hnd hfresh
      have hrest := ih (addItem w rackId id name expiry).1 (id :: used)
        (stackLinked_add used w rackId id name expiry h hfresh.1) hns hnd.2 (by
          intro k hk hc
          rcases List.mem_cons.mp hc with rfl | hc'
          · exact hnd.1 hk
          · exact hfresh.2 k hk hc')
      simp only [WOp.apply, lifoModel]
      rw [hrest]
      have hout : dispatchedFrom r (addItem w rackId id name expiry).2 = [] := rfl
      rw [hout, List.nil_append]
      by_cases hr : rackId = r
      · subst hr
        rw [if_pos rfl, addItem_rack]
        rfl
      · rw [if_neg hr, addItem_rack_other w rackId id name expiry r (fun hc => hr hc.symm)]
    | dispatch rackId =>
      have hrest := ih (dispatchFromRack w rackId).1 used
        (stackLinked_dispatch used w rackId h) hns hnd hfresh
      simp only [WOp.apply, lifoModel]
      rw [hrest]
      rcases dispatchFromRack_cases w rackId with
        ⟨hemp, hs, hout⟩ | ⟨topId, rest, hst, hracks, _, hmap⟩
      · rw [hs, hout]
        have h0 : dispatchedFrom r [WOut.rackEmptyOrMissing rackId] = [] := rfl
        rw [h0, List.nil_append]
        by_cases hr : rackId = r
        · subst hr
          rw [if_pos rfl, hemp]
        · rw [if_neg hr]
      · obtain ⟨_, it0, hit0, hid0, _⟩ :=
          (h rackId (topId :: rest) hst).2 topId (List.mem_cons_self _ _)
        have hout : (dispatchFromRack w rackId).2 = [WOut.dispatched it0 rackId] := by
          rcases hmap with ⟨it, hit, ho, _⟩ | ⟨hnone, _, _⟩
          · rw [hit0] at hit
            simp only [Option.some.injEq] at hit
            rw [ho, hit]
          · rw [hnone] at hit0
            simp at hit0
        rw [hout, hracks]
        by_cases hr : rackId = r
        · subst hr
          have h1 : dispatchedFrom rackId [WOut.dispatched it0 rackId] = [topId] := by
            simp [dispatchedFrom, hid0]
          rw [h1, if_pos rfl, if_pos rfl, hst]
          rfl
        · have h1 : dispatchedFrom r [WOut.dispatched it0 rackId] = [] := by
            simp [dispatchedFrom, hr]
          rw [h1, if_neg hr, if_neg (fun hc => hr hc.symm), List.nil_append]
    | find id =>
      have hro := readOnly_dispatched r (WOp.find id) w (Or.inl ⟨id, rfl⟩)
      rw [hro.1, hro.2]
      exact ih w used h hns hnd hfresh
    | display rackId =>
      have hro := readOnly_dispatched r (WOp.display rackId) w (Or.inr (Or.inl ⟨rackId, rfl⟩))
      rw [hro.1, hro.2]
      exact ih w used h hns hnd hfresh
    | sweep currentDate => simp [noSweep] at hns
    | listAll =>
      have hro := readOnly_dispatched r WOp.listAll w (Or.inr (Or.inr rfl))
      rw [hro.1, hro.2]
      exact ih w used h hns hnd hfresh

theorem lifoModel_adds_first (r : String) (ops1 ops2 : List WOp) :
    ∀ st : List String, noDispatchOf r ops1 = true →
      lifoModel r (ops1 ++ ops2) st = lifoModel r ops2 ((addedTo r ops1).reverse ++ st) := by
  induction ops1 with
  | nil => intro st _; rfl
  | cons op ops ih =>
    intro st h
    cases op with
    | add rackId id name expiry =>
      by_cases hr : rackId = r
      · simp only [List.cons_append, lifoModel, hr, if_true, addedTo, List.reverse_cons,
          List.append_assoc, List.singleton_append]
        exact ih _ h
      · simp only [List.cons_append, lifoModel, hr, if_false, addedTo]
        exact ih _ h
    | dispatch rackId =>
      simp only [noDispatchOf, Bool.and_eq_true, decide_eq_true_eq] at h
      simp only [List.cons_append, lifoModel, h.1, if_false, addedTo]
      exact ih _ h.2
    | find id => exact ih _ h
    | display rackId => exact ih _ h
    | sweep currentDate => exact ih _ h
    | listAll => exact ih _ h

theorem lifoModel_pops (r : String) (ops : List WOp) :
    ∀ st : List String, noAddTo r ops = true →
      lifoModel r ops st = st.take (dispatchCount r ops) := by
  induction ops with
  | nil => intro st _; simp [lifoModel, dispatchCount]
  | cons op ops ih =>
    intro st h
    cases op with
    | add rackId id name expiry =>
      simp only [noAddTo, Bool.and_eq_true, decide_eq_true_eq] at h
      simp only [lifoModel, h.1, if_false, dispatchCount]
      exact ih _ h.2
    | dispatch rackId =>
      by_cases hr : rackId = r
      · simp only [lifoModel, hr, if_true, dispatchCount]
        cases st with
        | nil =>
          simp only [List.take_nil]
          rw [ih [] h]
          simp
        | cons id rest =>
          simp only [List.take_succ_cons, List.cons.injEq, true_and]
          exact ih rest h
      · simp only [lifoModel, hr, if_false, dispatchCount]
        exact ih _ h
    | find id => exact ih _ h
    | display rackId => exact ih _ h
    | sweep currentDate => exact ih _ h
    | listAll => exact ih _ h

/-- C13: for runs from the empty warehouse that add every id at most once and do
not sweep, the ids dispatched from rack `r` are those the stack model of `r`
yields, whatever happens on other racks in between; when every add to `r` comes
before every dispatch from `r`, they are the ids added to `r` in reverse order,
as many as there are dispatches; and in every state `dispatchFromRack r` leaves
the stack of every other rack as it was. -/
theorem lifo_per_rack (r : String) :
    (∀ ops, noSweep ops = true → (addedItemIds ops).Nodup →
      dispatchedFrom r (runW ops Warehouse.init).2 = lifoModel r ops []) ∧
    (∀ ops1 ops2, noSweep (ops1 ++ ops2) = true → (addedItemIds (ops1 ++ ops2)).Nodup →
      noDispatchOf r ops1 = true → noAddTo r ops2 = true →
      dispatchedFrom r (runW (ops1 ++ ops2) Warehouse.init).2
        = (addedTo r ops1).reverse.take (dispatchCount r ops2)) ∧
    (∀ (w : Warehouse) (r0 : String), r0 ≠ r →
      mapFind (dispatchFromRack w r).1.racks r0 = mapFind w.racks r0) := by
  have hgen : ∀ ops, noSweep ops = true → (addedItemIds ops).Nodup →
      dispatchedFrom r (runW ops Warehouse.init).2 = lifoModel r ops [] := by
    intro ops hns hnd
    have := lifo_run r ops Warehouse.init [] stackLinked_init hns hnd (fun k _ => by simp)
    simpa [Warehouse.init, mapFind] using this
  refine ⟨hgen, ?_, ?_⟩
  · intro ops1 ops2 hns hnd h1 h2
    rw [hgen _ hns hnd, lifoModel_adds_first r ops1 ops2 [] h1, List.append_nil,
      lifoModel_pops r ops2 _ h2]
  · intro w r0 hr
    rcases dispatchFromRack_cases w r with ⟨_, hs, _⟩ | ⟨topId, rest, _, hracks, _, _⟩
    · rw [hs]
    · rw [hracks, if_neg hr]

/-- C13 on the rack example: `a` then `b` go on rack `r`, and the two dispatches
from `r` yield `b` then `a`, with actions on rack `q` in between. -/
theorem lifo_per_rack_witness :
    noSweep (rackExampleAdds ++ rackExampleDispatches) = true ∧
    (addedItemIds (rackExampleAdds ++ rackExampleDispatches)).Nodup ∧
    noDispatchOf "r" rackExampleAdds = true ∧ noAddTo "r" rackExampleDispatches = true ∧
    (addedTo "r" rackExampleAdds).reverse.take (dispatchCount "r" rackExampleDispatches)
      = ["b", "a"] ∧
    dispatchedFrom "r" (runW (rackExampleAdds ++ rackExampleDispatches) Warehouse.init).2
      = (addedTo "r" rackExampleAdds).reverse.take (dispatchCount "r" rackExampleDispatches) :=
  ⟨by decide, by decide, by decide, by decide, by decide,
    (lifo_per_rack "r").2.1 rackExampleAdds rackExampleDispatches (by decide) (by decide)
      (by decide) (by decide)⟩

/-! ## C18: every take is bounded -/

/-- A loop whose body lowers a measure ends within as many iterations as the
measure says, in a state related to the start by any relation the loop keeps. -/
theorem whileFuel_total {σ : Type} (cond : σ → Bool) (body : σ → σ) (μ : σ → Nat)
    (P : σ → σ → Prop) (hdec : ∀ s, cond s = true → μ (body s) < μ s)
    (hstop : ∀ s, cond s = false → P s s)
    (hstep : ∀ s r, cond s = true → P (body s) r → P s r) :
    ∀ (fuel : Nat) (s : σ), μ s ≤ fuel →
      ∃ r n, whileFuel cond body fuel s = some (r, n) ∧ n ≤ μ s ∧ P s r := by
  intro fuel
  induction fuel with
  | zero =>
    intro s hs
    have hc : cond s = false := by
      by_contra hc
      have := hdec s (by simpa using hc)
      omega
    exact ⟨s, 0, by simp [whileFuel, hc], Nat.zero_le _, hstop s hc⟩
  | succ fuel ih =>
    intro s hs
    by_cases hc : cond s = true
    · have hlt := hdec s hc
      obtain ⟨r, n, hr, hn, hP⟩ := ih (body s) (by omega)
      refine ⟨r, n + 1, ?_, by omega, hstep s r hc hP⟩
      simp [whileFuel, hc, hr]
    · have hc' : cond s = false := by simpa using hc
      exact ⟨s, 0, by simp [whileFuel, hc'], Nat.zero_le _, hstop s hc'⟩

theorem cleanTop_loop (s : HospitalQueueSystem) (fuel : Nat)
    (h : s.priorityQueue.length ≤ fuel) :
    ∃ n, n ≤ s.priorityQueue.length ∧
      whileFuel cleanTopCond cleanTopBody fuel s = some (cleanPriorityTop s, n) := by
  obtain ⟨r, n, hr, hn, hP⟩ := whileFuel_total cleanTopCond cleanTopBody
    (fun s => s.priorityQueue.length) (fun s r => r = cleanPriorityTop s)
    (by
      intro s hc
      unfold cleanTopCond at hc
      unfold cleanTopBody
      cases hq : s.priorityQueue with
      | nil => simp [hq] at hc
      | cons p rest => simp [hq])
    (by
      intro s hc
      unfold cleanTopCond at hc
      unfold cleanPriorityTop
      cases hq : s.priorityQueue with
      | nil =>
        cases s
        simp_all [dropTreated]
      | cons p rest =>
        rw [hq] at hc
        simp only [Bool.not_eq_false'] at hc
        cases s
        simp_all [dropTreated])
    (by
      intro s r hc hr
      unfold cleanTopCond at hc
      rw [hr]
      unfold cleanPriorityTop cleanTopBody
      cases hq : s.priorityQueue with
      | nil => simp [hq] at hc
      | cons p rest =>
        rw [hq] at hc
        simp only [Bool.not_eq_true'] at hc
        simp [dropTreated, hc]) fuel s h
  exact ⟨n, hn, by rw [hr, hP]⟩

theorem cleanFront_loop (s : HospitalQueueSystem) (fuel : Nat)
    (h : s.normalQueue.length ≤ fuel) :
    ∃ n, n ≤ s.normalQueue.length ∧
      whileFuel cleanFrontCond cleanFrontBody fuel s = some (cleanNormalFront s, n) := by
  obtain ⟨r, n, hr, hn, hP⟩ := whileFuel_total cleanFrontCond cleanFrontBody
    (fun s => s.normalQueue.length) (fun s r => r = cleanNormalFront s)
    (by
      intro s hc
      unfold cleanFrontCond at hc
      unfold cleanFrontBody
      cases hq : s.normalQueue with
      | nil => simp [hq] at hc
      | cons p rest => simp [hq])
    (by
      intro s hc
      unfold cleanFrontCond at hc
      unfold cleanNormalFront
      cases hq : s.normalQueue with
      | nil =>
        cases s
        simp_all [dropTreated]
      | cons p rest =>
        rw [hq] at hc
        simp only [Bool.not_eq_false'] at hc
        cases s
        simp_all [dropTreated])
    (by
      intro s r hc hr
      unfold cleanFrontCond at hc
      rw [hr]
      unfold cleanNormalFront cleanFrontBody
      cases hq : s.normalQueue with
      | nil => simp [hq] at hc
      | cons p rest =>
        rw [hq] at hc
        simp only [Bool.not_eq_true'] at hc
        simp [dropTreated, hc]) fuel s h
  exact ⟨n, hn, by rw [hr, hP]⟩

theorem sweep_loop (w : Warehouse) (d : String) (fuel : Nat)
    (h : w.expiryHeap.length ≤ fuel) :
    ∃ n, n ≤ w.expiryHeap.length ∧
      whileFuel (sweepCond d) sweepBody fuel (w, []) = some (removeExpired w d, n) := by
  obtain ⟨r, n, hr, hn, hP⟩ := whileFuel_total (sweepCond d) sweepBody
    (fun s => s.1.expiryHeap.length)
    (fun s r => r = ((removeExpired s.1 d).1, s.2 ++ (removeExpired s.1 d).2))
    (by
      intro s hc
      unfold sweepCond at hc
      unfold sweepBody
      cases hq : s.1.expiryHeap with
      | nil => simp [hq] at hc
      | cons pr rest =>
        by_cases hl : mapContains s.1.itemMap pr.2 = true <;> simp [hl, hq])
    (by
      intro s hc
      unfold sweepCond at hc
      unfold removeExpired
      obtain ⟨w0, out⟩ := s
      cases hq : w0.expiryHeap with
      | nil =>
        cases w0
        simp_all [removeExpiredLoop]
      | cons pr rest =>
        simp only [hq] at hc
        cases w0
        simp_all [removeExpiredLoop])
    (by
      intro s r hc hr
      unfold sweepCond at hc
      rw [hr]
      obtain ⟨w0, out⟩ := s
      unfold removeExpired sweepBody
      cases hq : w0.expiryHeap with
      | nil => simp [hq] at hc
      | cons pr rest =>
        simp only [hq] at hc
        by_cases hl : mapContains w0.itemMap pr.2 = true
        · simp [removeExpiredLoop, hc, hl]
        · simp [removeExpiredLoop, hc, hl]) fuel (w, []) h
  refine ⟨n, hn, ?_⟩
  rw [hr, hP]
  simp

theorem skip_loop (record : List (String × Patient)) (p0 : Patient) (rest0 : List Patient)
    (fuel : Nat) (h : rest0.length + 1 ≤ fuel) :
    ∃ r n, whileFuel (skipCond record) skipBody fuel (p0, rest0, false) = some (r, n) ∧
      n ≤ rest0.length + 1 ∧
      (if r.2.2 then skipTreated record p0 rest0 = none
        else skipTreated record p0 rest0 = some (r.1, r.2.1)) := by
  obtain ⟨r, n, hr, hn, hP⟩ := whileFuel_total (skipCond record) skipBody
    (fun s => if s.2.2 then 0 else s.2.1.length + 1)
    (fun s r => (s.2.2 = true → r = s) ∧
      (s.2.2 = false → if r.2.2 then skipTreated record s.1 s.2.1 = none
        else skipTreated record s.1 s.2.1 = some (r.1, r.2.1)))
    (by
      intro s hc
      obtain ⟨p, pq, ret⟩ := s
      unfold skipCond at hc
      simp only [Bool.and_eq_true, Bool.not_eq_true'] at hc
      unfold skipBody
      cases pq with
      | nil => simp [hc.1]
      | cons e rest => simp [hc.1])
    (by
      intro s hc
      obtain ⟨p, pq, ret⟩ := s
      unfold skipCond at hc
      refine ⟨fun _ => rfl, ?_⟩
      intro hret
      have hret' : ret = false := hret
      subst hret'
      simp only [Bool.not_false, Bool.true_and, Bool.not_eq_false'] at hc
      cases pq <;> simp [skipTreated, hc])
    (by
      intro s r hc hP
      obtain ⟨p, pq, ret⟩ := s
      unfold skipCond at hc
      simp only [Bool.and_eq_true, Bool.not_eq_true'] at hc
      obtain ⟨hret, hstale⟩ := hc
      have hret' : ret = false := hret
      have hstale' : mapContains record p.id = false := hstale
      subst hret'
      refine ⟨fun hc' => by simp at hc', fun _ => ?_⟩
      cases pq with
      | nil =>
        have := hP.1 rfl
        rw [this]
        simp [skipBody, skipTreated, hstale']
      | cons e rest =>
        have := hP.2 rfl
        simpa [skipBody, skipTreated, hstale'] using this) fuel (p0, rest0, false)
    (by simpa using h)
  exact ⟨r, n, hr, by simpa using hn, hP.2 rfl⟩

theorem treatNextNormalFuel_total (fuel : Nat) :
    ∀ s : HospitalQueueSystem, s.normalQueue.length < fuel →
      ∃ d, d ≤ s.normalQueue.length ∧
        treatNextNormalFuel fuel s
          = some ((treatNextNormal s).1, (treatNextNormal s).2, d) := by
  induction fuel with
  | zero => intro s h; omega
  | succ fuel ih =>
    intro s h
    cases hq : s.normalQueue with
    | nil =>
      refine ⟨0, Nat.zero_le _, ?_⟩
      rw [treatNextNormal_empty s hq]
      simp [treatNextNormalFuel, hq]
    | cons p q =>
      have hstep : treatNextNormal s = treatNextNormalFrom (p :: q) s := by
        unfold treatNextNormal
        rw [hq]
      by_cases hl : mapContains s.record p.id = true
      · refine ⟨0, Nat.zero_le _, ?_⟩
        rw [hstep]
        simp [treatNextNormalFuel, hq, treatNextNormalFrom, hl]
      · rw [hq] at h
        obtain ⟨d, hd, hres⟩ := ih { s with normalQueue := q } (by
          simp only [List.length_cons] at h
          simpa using Nat.lt_of_succ_lt_succ h)
        have hrec : treatNextNormal { s with normalQueue := q }
            = treatNextNormalFrom q { s with normalQueue := q } := rfl
        rw [hrec] at hres
        refine ⟨d + 1, by simpa using hd, ?_⟩
        rw [hstep]
        simp [treatNextNormalFuel, hq, treatNextNormalFrom, hl, hres]

/-- C18: every take is bounded. `treatNextNormal`, with its self-call made on the
state whose normal queue has lost its front, returns the result of the member
within as many nested self-calls as the queue has entries; the loops of
`cleanPriorityTop`, `cleanNormalFront` and `removeExpired` end in the state the
members produce within as many iterations as the queue or heap has entries; and
the skip loop of `treatNextPriority` ends within as many iterations as the queue
had entries when the member was called, at the entry the member treats or with
the queue run empty. -/
theorem takes_are_bounded :
    (∀ (s : HospitalQueueSystem) (fuel : Nat), s.normalQueue.length < fuel →
      ∃ d, d ≤ s.normalQueue.length ∧
        treatNextNormalFuel fuel s
          = some ((treatNextNormal s).1, (treatNextNormal s).2, d)) ∧
    (∀ (s : HospitalQueueSystem) (fuel : Nat), s.priorityQueue.length ≤ fuel →
      ∃ n, n ≤ s.priorityQueue.length ∧
        whileFuel cleanTopCond cleanTopBody fuel s = some (cleanPriorityTop s, n)) ∧
    (∀ (s : HospitalQueueSystem) (fuel : Nat), s.normalQueue.length ≤ fuel →
      ∃ n, n ≤ s.normalQueue.length ∧
        whileFuel cleanFrontCond cleanFrontBody fuel s = some (cleanNormalFront s, n)) ∧
    (∀ (w : Warehouse) (d : String) (fuel : Nat), w.expiryHeap.length ≤ fuel →
      ∃ n, n ≤ w.expiryHeap.length ∧
        whileFuel (sweepCond d) sweepBody fuel (w, []) = some (removeExpired w d, n)) ∧
    (∀ (s : HospitalQueueSystem) (p0 : Patient) (rest0 : List Patient) (fuel : Nat),
      s.priorityQueue = p0 :: rest0 → s.priorityQueue.length ≤ fuel →
      ∃ r n, whileFuel (skipCond s.record) skipBody fuel (p0, rest0, false) = some (r, n) ∧
        n ≤ s.priorityQueue.length ∧
        (if r.2.2 then skipTreated s.record p0 rest0 = none
          else skipTreated s.record p0 rest0 = some (r.1, r.2.1))) := by
  refine ⟨fun s fuel h => treatNextNormalFuel_total fuel s h, cleanTop_loop, cleanFront_loop,
    sweep_loop, ?_⟩
  intro s p0 rest0 fuel hq hf
  rw [hq] at hf ⊢
  exact skip_loop s.record p0 rest0 fuel (by simpa using hf)

/-- C18 at `sampleWard`, whose normal queue `[b, c]` starts with a stale entry:
the member makes one self-call. -/
theorem takes_are_bounded_witness :
    sampleWard.normalQueue.length < 3 ∧
    ∃ d, d ≤ sampleWard.normalQueue.length ∧
      treatNextNormalFuel 3 sampleWard
        = some ((treatNextNormal sampleWard).1, (treatNextNormal sampleWard).2, d) :=
  ⟨by decide, takes_are_bounded.1 sampleWard 3 (by decide)⟩

end DSA
